import Mathlib

/-!
Verification development for the PlayerRandomizer skill-tree generator
(`PlayerRandomizer/skill_pool.py`, `class_mod_patcher.py`, `dependency.py`,
`__init__.py`).

The Python source is shallowly embedded: mutable objects become records,
method calls become state-passing functions, Python floats become exact
rationals (`ℚ`; all float literals in the source, such as `0.66`, are modelled
by the decimal rational they denote), Python dicts become insertion-ordered
association lists with unique keys, and the seeded `random.Random` generator
becomes an abstract stream of rationals consumed one value per primitive call.
Fallible paths (exceptions, index errors, unbounded `while True` loops) are
modelled with `Option` and an explicit fuel parameter.
-/

namespace PlayerRandomizer

/-- Python dict with string keys: an insertion-ordered association list. -/
abbrev Dict (α : Type) := List (String × α)

/-- Python `d[k] = v`: update in place if the key exists, else append. -/
def dictInsert {α : Type} (k : String) (v : α) (d : Dict α) : Dict α :=
  if d.any (fun p => p.1 == k) then
    d.map (fun p => if p.1 == k then (k, v) else p)
  else d ++ [(k, v)]

/-- Python `del d[k]` (the sources only delete keys that are present, in which
case deletion coincides with filtering the key out). -/
def dictErase {α : Type} (k : String) (d : Dict α) : Dict α :=
  d.filter (fun p => ¬ p.1 == k)

/-- Python `d[k] = v` on existing objects reached through an engine name
(`set ... ConsoleCommand`): update the entry if present, else no effect. -/
def dictUpdate {α : Type} (k : String) (v : α) (d : Dict α) : Dict α :=
  d.map (fun p => if p.1 == k then (k, v) else p)

/-- `skills.Skill`: the fields of `skills.py:Skill` that the generator reads. -/
structure Skill where
  full_name : String
  max_grade : Int
  deriving Repr, DecidableEq

/-- `Skill.is_upgradable` from `skills.py` line 67: `max_grade > 1`. -/
def Skill.is_upgradable (s : Skill) : Bool := s.max_grade > 1

/-- `dependency.Dependency` (`dependency.py`). -/
structure Dependency where
  name : String
  providers : List String
  extra_skills : List String
  dependers : List String
  wanters : List String
  deriving Repr, DecidableEq

/-- `skill_pool.Branch` together with the fields added by `Branch.prepare`. -/
structure Branch where
  full_name : String
  layout_name : String
  skills : List (List String)
  points_to_unlock : List Int
  layout : List (List Bool)
  idx : Nat
  slots_left : Int
  expected_skills : Int
  skill_count : Int
  skill_weights : List ℚ
  total_weight : ℚ
  deriving Repr, DecidableEq

instance : Inhabited Branch :=
  ⟨⟨"", "", [], [], [], 0, 0, 0, 0, [], 0⟩⟩

/-- `Branch.prepare` (`skill_pool.py` lines 61-78). -/
def Branch.prepare (b : Branch) (idx : Nat) (expected_skills : Int)
    (skill_weights : List ℚ) : Branch :=
  { b with idx := idx, slots_left := 18, expected_skills := expected_skills,
           skill_count := 0, skill_weights := skill_weights,
           total_weight := skill_weights.sum }

/-- `skill_pool.py` line 98. -/
def PRIORITY_WEIGHT : Int := 1000
/-- `skill_pool.py` line 99. -/
def ACTION_WEIGHT : Int := 3
/-- `skill_pool.py` line 100. -/
def THEME_WEIGHT : Int := 5

/-- The mutable state of `skill_pool.SkillPool` (rng is threaded separately). -/
structure SkillPool where
  dependencies : Dict Dependency
  skills : Dict Skill
  skill_order : List String
  extra_skills : List String
  class_mod_skills : List Skill
  current_char_class : Option String
  original_branches : Option (List Branch)
  new_branches : List Branch
  deriving Repr, DecidableEq

/-- `SkillPool.__init__` (minus the rng). -/
def SkillPool.init : SkillPool :=
  ⟨[], [], [], [], [], none, none, []⟩

/-- `SkillPool.add_skills` (`skill_pool.py` lines 123-131). -/
def add_skills (skill_list : List Skill) (st : SkillPool) : SkillPool :=
  { st with skills :=
      skill_list.foldl (fun d sk => dictInsert sk.full_name sk d) st.skills }

/-- `SkillPool.add_dependency` (`skill_pool.py` lines 133-141). -/
def add_dependency (dep : Dependency) (st : SkillPool) : SkillPool :=
  { st with dependencies :=
      dep.providers.foldl (fun d p => dictInsert p dep d) st.dependencies }

/-- One weight adjustment from `SkillPool.mark_used` lines 171-176: action
draws multiply by `ACTION_WEIGHT` everywhere, the drawing branch multiplies by
`THEME_WEIGHT`, all other branches are zeroed. -/
def adjustWeight (branch_idx : Int) (b : Nat) (w : ℚ) : ℚ :=
  if branch_idx < 0 then w * (ACTION_WEIGHT : ℚ)
  else if (b : Int) = branch_idx then w * (THEME_WEIGHT : ℚ)
  else 0

/-- Python `int(x)`: truncation toward zero. -/
def pyInt (x : ℚ) : Int := if 0 ≤ x then ⌊x⌋ else -⌊-x⌋

/-- Python `list.index(x)`: position of the first occurrence, `none` for the
raised `ValueError` when absent. -/
def pyIndex (x : String) : List String → Option Nat
  | [] => none
  | a :: l => if a == x then some 0 else (pyIndex x l).map (fun i => i + 1)

/-- The body of the themed-skill loop of `mark_used` (lines 168-179) for one
themed name: adjust its weight cell and update `total_weight` by the delta.  A
themed name absent from `skill_order` raises `ValueError` in the source and is
skipped. -/
def adjStep (order : List String) (branch_idx : Int) (b : Nat) (br : Branch)
    (t : String) : Branch :=
  match pyIndex t order with
  | none => br
  | some i =>
    let w := br.skill_weights.getD i 0
    let w' := adjustWeight branch_idx b w
    { br with skill_weights := br.skill_weights.set i w',
              total_weight := br.total_weight - w + w' }

/-- The themed-skill loop of `mark_used` lines 167-179 applied to the branch
at position `b`. -/
def adjustBranchForDep (themed : List String) (order : List String)
    (branch_idx : Int) (b : Nat) (br : Branch) : Branch :=
  themed.foldl (adjStep order branch_idx b) br

/-- The themed list of `mark_used` lines 164-166: providers plus dependers,
extended by wanters exactly when `hidden_skills == "None"`. -/
def themedSkills (dep : Dependency) (hidden_skills : String) : List String :=
  dep.providers ++ dep.dependers ++
    (if hidden_skills == "None" then dep.wanters else [])

/-- Map a function over a list together with each element's position,
starting from a given index (the `for idx in range(len(...))` loop shape). -/
def mapWithIdx {α β : Type} (f : Nat → α → β) : Nat → List α → List β
  | _, [] => []
  | i, a :: as => f i a :: mapWithIdx f (i + 1) as

/-- The dependency block of `SkillPool.mark_used` (lines 158-186): if the
consumed skill is a registered provider, adjust the themed weights in every
branch, queue the dependency's granted extra skills, and delete every provider
of the dependency from the registry. -/
def depPhase (skill : Skill) (hidden_skills : String) (branch_idx : Int)
    (st : SkillPool) : SkillPool :=
  match st.dependencies.lookup skill.full_name with
  | none => st
  | some dep =>
    let themed := themedSkills dep hidden_skills
    { st with
      new_branches := mapWithIdx
        (fun i br => adjustBranchForDep themed st.skill_order branch_idx i br)
        0 st.new_branches,
      extra_skills := st.extra_skills ++ dep.extra_skills,
      dependencies :=
        dep.providers.foldl (fun d p => dictErase p d) st.dependencies }

/-- The draw-without-replacement block of `SkillPool.mark_used` (lines
188-199): zero the drawn skill's weight in every branch (note: without
touching `total_weight`) and record it for class mods when upgradable; a skill
not in `skill_order` raises `ValueError` there and the block is skipped. -/
def zeroSkillPhase (skill : Skill) (st : SkillPool) : SkillPool :=
  match pyIndex skill.full_name st.skill_order with
  | none => st
  | some i =>
    { st with
      new_branches := st.new_branches.map
        (fun br => { br with skill_weights := br.skill_weights.set i 0 }),
      class_mod_skills :=
        if skill.is_upgradable then st.class_mod_skills ++ [skill]
        else st.class_mod_skills }

/-- `SkillPool.mark_used` (`skill_pool.py` lines 143-201). -/
def mark_used (skill : Skill) (hidden_skills : String) (branch_idx : Int)
    (st : SkillPool) : Skill × SkillPool :=
  (skill, zeroSkillPhase skill (depPhase skill hidden_skills branch_idx st))

/-- The seeded `random.Random`: an abstract stream of rationals (each call to
the generator consumes the value at `pos`; for a uniform draw the value is
read in `[0, 1)`).  The stream is the model of the master seed. -/
structure RNG where
  stream : Nat → ℚ
  pos : Nat

/-- Consume one value from the generator (`random.Random.random()`). -/
def RNG.next (r : RNG) : ℚ × RNG :=
  (r.stream r.pos, { r with pos := r.pos + 1 })

/-- `random.Random.choice(seq)`: uniform index `⌊u·len⌋`; `IndexError` on an
empty sequence. -/
def RNG.choice {α : Type} (l : List α) (r : RNG) : Option (α × RNG) :=
  let (u, r') := r.next
  match l with
  | [] => none
  | a :: _ => some (l.getD (Int.toNat ⌊u * (l.length : ℚ)⌋) a, r')

/-- `random.Random.randint(a, b)`: uniform integer in `[a, b]`. -/
def RNG.randint (a b : Int) (r : RNG) : Int × RNG :=
  let (u, r') := r.next
  (a + ⌊u * ((b - a + 1 : Int) : ℚ)⌋, r')

/-- Selection by cumulative weight: the least index `i` with
`x < w₀ + ⋯ + wᵢ` (the index `random.choices` computes by bisecting the
cumulative weights for `x` in `[0, total)`). -/
def weightedPick : List ℚ → ℚ → Nat
  | [], _ => 0
  | w :: ws, x => if x < w then 0 else weightedPick ws (x - w) + 1

/-- `random.Random.choices(population, weights)[0]`: raises `ValueError` when
the lengths differ or the total weight is not positive. -/
def RNG.choicesWeighted (pop : List String) (weights : List ℚ) (r : RNG) :
    Option (String × RNG) :=
  let (u, r') := r.next
  if pop.length ≠ weights.length then none
  else if weights.sum ≤ 0 then none
  else some (pop.getD (weightedPick weights (u * weights.sum)) "", r')

/-- The blocking test of `get_next_skill` lines 226-228: a dependency blocks a
drawn name when the name is among its wanters (under the strict `"None"`
policy) or among its dependers. -/
def blocksSkill (hidden_skills name : String) (dep : Dependency) : Bool :=
  (hidden_skills == "None" && dep.wanters.contains name) ||
    dep.dependers.contains name

/-- The `for dep in self.dependencies.values()` scan of `get_next_skill`:
first registered dependency (in insertion order) that blocks the name. -/
def findBlockingDep (hidden_skills name : String) (deps : Dict Dependency) :
    Option Dependency :=
  (deps.find? (fun p => blocksSkill hidden_skills name p.2)).map (fun p => p.2)

/-- `SkillPool.get_next_skill` (`skill_pool.py` lines 203-242).  The
`while True` re-draw loop (taken when a substituted provider is not in the
pool) is bounded by `fuel`; `none` models a raised exception or exhausted
fuel. -/
def get_next_skill (hidden_skills : String) (branch_idx : Nat) :
    Nat → SkillPool → RNG → Option (Skill × SkillPool × RNG)
  | 0, _, _ => none
  | fuel + 1, st, rng =>
    match st.new_branches.get? branch_idx with
    | none => none
    | some br =>
      match RNG.choicesWeighted st.skill_order br.skill_weights rng with
      | none => none
      | some (skill_name, rng1) =>
        if hidden_skills == "All" then
          match st.skills.lookup skill_name with
          | none => none
          | some sk =>
            let r := mark_used sk hidden_skills (branch_idx : Int) st
            some (r.1, r.2, rng1)
        else
          match findBlockingDep hidden_skills skill_name st.dependencies with
          | none =>
            match st.skills.lookup skill_name with
            | none => none
            | some sk =>
              let r := mark_used sk hidden_skills (branch_idx : Int) st
              some (r.1, r.2, rng1)
          | some dep =>
            match RNG.choice dep.providers rng1 with
            | none => none
            | some (provider, rng2) =>
              match st.skills.lookup provider with
              | some sk =>
                let r := mark_used sk hidden_skills (branch_idx : Int) st
                some (r.1, r.2, rng2)
              | none => get_next_skill hidden_skills branch_idx fuel st rng2

/-- `SkillPool.get_extra_skills` (`skill_pool.py` lines 244-254). -/
def get_extra_skills (st : SkillPool) : List String × SkillPool :=
  (st.extra_skills, { st with extra_skills := [] })

/-- Read the branch at a position of `new_branches`. -/
def branchAt (st : SkillPool) (bi : Nat) : Branch :=
  st.new_branches.getD bi default

/-- Overwrite one weight cell of the branch at position `bi`. -/
def setBranchWeight (st : SkillPool) (bi i : Nat) (v : ℚ) : SkillPool :=
  { st with new_branches :=
      match st.new_branches.get? bi with
      | none => st.new_branches
      | some br =>
        st.new_branches.set bi
          { br with skill_weights := br.skill_weights.set i v } }

/-- The body of the `for other_branch in self.new_branches:` loop in the
cheat pass (lines 405-411): when the probed branch has the cheat's weight
zeroed, assign the cheat cell of the branch being populated. -/
def cheat_for_body (bi ci : Nat) (tier : Nat) (cheat_tier : Int)
    (s : SkillPool) (j : Nat) : SkillPool :=
  let ob := branchAt s j
  if ob.skill_weights.getD ci 0 = 0 then
    if cheat_tier = (tier : Int) then
      setBranchWeight s bi ci
        ((branchAt s bi).total_weight * (PRIORITY_WEIGHT : ℚ))
    else
      setBranchWeight s bi ci
        ((branchAt s bi).total_weight / ((cheat_tier - tier : Int) : ℚ))
  else s

/-- One iteration of the cheat loop of `randomize_branch_tier` (lines
395-419).  Note the source's `for other_branch ... else:` has no `break`, so
the `else:` clause always runs after the inner loop and overwrites the cell
the loop body assigned.  A cheat name absent from `skill_order` raises
`ValueError`, which is caught and logged at error level. -/
def cheat_step (bi : Nat) (tier : Nat) (st : SkillPool)
    (cheat_name : String) (cheat_tier : Int) : SkillPool × List String :=
  match pyIndex cheat_name st.skill_order with
  | none => (st, ["Desired skill " ++ cheat_name ++ " is not in the pool."])
  | some ci =>
    let br := branchAt st bi
    if br.skill_weights.getD ci 0 = 0 then (st, [])
    else if cheat_tier < (tier : Int) then
      (setBranchWeight st bi ci (br.total_weight * (PRIORITY_WEIGHT : ℚ)), [])
    else
      let st1 := (List.range st.new_branches.length).foldl
        (cheat_for_body bi ci tier cheat_tier) st
      let br1 := branchAt st1 bi
      if (tier : Int) = cheat_tier ∧ br1.idx = 2 then
        (setBranchWeight st1 bi ci (br1.total_weight * (PRIORITY_WEIGHT : ℚ)),
         [])
      else
        (setBranchWeight st1 bi ci
          (br1.total_weight /
            ((3 * (cheat_tier - tier) + 2 - (br1.idx : Int) : Int) : ℚ)), [])

/-- The tier skill-count selection of `randomize_branch_tier` lines 427-435,
with the uniform draw consumed only in the two probabilistic bands. -/
def choose_skill_count (expected_density : ℚ) (rng : RNG) : Nat × RNG :=
  if expected_density > 0.99 then (3, rng)
  else if expected_density > 0.66 then
    let (r, rng') := rng.next
    (if 3 * (expected_density - 0.66) > r then 3 else 2, rng')
  else if expected_density > 0.33 then
    let (r, rng') := rng.next
    (if 3 * (expected_density - 0.33) > r then 2 else 1, rng')
  else if expected_density > 0 then (1, rng)
  else (0, rng)

/-- The occupancy row of `randomize_branch_tier` lines 436-438:
`[skill_count > 1, skill_count & 1 > 0, skill_count > 1]`. -/
def tier_layout_of (skill_count : Nat) : List Bool :=
  [decide (skill_count > 1), decide (skill_count &&& 1 > 0),
   decide (skill_count > 1)]

/-- The draw loop of `randomize_branch_tier` lines 443-447, accumulating
`max_points`, `total_points` and the tier's skill names. -/
def draw_skills (fuel : Nat) (hidden_skills : String) (bi : Nat) :
    Nat → SkillPool → RNG → Int → Int → List String →
    Option (SkillPool × RNG × Int × Int × List String)
  | 0, st, rng, maxp, totp, acc => some (st, rng, maxp, totp, acc)
  | n + 1, st, rng, maxp, totp, acc =>
    match get_next_skill hidden_skills bi fuel st rng with
    | none => none
    | some (sk, st', rng') =>
      draw_skills fuel hidden_skills bi n st' rng'
        (max maxp sk.max_grade) (totp + sk.max_grade) (acc ++ [sk.full_name])

/-- The cheat loop of `randomize_branch_tier` (lines 395-419) over the whole
cheat dict, accumulating the error log. -/
def cheat_pass (bi : Nat) (tier : Nat) (cheats : List (String × Int))
    (st : SkillPool) : SkillPool × List String :=
  cheats.foldl (fun (acc : SkillPool × List String) c =>
    let r := cheat_step bi tier acc.1 c.1 c.2
    (r.1, acc.2 ++ r.2)) (st, [])

/-- The write-back tail of `randomize_branch_tier` (lines 449-460): store the
tier's layout row, skills and unlock threshold, update the branch counters,
and at tier 5 drain the extra-skills queue into the final tier. -/
def finish_tier (bi tier : Nat) (randomize_tiers : Bool) (skill_count : Nat)
    (max_points total_points : Int) (tier_skills : List String)
    (st2 : SkillPool) (rng2 : RNG) : SkillPool × RNG :=
  let br2 := branchAt st2 bi
  let pr :=
    if randomize_tiers then
      RNG.randint 1 (max 1 (pyInt ((0.66 : ℚ) * (total_points : ℚ)))) rng2
    else (max_points, rng2)
  let br3 := { br2 with
    layout := br2.layout.set tier (tier_layout_of skill_count),
    skills := br2.skills.set tier tier_skills,
    points_to_unlock := br2.points_to_unlock.set tier pr.1,
    skill_count := br2.skill_count + (skill_count : Int),
    slots_left := br2.slots_left - 3 }
  let st3 := { st2 with new_branches := st2.new_branches.set bi br3 }
  if tier = 5 then
    let ex := get_extra_skills st3
    let br4 := { br3 with
      skills := br3.skills.set 5 (br3.skills.getD 5 [] ++ ex.1) }
    ({ ex.2 with new_branches := ex.2.new_branches.set bi br4 }, pr.2)
  else (st3, pr.2)

/-- `SkillPool.randomize_branch_tier` (`skill_pool.py` lines 366-460), acting
on the branch at position `bi` of `new_branches`.  Returns the new state and
rng (or `none` on a raised exception) together with logged messages. -/
def randomize_branch_tier (fuel : Nat) (bi : Nat) (tier : Nat)
    (randomize_tiers : Bool) (hidden_skills : String)
    (cheats : List (String × Int)) (st : SkillPool) (rng : RNG) :
    Option (SkillPool × RNG) × List String :=
  let cs := cheat_pass bi tier cheats st
  let br := branchAt cs.1 bi
  let expected_density : ℚ :=
    ((br.expected_skills - br.skill_count : Int) : ℚ) / ((br.slots_left : Int) : ℚ)
  let scr := choose_skill_count expected_density rng
  match draw_skills fuel hidden_skills bi scr.1 cs.1 scr.2 0 0 [] with
  | none => (none, cs.2)
  | some (st2, rng2, max_points, total_points, tier_skills) =>
    (some (finish_tier bi tier randomize_tiers scr.1 max_points total_points
      tier_skills st2 rng2), cs.2)

/-- The `expected_density` local of `randomize_branch_tier` (line 425),
read off the branch at position `bi`. -/
def expected_density (st : SkillPool) (bi : Nat) : ℚ :=
  (((branchAt st bi).expected_skills - (branchAt st bi).skill_count : Int) : ℚ) /
    (((branchAt st bi).slots_left : Int) : ℚ)

/-- Update one element of a list in place (no effect out of range). -/
def listModify {α : Type} (l : List α) (i : Nat) (f : α → α) : List α :=
  match l.get? i with
  | none => l
  | some a => l.set i (f a)

/-- `characters.class_from_obj_name` (`characters.py` lines 9-29). -/
def class_from_obj_name (name : String) : Option String :=
  match name.splitOn "_" with
  | _ :: char :: _ =>
    some (if char.startsWith "Lilac" then "Psycho"
          else if char.startsWith "Tulip" then "Mechromancer"
          else if char.startsWith "Doppel" then "Doppelganger"
          else char)
  | _ => none

/-- `characters.Character`: the catalog data the generator reads (per-class
skill lists, dependencies, the action skill).  The catalog is external input
(game data plus `character_hint.HINT_MAP`). -/
structure Character where
  name : String
  character_name : String
  action_skill : Skill
  pure_skills : List Skill
  misdocumented_skills : List Skill
  suppressed_skills : List Skill
  dependencies : List Dependency
  deriving Repr, DecidableEq

/-- `characters.Character.from_name`. -/
def Character.from_name (catalog : List Character) (n : String) :
    Option Character :=
  catalog.find? (fun c => c.character_name == n)

/-- One `SkillTreeBranchDefinition` as stored in the engine: its layout
object's name and its tiers (skill names paired with
`PointsToUnlockNextTier`). -/
structure EngineBranchDef where
  layout_name : String
  tiers : List (List String × Int)
  deriving Repr, DecidableEq

/-- One `ClassModDefinition` as stored in the engine: required player class
and its `AttributeSlotEffects` (slot name, `AttributeToModify` object name or
null). -/
structure EngineCom where
  required_class : Option String
  slots : List (String × Option String)
  deriving Repr, DecidableEq

/-- The external engine ("Tree Writer" / "Mod Writer") state the generator
reads and writes: branch definitions, layout definitions, the action tier-0
skill slot of each tree root, and class-mod definitions. -/
structure Engine where
  branch_defs : Dict EngineBranchDef
  layout_defs : Dict (List (List Bool))
  action_slots : Dict (List String)
  com_defs : Dict EngineCom
  deriving Repr, DecidableEq

/-- `Branch.from_branch` (`skill_pool.py` lines 14-33): snapshot a branch and
its layout from the engine (engine tiers hold the non-null skill names). -/
def Branch.from_branch (e : Engine) (name : String) : Option Branch :=
  match e.branch_defs.lookup name with
  | none => none
  | some bd =>
    match e.layout_defs.lookup bd.layout_name with
    | none => none
    | some lay =>
      some { full_name := name, layout_name := bd.layout_name,
             skills := bd.tiers.map (fun t => t.1),
             points_to_unlock := bd.tiers.map (fun t => t.2),
             layout := lay, idx := 0, slots_left := 0, expected_skills := 0,
             skill_count := 0, skill_weights := [], total_weight := 0 }

/-- `Branch.patch` (`skill_pool.py` lines 80-96): write the branch's tiers and
layout back into the engine by object name (a console `set` on an existing
object; absent names change nothing). -/
def Branch.patch (b : Branch) (e : Engine) : Engine :=
  { e with
    branch_defs := e.branch_defs.map (fun p =>
      if p.1 == b.full_name then
        (p.1, { p.2 with tiers := b.skills.zip b.points_to_unlock })
      else p),
    layout_defs := dictUpdate b.layout_name b.layout e.layout_defs }

/-- The skill-source loop of `randomize_tree` (lines 288-302): build the
active pool, register dependencies, and find the enabled character whose base
class matches the current player class.  Note the source compares
`hidden_skills` against the lowercase strings `"none"` and `"all"` here. -/
def build_pool (catalog : List Character) (enabled_sources : List String)
    (hidden_skills : String) (st : SkillPool) :
    SkillPool × Option Character × List String :=
  enabled_sources.foldl (fun acc char =>
    let (st, cur, logs) := acc
    match Character.from_name catalog char with
    | none => (st, cur, logs ++ ["Ignoring unknown skill source " ++ char])
    | some source_char =>
      let st := add_skills source_char.pure_skills st
      let st :=
        if hidden_skills == "none" then st
        else
          let st := add_skills source_char.misdocumented_skills st
          if hidden_skills == "all" then
            add_skills source_char.suppressed_skills st
          else st
      let st := source_char.dependencies.foldl
        (fun s d => add_dependency d s) st
      let cur := if st.current_char_class = some source_char.name
                 then some source_char else cur
      (st, cur, logs)) (st, none, [])

/-- The action-skill resolution of `randomize_tree` (lines 308-327). -/
def resolve_action_char (catalog : List Character)
    (enabled_sources : List String) (action_skill : String)
    (current_char : Option Character) (rng : RNG) :
    Option Character × RNG × List String :=
  if action_skill == "Default" then
    match current_char with
    | some c => (some c, rng, [])
    | none =>
      let l := ["Default is not a currently-enabled class.  Choosing a random action skill instead."]
      match RNG.choice enabled_sources rng with
      | none => (none, rng, l)
      | some (ch, rng') => (Character.from_name catalog ch, rng', l)
  else if action_skill == "Random" then
    match RNG.choice enabled_sources rng with
    | none => (none, rng, [])
    | some (ch, rng') => (Character.from_name catalog ch, rng', [])
  else
    match Character.from_name catalog action_skill with
    | none =>
      let l := ["Desired class " ++ action_skill ++ " is not installed.  Choosing a random action skill instead."]
      match RNG.choice enabled_sources rng with
      | none => (none, rng, l)
      | some (ch, rng') => (Character.from_name catalog ch, rng', l)
    | some dc =>
      if enabled_sources.contains dc.character_name then (some dc, rng, [])
      else
        let l := [dc.character_name ++ " is not a currently-enabled class.  Choosing a random action skill instead."]
        match RNG.choice enabled_sources rng with
        | none => (none, rng, l)
        | some (ch, rng') => (Character.from_name catalog ch, rng', l)

/-- The branch-budget loop of `randomize_tree` (lines 332-345): snapshot each
child branch, prepare a working copy with budget
`int(expected_skills / (3 - branch_idx))` and unit weights, and subtract the
claimed budget. -/
def setup_branches (e : Engine) (norder : Nat) :
    List String → Nat → ℚ → Option (List Branch × List Branch)
  | [], _, _ => some ([], [])
  | name :: rest, branch_idx, expected_skills =>
    match Branch.from_branch e name with
    | none => none
    | some old_branch =>
      let exp : Int := pyInt (expected_skills / ((3 : ℚ) - (branch_idx : ℚ)))
      let new_branch :=
        Branch.prepare old_branch branch_idx exp (List.replicate norder 1)
      match setup_branches e norder rest (branch_idx + 1)
          (expected_skills - (exp : ℚ)) with
      | none => none
      | some (olds, news) => some (old_branch :: olds, new_branch :: news)

/-- The `(tier, branch)` iteration order of `randomize_tree` lines 355-361:
for each tier 0-5, each branch in order. -/
def tier_steps (nbranches : Nat) : List (Nat × Nat) :=
  (List.range 6).foldr
    (fun t acc => (List.range nbranches).map (fun b => (t, b)) ++ acc) []

/-- Run `randomize_branch_tier` over a list of `(tier, branch)` steps. -/
def run_steps (fuel : Nat) (randomize_tiers : Bool) (hidden_skills : String)
    (cheats : List (String × Int)) :
    List (Nat × Nat) → SkillPool → RNG → Option (SkillPool × RNG) × List String
  | [], st, rng => (some (st, rng), [])
  | (t, bi) :: rest, st, rng =>
    match randomize_branch_tier fuel bi t randomize_tiers hidden_skills cheats
        st rng with
    | (none, logs) => (none, logs)
    | (some (st', rng'), logs) =>
      let r := run_steps fuel randomize_tiers hidden_skills cheats rest st' rng'
      (r.1, logs ++ r.2)

/-- The skill tree handed to `randomize_tree`: the root's object name and the
names of its child (non-action) branch definitions. -/
structure TreeDef where
  root_name : String
  children : List String
  deriving Repr, DecidableEq

/-- `SkillPool.randomize_tree` (`skill_pool.py` lines 256-364). -/
def randomize_tree (fuel : Nat) (catalog : List Character) (tree : TreeDef)
    (enabled_sources : List String) (hidden_skills : String)
    (action_skill : String) (skill_density : ℚ) (randomize_tiers : Bool)
    (cheats : List (String × Int)) (st0 : SkillPool) (e : Engine) (rng : RNG) :
    Option (SkillPool × Engine × RNG) × List String :=
  let st := { st0 with current_char_class := class_from_obj_name tree.root_name }
  match build_pool catalog enabled_sources hidden_skills st with
  | (st, current_char, logs1) =>
  let order := (st.skills.map (fun p : String × Skill => p.1)).insertionSort
    (fun a b => a ≤ b)
  let st := { st with skill_order := order }
  match resolve_action_char catalog enabled_sources action_skill current_char
      rng with
  | (desired_char, rng, logs2) =>
  let logs := logs1 ++ logs2
  let skill_density :=
    if ((st.skill_order.length * 100 : Nat) : ℚ) < 54 * skill_density then
      100 * (st.skill_order.length : ℚ) / 54
    else skill_density
  let expected0 : ℚ := 54 * skill_density / 100
  match setup_branches e st.skill_order.length tree.children 0 expected0 with
  | none => (none, logs)
  | some (olds, news) =>
    let st := { st with original_branches := some olds, new_branches := news }
    match desired_char with
    | none => (none, logs)
    | some dc =>
      let r := mark_used dc.action_skill hidden_skills (-1) st
      let slots' := dictUpdate tree.root_name [r.1.full_name] e.action_slots
      let e := { e with action_slots := slots' }
      let st := r.2
      match run_steps fuel randomize_tiers hidden_skills cheats
          (tier_steps st.new_branches.length) st rng with
      | (none, logs3) => (none, logs ++ logs3)
      | (some (st', rng'), logs3) =>
        let e := st'.new_branches.foldl (fun e b => Branch.patch b e) e
        (some (st', e, rng'), logs ++ logs3)

/-- `SkillPool.unrandomize_tree` (`skill_pool.py` lines 463-470). -/
def unrandomize_tree (st : SkillPool) (e : Engine) : SkillPool × Engine :=
  let e' := match st.original_branches with
    | none => e
    | some obs => obs.foldl (fun e b => Branch.patch b e) e
  ({ st with original_branches := none }, e')

/-- `class_mod_patcher.ClassModPatcher` state (`self.coms`; the unused
`self.original` field is omitted). -/
structure ClassModPatcher where
  coms : Option (Dict (List (Nat × String)))
  deriving Repr, DecidableEq

/-- `ClassModPatcher.__init__`. -/
def ClassModPatcher.init : ClassModPatcher := ⟨none⟩

/-- `ClassModPatcher.iterate_coms` (`class_mod_patcher.py` lines 19-41):
class mods whose required player class matches (mods with a null required
class are skipped; a `None` class name matches nothing). -/
def iterate_coms (char_class : Option String) (e : Engine) : Dict EngineCom :=
  e.com_defs.filter (fun p =>
    match p.2.required_class, char_class with
    | some rc, some cc => rc == cc
    | _, _ => false)

/-- The per-mod slot recording of `record_coms` (lines 52-63): slot indices
whose slot name starts with `"Skill"` mapped to the current attribute name
(null attributes are logged and skipped). -/
def record_slots (slots : List (String × Option String)) :
    List (Nat × String) :=
  slots.enum.foldl (fun acc p =>
    if p.2.1.startsWith "Skill" then
      match p.2.2 with
      | none => acc
      | some a => acc ++ [(p.1, a)]
    else acc) []

/-- `ClassModPatcher.record_coms` (`class_mod_patcher.py` lines 43-63). -/
def record_coms (char_class : Option String) (e : Engine)
    (cmp : ClassModPatcher) : ClassModPatcher :=
  let recorded := (iterate_coms char_class e).map
    (fun p => (p.1, record_slots p.2.slots))
  { cmp with coms := some recorded }

/-- The model of `skill.attribute_def._path_name()`: the attribute object the
patcher writes into a class-mod slot for a given skill. -/
def attr_of (sk : Skill) : String := "Attr." ++ sk.full_name

/-- Write one class-mod attribute slot in the engine. -/
def setComSlot (com_name : String) (slot_index : Nat) (attr : String)
    (e : Engine) : Engine :=
  { e with com_defs := e.com_defs.map (fun p =>
      if p.1 == com_name then
        (p.1, { p.2 with
          slots := listModify p.2.slots slot_index (fun q => (q.1, some attr)) })
      else p) }

/-- The special-mod rejection sampling of `randomize_coms` (lines 87-100):
redraw while the mod is a Tiny Tina (`GD_Aster`) mod, or has fewer than 4
skill slots when more than 3 cheat skills are pending, or more than 3 skill
slots otherwise. -/
def pick_special_com (coms : Dict (List (Nat × String))) (ncheats : Nat) :
    Nat → RNG → Option (String × RNG)
  | 0, _ => none
  | fuel + 1, rng =>
    match RNG.choice (coms.map (fun p => p.1)) rng with
    | none => none
    | some (name, rng') =>
      if name.startsWith "GD_Aster" then pick_special_com coms ncheats fuel rng'
      else
        match coms.lookup name with
        | none => none
        | some slot_map =>
          if ncheats > 3 then
            if slot_map.length < 4 then pick_special_com coms ncheats fuel rng'
            else some (name, rng')
          else if slot_map.length > 3 then
            pick_special_com coms ncheats fuel rng'
          else some (name, rng')

/-- The inner rejection loop of `randomize_coms` (lines 112-115): redraw until
the skill was not already used in this mod. -/
def draw_unused (skills : List Skill) (used : List String) :
    Nat → RNG → Option (Skill × RNG)
  | 0, _ => none
  | fuel + 1, rng =>
    match RNG.choice skills rng with
    | none => none
    | some (sk, rng') =>
      if used.contains sk.full_name then draw_unused skills used fuel rng'
      else some (sk, rng')

/-- The slot loop of `randomize_coms` (lines 107-119) for one mod: pending
cheat skills fill the special mod's slots first (`set.pop()` is modelled as
taking the head), other slots draw without repeats within the mod. -/
def assign_one_com (fuel : Nat) (skills : List Skill) (special com_name : String) :
    List (Nat × String) → List Skill → List String → Engine → RNG →
    Option (Engine × RNG × List Skill)
  | [], cheat_skills, _, e, rng => some (e, rng, cheat_skills)
  | (slot_index, _) :: rest, cheat_skills, used, e, rng =>
    match (if com_name == special then cheat_skills else []) with
    | sk :: cs =>
      assign_one_com fuel skills special com_name rest cs
        (used ++ [sk.full_name])
        (setComSlot com_name slot_index (attr_of sk) e) rng
    | [] =>
      match draw_unused skills used fuel rng with
      | none => none
      | some (sk, rng') =>
        assign_one_com fuel skills special com_name rest cheat_skills
          (used ++ [sk.full_name])
          (setComSlot com_name slot_index (attr_of sk) e) rng'

/-- The mod loop of `randomize_coms` (lines 103-119). -/
def assign_coms (fuel : Nat) (skills : List Skill) (special : String) :
    Dict (List (Nat × String)) → List Skill → Engine → RNG →
    Option (Engine × RNG)
  | [], _, e, rng => some (e, rng)
  | (com_name, slot_map) :: rest, cheat_skills, e, rng =>
    match assign_one_com fuel skills special com_name slot_map cheat_skills []
        e rng with
    | none => none
    | some (e', rng', cs') => assign_coms fuel skills special rest cs' e' rng'

/-- `ClassModPatcher.randomize_coms` (`class_mod_patcher.py` lines 65-119).
With fewer than 5 upgradable skills the pass is skipped with a warning before
any other work. -/
def randomize_coms (fuel : Nat) (skills : List Skill) (rng : RNG)
    (char_class : Option String) (cheat_skills : List Skill)
    (cmp : ClassModPatcher) (e : Engine) :
    Option (Engine × RNG) × List String :=
  if skills.length < 5 then
    (some (e, rng),
     ["Skipping class mod randomization as there are only " ++
      toString skills.length ++ " upgradable skills available."])
  else
    match cmp.coms with
    | none => (none, [])
    | some coms =>
      match pick_special_com coms cheat_skills.length fuel rng with
      | none => (none, [])
      | some (special, rng1) =>
        match assign_coms fuel skills special coms cheat_skills e rng1 with
        | none => (none, ["Special COM is " ++ special])
        | some (e', rng2) =>
          (some (e', rng2), ["Special COM is " ++ special])

/-- `ClassModPatcher.unrandomize_coms` (`class_mod_patcher.py` lines
122-136): restore every recorded slot of every matching mod; `none` models the
`KeyError` raised when a matching mod was never recorded.  The method writes
only engine objects and never assigns `self.coms`, so the patcher component of
the result is the patcher itself — the records are retained. -/
def unrandomize_coms (char_class : Option String) (cmp : ClassModPatcher)
    (e : Engine) : Option (ClassModPatcher × Engine) :=
  match cmp.coms with
  | none => some (cmp, e)
  | some coms =>
    match (iterate_coms char_class e).foldlM (fun e' p =>
      match coms.lookup p.1 with
      | none => none
      | some slot_map =>
        some (slot_map.foldl (fun e'' q => setComSlot p.1 q.1 q.2 e'') e')) e
    with
    | none => none
    | some e' => some (cmp, e')

/-- The generation parameters read by `inject_skills` (`__init__.py`). -/
structure InjectConfig where
  enabled_sources : List String
  hidden_skills : String
  action_skill : String
  skill_density : ℚ
  randomize_tiers : Bool
  randomize_coms_flag : Bool
  cheats : List (String × Int)
  com_skills : List Skill

/-- The observable result of one `inject_skills` run; `tree_rng` is the rng
state handed from tree synthesis to `randomize_coms` (the same generator
object in the source), `final_rng` the state after the class-mod pass. -/
structure InjectResult where
  pool : SkillPool
  patcher : ClassModPatcher
  engine : Engine
  tree_rng : RNG
  final_rng : RNG

/-- `inject_skills` (`__init__.py` lines 253-318): seed one generator, run
tree synthesis with it, then (when enabled) record and randomize the class
mods with the same generator. -/
def inject_skills (fuel : Nat) (catalog : List Character) (tree : TreeDef)
    (cfg : InjectConfig) (e : Engine) (stream : Nat → ℚ) :
    Option InjectResult × List String :=
  let rng : RNG := ⟨stream, 0⟩
  match randomize_tree fuel catalog tree cfg.enabled_sources cfg.hidden_skills
      cfg.action_skill cfg.skill_density cfg.randomize_tiers cfg.cheats
      SkillPool.init e rng with
  | (none, logs) => (none, logs)
  | (some (pool, e1, rng1), logs) =>
    if cfg.randomize_coms_flag then
      let cmp := record_coms pool.current_char_class e1 ClassModPatcher.init
      match randomize_coms fuel pool.class_mod_skills rng1
          pool.current_char_class cfg.com_skills cmp e1 with
      | (none, logs2) => (none, logs ++ logs2)
      | (some (e2, rng2), logs2) =>
        (some ⟨pool, cmp, e2, rng1, rng2⟩, logs ++ logs2)
    else (some ⟨pool, ClassModPatcher.init, e1, rng1, rng1⟩, logs)

/-- All skill names in the generated tree: every tier of every branch,
including the extras appended to tier 5. -/
def treeSkillNames (st : SkillPool) : List String :=
  (st.new_branches.map (fun b => b.skills.join)).join

/-- All dependencies declared by the catalog. -/
def allCatalogDeps (catalog : List Character) : List Dependency :=
  (catalog.map (fun c => c.dependencies)).join

/-- All pool-eligible skill names declared by the catalog (passive,
misdocumented and suppressed). -/
def allCatalogSkillNames (catalog : List Character) : List String :=
  (catalog.map (fun c =>
    (c.pure_skills ++ c.misdocumented_skills ++ c.suppressed_skills).map
      (fun s => s.full_name))).join

/-- Every value the generator's stream can produce lies in `[0, 1)` (what
`random.Random.random()` guarantees). -/
def streamOK (r : RNG) : Prop := ∀ k, 0 ≤ r.stream k ∧ r.stream k < 1

/-! ### Basic lemmas about the container model -/

theorem getD_set_self {α : Type} (l : List α) (i : Nat) (a d : α)
    (h : i < l.length) : (l.set i a).getD i d = a := by
  simp [List.getD_eq_getElem?_getD, List.getElem?_set, h]

theorem getD_set_of_ge {α : Type} (l : List α) (i : Nat) (a d : α)
    (h : l.length ≤ i) : (l.set i a).getD i d = d := by
  have h' : (l.set i a).length ≤ i := by simpa using h
  simp [List.getD_eq_getElem?_getD, List.getElem?_eq_none h']

theorem getD_set_ne {α : Type} (l : List α) (i j : Nat) (a d : α)
    (h : i ≠ j) : (l.set i a).getD j d = l.getD j d := by
  simp [List.getD_eq_getElem?_getD, List.getElem?_set_ne h]

theorem getD_eq_default {α : Type} (l : List α) (i : Nat) (d : α)
    (h : l.length ≤ i) : l.getD i d = d := by
  simp [List.getD_eq_getElem?_getD, List.getElem?_eq_none h]

theorem sum_set (l : List ℚ) (i : Nat) (a : ℚ) :
    (l.set i a).sum =
      if i < l.length then l.sum - l.getD i 0 + a else l.sum := by
  induction l generalizing i with
  | nil => simp
  | cons x xs ih =>
    cases i with
    | zero => simp [List.set]; ring
    | succ n =>
      simp only [List.set, List.sum_cons, ih n, List.length_cons, List.getD]
      by_cases h : n < xs.length
      · simp [h, Nat.succ_lt_succ h]; ring
      · simp [h, fun hc => h (Nat.lt_of_succ_lt_succ hc)]

theorem pyIndex_eq_none {x : String} {l : List String} :
    pyIndex x l = none ↔ x ∉ l := by
  induction l with
  | nil => simp [pyIndex]
  | cons a l ih =>
    by_cases h : a = x
    · subst h; simp [pyIndex]
    · simp only [pyIndex, beq_iff_eq, h, if_false, List.mem_cons]
      cases hp : pyIndex x l <;>
        simp_all [eq_comm (a := x) (b := a)]

theorem pyIndex_isSome_of_mem {x : String} {l : List String} (h : x ∈ l) :
    (pyIndex x l).isSome := by
  cases hp : pyIndex x l
  · exact absurd (pyIndex_eq_none.mp hp) (by simp [h])
  · simp

theorem pyIndex_getD {x : String} {l : List String} {i : Nat}
    (h : pyIndex x l = some i) : i < l.length ∧ l.getD i "" = x := by
  induction l generalizing i with
  | nil => simp [pyIndex] at h
  | cons a l ih =>
    by_cases ha : a = x
    · subst ha
      simp [pyIndex] at h
      subst h
      simp [List.getD]
    · simp only [pyIndex, beq_iff_eq, ha, if_false] at h
      cases hp : pyIndex x l with
      | none => rw [hp] at h; simp at h
      | some j =>
        rw [hp] at h
        simp at h
        subst h
        obtain ⟨h1, h2⟩ := ih hp
        exact ⟨by simpa using Nat.succ_lt_succ h1, by simpa [List.getD] using h2⟩

theorem pyIndex_ne {x y : String} {l : List String} {i j : Nat}
    (hx : pyIndex x l = some i) (hy : pyIndex y l = some j) (hne : x ≠ y) :
    i ≠ j := by
  intro he
  subst he
  obtain ⟨_, h2⟩ := pyIndex_getD hx
  obtain ⟨_, h4⟩ := pyIndex_getD hy
  exact hne (h2 ▸ h4 ▸ rfl)

theorem pyIndex_of_nodup_getD {l : List String} {i : Nat} {x : String}
    (hn : l.Nodup) (hi : i < l.length) (hx : l.getD i "" = x) :
    pyIndex x l = some i := by
  induction l generalizing i with
  | nil => simp at hi
  | cons a l ih =>
    cases i with
    | zero =>
      simp [List.getD] at hx
      simp [pyIndex, hx]
    | succ n =>
      have hn' := hn
      rw [List.nodup_cons] at hn'
      have hnl : n < l.length := by simpa using Nat.lt_of_succ_lt_succ hi
      have hxl : l.getD n "" = x := by simpa [List.getD] using hx
      have hx_mem : x ∈ l := by
        rw [← hxl]
        have : l.getD n "" = l.get ⟨n, hnl⟩ := by
          simp [List.getD_eq_getElem?_getD, List.getElem?_eq_getElem hnl]
        rw [this]
        exact List.get_mem l n hnl
      have hax : ¬ a = x := fun he => hn'.1 (he ▸ hx_mem)
      simp [pyIndex, hax, ih hn'.2 hnl hxl]

theorem lookup_cons {α : Type} (k a : String) (v : α) (l : Dict α) :
    List.lookup a ((k, v) :: l) = if a = k then some v else List.lookup a l := by
  simp only [List.lookup]
  cases h : a == k <;> simp_all

theorem mem_of_lookup {α : Type} {d : Dict α} {k : String} {v : α}
    (h : d.lookup k = some v) : (k, v) ∈ d := by
  induction d with
  | nil => simp [List.lookup] at h
  | cons p l ih =>
    rw [show p = (p.1, p.2) from rfl, lookup_cons] at h
    by_cases he : k = p.1
    · rw [if_pos he] at h
      have hv : v = p.2 := by simpa using h.symm
      subst hv
      subst he
      exact List.mem_cons.mpr (Or.inl Prod.mk.eta)
    · rw [if_neg he] at h
      exact List.mem_cons_of_mem _ (ih h)

theorem lookup_isSome_iff {α : Type} (d : Dict α) (k : String) :
    (d.lookup k).isSome ↔ k ∈ d.map Prod.fst := by
  induction d with
  | nil => simp [List.lookup]
  | cons p l ih =>
    rw [show p = (p.1, p.2) from rfl, lookup_cons]
    by_cases he : k = p.1 <;> simp [he, ih]

theorem lookup_eq_none_iff {α : Type} (d : Dict α) (k : String) :
    d.lookup k = none ↔ k ∉ d.map Prod.fst := by
  rw [← lookup_isSome_iff]
  cases d.lookup k <;> simp

theorem lookup_dictErase {α : Type} (d : Dict α) (k k' : String) :
    (dictErase k d).lookup k' = if k' = k then none else d.lookup k' := by
  induction d with
  | nil => simp [dictErase, List.lookup]
  | cons p l ih =>
    by_cases hp : p.1 = k
    · have hred : dictErase k (p :: l) = dictErase k l := by
        simp [dictErase, List.filter, hp]
      rw [hred, ih]
      by_cases he : k' = k
      · simp [he]
      · simp only [he, if_false]
        rw [show p = (p.1, p.2) from rfl, lookup_cons]
        rw [if_neg (fun hc : k' = p.1 => he (hp ▸ hc))]
    · have hred : dictErase k (p :: l) = p :: dictErase k l := by
        simp [dictErase, List.filter, hp]
      rw [hred, show p = (p.1, p.2) from rfl, lookup_cons, lookup_cons, ih]
      by_cases hk : k' = p.1
      · have hkk : ¬ k' = k := fun hc => hp (hk ▸ hc)
        rw [if_pos hk, if_neg hkk, if_pos hk]
      · rw [if_neg hk, if_neg hk]

theorem lookup_foldl_erase {α : Type} (ps : List String) (d : Dict α)
    (k : String) :
    (ps.foldl (fun d p => dictErase p d) d).lookup k =
      if k ∈ ps then none else d.lookup k := by
  induction ps generalizing d with
  | nil => simp
  | cons p ps ih =>
    simp only [List.foldl_cons, ih, lookup_dictErase]
    by_cases h1 : k ∈ ps
    · simp [h1]
    · by_cases h2 : k = p <;> simp [h1, h2]

theorem mem_foldl_erase {α : Type} {ps : List String} {d : Dict α}
    {q : String × α} (h : q ∈ ps.foldl (fun d p => dictErase p d) d) :
    q ∈ d := by
  induction ps generalizing d with
  | nil => simpa using h
  | cons p ps ih =>
    have := ih (d := dictErase p d) (by simpa using h)
    exact List.mem_of_mem_filter this

theorem lookup_map_overwrite {α : Type} (d : Dict α) (k k' : String) (v : α) :
    (d.map (fun p => if p.1 == k then (k, v) else p)).lookup k' =
      if k' = k then (if (d.lookup k).isSome then some v else none)
      else d.lookup k' := by
  induction d with
  | nil => simp [List.lookup]
  | cons p l ih =>
    obtain ⟨pk, pv⟩ := p
    simp only [List.map_cons]
    by_cases hp : pk = k
    · subst hp
      simp only [beq_self_eq_true, if_true]
      simp only [lookup_cons, ih]
      by_cases hk : k' = pk
      · simp [hk]
      · simp [hk]
    · simp only [beq_iff_eq, hp, if_false]
      have hkp : ¬ k = pk := fun hc => hp hc.symm
      simp only [lookup_cons, ih, hkp, if_false]
      by_cases hk : k' = pk
      · have hkk : ¬ k' = k := fun hc => hp (hk ▸ hc)
        simp [hk, hkk, hp]
      · simpa [hk] using ih

theorem lookup_append_single {α : Type} (d : Dict α) (k k' : String) (v : α) :
    (d ++ [(k, v)]).lookup k' =
      match d.lookup k' with
      | some w => some w
      | none => if k' = k then some v else none := by
  induction d with
  | nil =>
    have : (([] : Dict α) ++ [(k, v)]) = [(k, v)] := rfl
    rw [this, lookup_cons]
    rfl
  | cons p l ih =>
    obtain ⟨pk, pv⟩ := p
    rw [List.cons_append, lookup_cons, lookup_cons]
    by_cases hk : k' = pk
    · rw [if_pos hk, if_pos hk]
    · rw [if_neg hk, if_neg hk, ih]

theorem any_key_iff_lookup_isSome {α : Type} (d : Dict α) (k : String) :
    (d.any (fun p => p.1 == k)) = (d.lookup k).isSome := by
  induction d with
  | nil => simp [List.lookup]
  | cons p l ih =>
    obtain ⟨pk, pv⟩ := p
    rw [List.any_cons, lookup_cons]
    by_cases hp : pk = k
    · simp [hp]
    · have : ¬ k = pk := fun hc => hp hc.symm
      simp [hp, this, ih]

theorem lookup_dictInsert_self {α : Type} (d : Dict α) (k : String) (v : α) :
    (dictInsert k v d).lookup k = some v := by
  unfold dictInsert
  by_cases h : d.any (fun p => p.1 == k)
  · rw [if_pos h, lookup_map_overwrite, if_pos rfl]
    rw [any_key_iff_lookup_isSome] at h
    rw [if_pos h]
  · rw [if_neg h, lookup_append_single]
    rw [any_key_iff_lookup_isSome] at h
    have : d.lookup k = none := by
      cases hc : d.lookup k
      · rfl
      · rw [hc] at h; simp at h
    rw [this]
    simp

theorem lookup_dictInsert_ne {α : Type} (d : Dict α) (k k' : String) (v : α)
    (h : k' ≠ k) : (dictInsert k v d).lookup k' = d.lookup k' := by
  unfold dictInsert
  by_cases hany : d.any (fun p => p.1 == k)
  · rw [if_pos hany, lookup_map_overwrite, if_neg h]
  · rw [if_neg hany, lookup_append_single]
    cases hc : d.lookup k'
    · rw [if_neg h]
    · rfl

/-! ### Structural lemmas about `mark_used` -/

theorem adjustWeight_zero (bidx : Int) (b : Nat) : adjustWeight bidx b 0 = 0 := by
  unfold adjustWeight
  split
  · exact zero_mul _
  split
  · exact zero_mul _
  · rfl

theorem mapWithIdx_length {α β : Type} (f : Nat → α → β) (n : Nat)
    (l : List α) : (mapWithIdx f n l).length = l.length := by
  induction l generalizing n with
  | nil => rfl
  | cons a as ih => simp [mapWithIdx, ih]

theorem mapWithIdx_getElem? {α β : Type} (f : Nat → α → β) (n : Nat)
    (l : List α) (j : Nat) :
    (mapWithIdx f n l)[j]? = (l[j]?).map (f (n + j)) := by
  induction l generalizing n j with
  | nil => simp [mapWithIdx]
  | cons a as ih =>
    cases j with
    | zero => simp [mapWithIdx]
    | succ m =>
      have harith : n + 1 + m = n + (m + 1) := by omega
      simp [mapWithIdx, ih, harith]

/-- The fields of a `Branch` that the themed-weight loop never modifies,
together with the length of the weight vector. -/
def Branch.shape (br : Branch) :
    String × String × List (List String) × List Int × List (List Bool) ×
      Nat × Int × Int × Int × Nat :=
  (br.full_name, br.layout_name, br.skills, br.points_to_unlock, br.layout,
   br.idx, br.slots_left, br.expected_skills, br.skill_count,
   br.skill_weights.length)

theorem adjustBranchForDep_cons (t : String) (ts order : List String)
    (bidx : Int) (b : Nat) (br : Branch) :
    adjustBranchForDep (t :: ts) order bidx b br =
      adjustBranchForDep ts order bidx b (adjStep order bidx b br t) := by
  simp [adjustBranchForDep]

theorem adjStep_shape (order : List String) (bidx : Int) (b : Nat)
    (br : Branch) (t : String) : (adjStep order bidx b br t).shape = br.shape := by
  unfold adjStep Branch.shape
  cases pyIndex t order <;> simp

theorem adjustBranchForDep_shape (themed order : List String) (bidx : Int)
    (b : Nat) (br : Branch) :
    (adjustBranchForDep themed order bidx b br).shape = br.shape := by
  induction themed generalizing br with
  | nil => rfl
  | cons t ts ih => rw [adjustBranchForDep_cons, ih, adjStep_shape]

theorem adjStep_zero_preserved (order : List String) (bidx : Int) (b : Nat)
    (br : Branch) (t : String) (i : Nat) (h : br.skill_weights.getD i 0 = 0) :
    (adjStep order bidx b br t).skill_weights.getD i 0 = 0 := by
  unfold adjStep
  cases hpi : pyIndex t order with
  | none => exact h
  | some j =>
    by_cases hij : j = i
    · subst hij
      by_cases hlen : j < br.skill_weights.length
      · simp only []
        rw [getD_set_self _ _ _ _ hlen, h, adjustWeight_zero]
      · simp only []
        rw [getD_set_of_ge _ _ _ _ (Nat.le_of_not_lt hlen)]
    · simp only []
      rw [getD_set_ne _ _ _ _ _ hij]
      exact h

/-- Zero weights stay zero through the themed-weight loop. -/
theorem adjustBranchForDep_zero_preserved (themed order : List String)
    (bidx : Int) (b : Nat) (br : Branch) (i : Nat)
    (h : br.skill_weights.getD i 0 = 0) :
    (adjustBranchForDep themed order bidx b br).skill_weights.getD i 0 = 0 := by
  induction themed generalizing br with
  | nil => simpa [adjustBranchForDep] using h
  | cons t ts ih =>
    rw [adjustBranchForDep_cons]
    exact ih _ (adjStep_zero_preserved order bidx b br t i h)

/-- A name absent from the themed list keeps its weight cell untouched. -/
theorem adjustBranchForDep_getD_not_mem (themed order : List String)
    (bidx : Int) (b : Nat) (br : Branch) (t : String) (i : Nat)
    (hi : pyIndex t order = some i) (hnot : t ∉ themed) :
    (adjustBranchForDep themed order bidx b br).skill_weights.getD i 0 =
      br.skill_weights.getD i 0 := by
  induction themed generalizing br with
  | nil => simp [adjustBranchForDep]
  | cons u ts ih =>
    rw [adjustBranchForDep_cons]
    have hnotts : t ∉ ts := fun h => hnot (List.mem_cons_of_mem _ h)
    have hne : u ≠ t := fun he => hnot (he ▸ List.mem_cons_self u ts)
    rw [ih _ hnotts]
    unfold adjStep
    cases hpi : pyIndex u order with
    | none => rfl
    | some j =>
      have hij : j ≠ i := pyIndex_ne hpi hi hne
      simp only []
      exact getD_set_ne _ _ _ _ _ hij

/-- A name occurring exactly once in the themed list has its weight cell
adjusted exactly once. -/
theorem adjustBranchForDep_getD_count_one (themed order : List String)
    (bidx : Int) (b : Nat) (br : Branch) (t : String) (i : Nat)
    (hi : pyIndex t order = some i) (hcount : themed.count t = 1) :
    (adjustBranchForDep themed order bidx b br).skill_weights.getD i 0 =
      adjustWeight bidx b (br.skill_weights.getD i 0) := by
  induction themed generalizing br with
  | nil => simp at hcount
  | cons u ts ih =>
    rw [adjustBranchForDep_cons]
    by_cases hut : u = t
    · subst hut
      have hcz : ts.count u = 0 := by
        have := hcount
        rw [List.count_cons_self] at this
        omega
      have hnot : u ∉ ts := by
        intro hmem
        have := List.count_pos_iff_mem.mpr hmem
        omega
      rw [adjustBranchForDep_getD_not_mem ts order bidx b _ u i hi hnot]
      unfold adjStep
      rw [hi]
      simp only []
      by_cases hlen : i < br.skill_weights.length
      · exact getD_set_self _ _ _ _ hlen
      · rw [getD_set_of_ge _ _ _ _ (Nat.le_of_not_lt hlen),
          getD_eq_default _ _ _ (Nat.le_of_not_lt hlen), adjustWeight_zero]
    · have hcount' : ts.count t = 1 := by
        have := hcount
        rw [List.count_cons_of_ne (fun he => hut he.symm)] at this
        exact this
      rw [ih _ hcount']
      congr 1
      unfold adjStep
      cases hpi : pyIndex u order with
      | none => rfl
      | some j =>
        have hij : j ≠ i := pyIndex_ne hpi hi hut
        simp only []
        exact getD_set_ne _ _ _ _ _ hij

theorem depPhase_none (skill : Skill) (hid : String) (bidx : Int)
    (st : SkillPool) (h : st.dependencies.lookup skill.full_name = none) :
    depPhase skill hid bidx st = st := by
  unfold depPhase
  rw [h]

theorem depPhase_some (skill : Skill) (hid : String) (bidx : Int)
    (st : SkillPool) (dep : Dependency)
    (h : st.dependencies.lookup skill.full_name = some dep) :
    depPhase skill hid bidx st =
      { st with
        new_branches := mapWithIdx
          (fun i br =>
            adjustBranchForDep (themedSkills dep hid) st.skill_order bidx i br)
          0 st.new_branches,
        extra_skills := st.extra_skills ++ dep.extra_skills,
        dependencies :=
          dep.providers.foldl (fun d p => dictErase p d) st.dependencies } := by
  unfold depPhase
  rw [h]

theorem depPhase_skill_order (skill : Skill) (hid : String) (bidx : Int)
    (st : SkillPool) : (depPhase skill hid bidx st).skill_order = st.skill_order := by
  unfold depPhase
  cases st.dependencies.lookup skill.full_name <;> rfl

theorem depPhase_skills (skill : Skill) (hid : String) (bidx : Int)
    (st : SkillPool) : (depPhase skill hid bidx st).skills = st.skills := by
  unfold depPhase
  cases st.dependencies.lookup skill.full_name <;> rfl

theorem depPhase_class_mod (skill : Skill) (hid : String) (bidx : Int)
    (st : SkillPool) :
    (depPhase skill hid bidx st).class_mod_skills = st.class_mod_skills := by
  unfold depPhase
  cases st.dependencies.lookup skill.full_name <;> rfl

theorem depPhase_length (skill : Skill) (hid : String) (bidx : Int)
    (st : SkillPool) :
    (depPhase skill hid bidx st).new_branches.length =
      st.new_branches.length := by
  unfold depPhase
  cases st.dependencies.lookup skill.full_name <;> simp [mapWithIdx_length]

theorem zeroSkillPhase_none (skill : Skill) (st : SkillPool)
    (h : pyIndex skill.full_name st.skill_order = none) :
    zeroSkillPhase skill st = st := by
  unfold zeroSkillPhase
  rw [h]

theorem zeroSkillPhase_some (skill : Skill) (st : SkillPool) (i : Nat)
    (h : pyIndex skill.full_name st.skill_order = some i) :
    zeroSkillPhase skill st =
      { st with
        new_branches := st.new_branches.map
          (fun br => { br with skill_weights := br.skill_weights.set i 0 }),
        class_mod_skills :=
          if skill.is_upgradable then st.class_mod_skills ++ [skill]
          else st.class_mod_skills } := by
  unfold zeroSkillPhase
  rw [h]

theorem zeroSkillPhase_dependencies (skill : Skill) (st : SkillPool) :
    (zeroSkillPhase skill st).dependencies = st.dependencies := by
  unfold zeroSkillPhase
  cases pyIndex skill.full_name st.skill_order <;> rfl

theorem zeroSkillPhase_extra (skill : Skill) (st : SkillPool) :
    (zeroSkillPhase skill st).extra_skills = st.extra_skills := by
  unfold zeroSkillPhase
  cases pyIndex skill.full_name st.skill_order <;> rfl

theorem zeroSkillPhase_skill_order (skill : Skill) (st : SkillPool) :
    (zeroSkillPhase skill st).skill_order = st.skill_order := by
  unfold zeroSkillPhase
  cases pyIndex skill.full_name st.skill_order <;> rfl

theorem zeroSkillPhase_skills (skill : Skill) (st : SkillPool) :
    (zeroSkillPhase skill st).skills = st.skills := by
  unfold zeroSkillPhase
  cases pyIndex skill.full_name st.skill_order <;> rfl

theorem branchAt_mapWithIdx (f : Nat → Branch → Branch) (l : List Branch)
    (b : Nat) (hb : b < l.length) :
    (mapWithIdx f 0 l).getD b default = f b (l.getD b default) := by
  rw [List.getD_eq_getElem?_getD, mapWithIdx_getElem? f 0 l b,
    List.getD_eq_getElem?_getD, List.getElem?_eq_getElem hb]
  simp

theorem branchAt_map (f : Branch → Branch) (l : List Branch) (b : Nat)
    (hb : b < l.length) : (l.map f).getD b default = f (l.getD b default) := by
  rw [List.getD_eq_getElem?_getD, List.getElem?_map,
    List.getD_eq_getElem?_getD, List.getElem?_eq_getElem hb]
  simp

/-! ### Claim C10 -/

/-- C10: marking a skill used whose full name is not in `skill_order` leaves
the weight vectors and the class-mod accumulator unchanged and still returns
the skill; only the dependency-consumption logic (when the skill is a
registered provider) has any effect, and with no registered dependency the
state is completely unchanged. -/
theorem C10_mark_used_unlisted_frame (skill : Skill) (hid : String)
    (bidx : Int) (st : SkillPool) (hnot : skill.full_name ∉ st.skill_order) :
    (mark_used skill hid bidx st).1 = skill ∧
    (mark_used skill hid bidx st).2 = depPhase skill hid bidx st ∧
    (mark_used skill hid bidx st).2.class_mod_skills = st.class_mod_skills ∧
    (st.dependencies.lookup skill.full_name = none →
      (mark_used skill hid bidx st).2 = st) := by
  have hz : pyIndex skill.full_name (depPhase skill hid bidx st).skill_order
      = none := by
    rw [depPhase_skill_order]
    exact pyIndex_eq_none.mpr hnot
  have hzero : zeroSkillPhase skill (depPhase skill hid bidx st) =
      depPhase skill hid bidx st := zeroSkillPhase_none _ _ hz
  refine ⟨rfl, ?_, ?_, ?_⟩
  · show zeroSkillPhase skill (depPhase skill hid bidx st) = _
    exact hzero
  · show (zeroSkillPhase skill (depPhase skill hid bidx st)).class_mod_skills = _
    rw [hzero, depPhase_class_mod]
  · intro hdep
    show zeroSkillPhase skill (depPhase skill hid bidx st) = st
    rw [hzero, depPhase_none _ _ _ _ hdep]

def c10_st : SkillPool :=
  { dependencies := [], skills := [("A.B", ⟨"A.B", 2⟩)],
    skill_order := ["A.B"], extra_skills := [], class_mod_skills := [],
    current_char_class := none, original_branches := none, new_branches := [] }

theorem C10_witness :
    ("X.Y" ∉ c10_st.skill_order) ∧
      (mark_used ⟨"X.Y", 2⟩ "None" 0 c10_st).2 = c10_st :=
  ⟨by decide,
   (C10_mark_used_unlisted_frame ⟨"X.Y", 2⟩ "None" 0 c10_st
     (by decide)).2.2.2 (by rfl)⟩

/-! ### Claim C1 -/

/-- C1: drawing a provider of an unconsumed dependency adjusts every themed
skill present in `skill_order` (multiplying by `ACTION_WEIGHT` in every branch
for the action pick, by `THEME_WEIGHT` in the drawing branch, zeroing the
others), removes every provider of the dependency from the registry, and
appends the dependency's grants to the extra-skills queue. -/
theorem C1_dependency_consumption (skill : Skill) (hid : String) (bidx : Int)
    (st : SkillPool) (dep : Dependency) (t : String) (i b : Nat)
    (hdep : st.dependencies.lookup skill.full_name = some dep)
    (hprov : ∀ p ∈ dep.providers, p ∈ st.dependencies.map Prod.fst)
    (hcount : (themedSkills dep hid).count t = 1)
    (hi : pyIndex t st.skill_order = some i)
    (hb : b < st.new_branches.length) :
    (bidx < 0 →
      (branchAt (depPhase skill hid bidx st) b).skill_weights.getD i 0 =
        (branchAt st b).skill_weights.getD i 0 * (ACTION_WEIGHT : ℚ)) ∧
    (0 ≤ bidx → (b : Int) = bidx →
      (branchAt (depPhase skill hid bidx st) b).skill_weights.getD i 0 =
        (branchAt st b).skill_weights.getD i 0 * (THEME_WEIGHT : ℚ)) ∧
    (0 ≤ bidx → (b : Int) ≠ bidx →
      (branchAt (depPhase skill hid bidx st) b).skill_weights.getD i 0 = 0) ∧
    (∀ p ∈ dep.providers,
      (mark_used skill hid bidx st).2.dependencies.lookup p = none) ∧
    (mark_used skill hid bidx st).2.extra_skills =
      st.extra_skills ++ dep.extra_skills := by
  have hbr : branchAt (depPhase skill hid bidx st) b =
      adjustBranchForDep (themedSkills dep hid) st.skill_order bidx b
        (branchAt st b) := by
    rw [depPhase_some skill hid bidx st dep hdep]
    exact branchAt_mapWithIdx _ _ _ hb
  have hadj := adjustBranchForDep_getD_count_one (themedSkills dep hid)
    st.skill_order bidx b (branchAt st b) t i hi hcount
  refine ⟨?_, ?_, ?_, ?_, ?_⟩
  · intro hneg
    rw [hbr, hadj]
    unfold adjustWeight
    rw [if_pos hneg]
  · intro hpos heq
    rw [hbr, hadj]
    unfold adjustWeight
    rw [if_neg (by omega), if_pos heq]
  · intro hpos hne
    rw [hbr, hadj]
    unfold adjustWeight
    rw [if_neg (by omega), if_neg hne]
  · intro p hp
    show (zeroSkillPhase skill (depPhase skill hid bidx st)).dependencies.lookup p
      = none
    rw [zeroSkillPhase_dependencies, depPhase_some skill hid bidx st dep hdep]
    simp only []
    rw [lookup_foldl_erase, if_pos hp]
  · show (zeroSkillPhase skill (depPhase skill hid bidx st)).extra_skills = _
    rw [zeroSkillPhase_extra, depPhase_some skill hid bidx st dep hdep]

def c1_dep : Dependency :=
  { name := "D", providers := ["P.P"], extra_skills := ["G.G"],
    dependers := ["R.R"], wanters := ["W.W"] }

def c1_branch : Branch :=
  { full_name := "B0", layout_name := "L0", skills := [], points_to_unlock := [],
    layout := [], idx := 0, slots_left := 18, expected_skills := 3,
    skill_count := 0, skill_weights := [1, 1, 1], total_weight := 3 }

def c1_st : SkillPool :=
  { dependencies := [("P.P", c1_dep)],
    skills := [("P.P", ⟨"P.P", 2⟩), ("R.R", ⟨"R.R", 2⟩), ("W.W", ⟨"W.W", 2⟩)],
    skill_order := ["P.P", "R.R", "W.W"], extra_skills := [],
    class_mod_skills := [], current_char_class := none,
    original_branches := none, new_branches := [c1_branch, c1_branch] }

/-! ### Frame lemmas through the drawing machinery -/

/-- The shapes of all branches of a pool. -/
def branchShapes (st : SkillPool) :=
  st.new_branches.map Branch.shape

theorem map_shape_set_branch (l : List Branch) (bi : Nat) (br' : Branch)
    (h : ∀ br, l[bi]? = some br → Branch.shape br' = Branch.shape br) :
    (l.set bi br').map Branch.shape = l.map Branch.shape := by
  apply List.ext_getElem?
  intro j
  rw [List.getElem?_map, List.getElem?_map, List.getElem?_set]
  by_cases hj : bi = j
  · rw [if_pos hj]
    subst hj
    by_cases hl : bi < l.length
    · rw [if_pos hl]
      have hbl : l[bi]? = some l[bi] := List.getElem?_eq_getElem hl
      rw [hbl]
      simp [h _ hbl]
    · rw [if_neg hl, List.getElem?_eq_none (Nat.le_of_not_lt hl)]
  · rw [if_neg hj]

theorem setBranchWeight_shapes (st : SkillPool) (bi i : Nat) (v : ℚ) :
    branchShapes (setBranchWeight st bi i v) = branchShapes st := by
  unfold setBranchWeight branchShapes
  cases hg : st.new_branches.get? bi with
  | none => simp only [hg]
  | some br =>
    simp only [hg]
    apply map_shape_set_branch
    intro br2 hbr2
    rw [List.get?_eq_getElem?] at hg
    rw [hg] at hbr2
    cases hbr2
    simp [Branch.shape]

theorem setBranchWeight_fields (st : SkillPool) (bi i : Nat) (v : ℚ) :
    (setBranchWeight st bi i v).dependencies = st.dependencies ∧
    (setBranchWeight st bi i v).skills = st.skills ∧
    (setBranchWeight st bi i v).skill_order = st.skill_order ∧
    (setBranchWeight st bi i v).extra_skills = st.extra_skills ∧
    (setBranchWeight st bi i v).class_mod_skills = st.class_mod_skills ∧
    (setBranchWeight st bi i v).current_char_class = st.current_char_class ∧
    (setBranchWeight st bi i v).original_branches = st.original_branches := by
  unfold setBranchWeight
  cases st.new_branches.get? bi <;> exact ⟨rfl, rfl, rfl, rfl, rfl, rfl, rfl⟩

theorem cheat_for_body_frame (bi ci tier : Nat) (ct : Int) (s : SkillPool)
    (j : Nat) :
    (cheat_for_body bi ci tier ct s j).dependencies = s.dependencies ∧
    (cheat_for_body bi ci tier ct s j).skills = s.skills ∧
    (cheat_for_body bi ci tier ct s j).skill_order = s.skill_order ∧
    (cheat_for_body bi ci tier ct s j).extra_skills = s.extra_skills ∧
    (cheat_for_body bi ci tier ct s j).class_mod_skills = s.class_mod_skills ∧
    branchShapes (cheat_for_body bi ci tier ct s j) = branchShapes s := by
  simp only [cheat_for_body]
  by_cases h0 : (branchAt s j).skill_weights.getD ci 0 = 0
  · rw [if_pos h0]
    by_cases he : ct = (tier : Int)
    · rw [if_pos he]
      obtain ⟨f1, f2, f3, f4, f5, _, _⟩ := setBranchWeight_fields s bi ci _
      exact ⟨f1, f2, f3, f4, f5, setBranchWeight_shapes s bi ci _⟩
    · rw [if_neg he]
      obtain ⟨f1, f2, f3, f4, f5, _, _⟩ := setBranchWeight_fields s bi ci _
      exact ⟨f1, f2, f3, f4, f5, setBranchWeight_shapes s bi ci _⟩
  · rw [if_neg h0]
    exact ⟨rfl, rfl, rfl, rfl, rfl, rfl⟩

theorem cheat_for_fold_frame (bi ci tier : Nat) (ct : Int) (js : List Nat)
    (s : SkillPool) :
    (js.foldl (cheat_for_body bi ci tier ct) s).dependencies =
      s.dependencies ∧
    (js.foldl (cheat_for_body bi ci tier ct) s).skills = s.skills ∧
    (js.foldl (cheat_for_body bi ci tier ct) s).skill_order = s.skill_order ∧
    (js.foldl (cheat_for_body bi ci tier ct) s).extra_skills =
      s.extra_skills ∧
    (js.foldl (cheat_for_body bi ci tier ct) s).class_mod_skills =
      s.class_mod_skills ∧
    branchShapes (js.foldl (cheat_for_body bi ci tier ct) s) =
      branchShapes s := by
  induction js generalizing s with
  | nil => exact ⟨rfl, rfl, rfl, rfl, rfl, rfl⟩
  | cons j js ih =>
    rw [List.foldl_cons]
    obtain ⟨g1, g2, g3, g4, g5, g6⟩ := ih (cheat_for_body bi ci tier ct s j)
    obtain ⟨h1, h2, h3, h4, h5, h6⟩ := cheat_for_body_frame bi ci tier ct s j
    exact ⟨g1.trans h1, g2.trans h2, g3.trans h3, g4.trans h4, g5.trans h5,
      g6.trans h6⟩

/-- Everything `cheat_step` can do is rewrite one weight cell: the pool's
non-branch fields and every branch's shape are unchanged. -/
theorem cheat_step_frame (bi tier : Nat) (st : SkillPool) (cn : String)
    (ct : Int) :
    (cheat_step bi tier st cn ct).1.dependencies = st.dependencies ∧
    (cheat_step bi tier st cn ct).1.skills = st.skills ∧
    (cheat_step bi tier st cn ct).1.skill_order = st.skill_order ∧
    (cheat_step bi tier st cn ct).1.extra_skills = st.extra_skills ∧
    (cheat_step bi tier st cn ct).1.class_mod_skills = st.class_mod_skills ∧
    branchShapes (cheat_step bi tier st cn ct).1 = branchShapes st := by
  unfold cheat_step
  cases hpi : pyIndex cn st.skill_order with
  | none => exact ⟨rfl, rfl, rfl, rfl, rfl, rfl⟩
  | some ci =>
    simp only []
    by_cases h0 : (branchAt st bi).skill_weights.getD ci 0 = 0
    · rw [if_pos h0]
      exact ⟨rfl, rfl, rfl, rfl, rfl, rfl⟩
    · rw [if_neg h0]
      by_cases hover : ct < (tier : Int)
      · rw [if_pos hover]
        obtain ⟨f1, f2, f3, f4, f5, _, _⟩ := setBranchWeight_fields st bi ci _
        exact ⟨f1, f2, f3, f4, f5, setBranchWeight_shapes st bi ci _⟩
      · rw [if_neg hover]
        split
        · obtain ⟨f1, f2, f3, f4, f5, _, _⟩ := setBranchWeight_fields _ bi ci _
          obtain ⟨g1, g2, g3, g4, g5, g6⟩ :=
            cheat_for_fold_frame bi ci tier ct (List.range st.new_branches.length) st
          exact ⟨f1.trans g1, f2.trans g2, f3.trans g3, f4.trans g4,
            f5.trans g5, (setBranchWeight_shapes _ bi ci _).trans g6⟩
        · obtain ⟨f1, f2, f3, f4, f5, _, _⟩ := setBranchWeight_fields _ bi ci _
          obtain ⟨g1, g2, g3, g4, g5, g6⟩ :=
            cheat_for_fold_frame bi ci tier ct (List.range st.new_branches.length) st
          exact ⟨f1.trans g1, f2.trans g2, f3.trans g3, f4.trans g4,
            f5.trans g5, (setBranchWeight_shapes _ bi ci _).trans g6⟩

theorem mapWithIdx_map_shape (f : Nat → Branch → Branch) (n : Nat)
    (l : List Branch)
    (h : ∀ i br, Branch.shape (f i br) = Branch.shape br) :
    (mapWithIdx f n l).map Branch.shape = l.map Branch.shape := by
  induction l generalizing n with
  | nil => rfl
  | cons a as ih => simp [mapWithIdx, h, ih]

theorem depPhase_shapes (skill : Skill) (hid : String) (bidx : Int)
    (st : SkillPool) :
    branchShapes (depPhase skill hid bidx st) = branchShapes st := by
  unfold depPhase branchShapes
  cases st.dependencies.lookup skill.full_name with
  | none => rfl
  | some dep =>
    simp only []
    exact mapWithIdx_map_shape _ 0 _
      (fun i br => adjustBranchForDep_shape _ _ _ _ br)

theorem zeroSkillPhase_shapes (skill : Skill) (st : SkillPool) :
    branchShapes (zeroSkillPhase skill st) = branchShapes st := by
  unfold zeroSkillPhase branchShapes
  cases pyIndex skill.full_name st.skill_order with
  | none => rfl
  | some i =>
    simp only [List.map_map]
    apply List.map_congr_left
    intro br _
    simp [Branch.shape]

theorem mark_used_shapes (sk : Skill) (hid : String) (bidx : Int)
    (st : SkillPool) :
    branchShapes (mark_used sk hid bidx st).2 = branchShapes st :=
  (zeroSkillPhase_shapes _ _).trans (depPhase_shapes _ _ _ _)

theorem mark_used_skill_order (sk : Skill) (hid : String) (bidx : Int)
    (st : SkillPool) :
    (mark_used sk hid bidx st).2.skill_order = st.skill_order :=
  (zeroSkillPhase_skill_order _ _).trans (depPhase_skill_order _ _ _ _)

theorem mark_used_skills (sk : Skill) (hid : String) (bidx : Int)
    (st : SkillPool) :
    (mark_used sk hid bidx st).2.skills = st.skills :=
  (zeroSkillPhase_skills _ _).trans (depPhase_skills _ _ _ _)

/-! ### Characterization of the random primitives -/

theorem RNG.next_stream (r : RNG) : (r.next.2).stream = r.stream := rfl

theorem getD_mem_or {α : Type} (l : List α) (i : Nat) (d : α) :
    l.getD i d ∈ l ∨ l.getD i d = d := by
  by_cases h : i < l.length
  · left
    rw [List.getD_eq_getElem?_getD, List.getElem?_eq_getElem h]
    exact List.getElem_mem h
  · right
    exact getD_eq_default _ _ _ (Nat.le_of_not_lt h)

theorem RNG.choice_spec {α : Type} (l : List α) (r : RNG) (a : α) (r' : RNG)
    (h : RNG.choice l r = some (a, r')) : a ∈ l ∧ r'.stream = r.stream := by
  unfold RNG.choice at h
  cases l with
  | nil => simp at h
  | cons x xs =>
    simp only [Option.some.injEq, Prod.mk.injEq] at h
    obtain ⟨ha, hr⟩ := h
    constructor
    · rw [← ha]
      rcases getD_mem_or (x :: xs)
          (Int.toNat ⌊r.next.1 * ((x :: xs).length : ℚ)⌋) x with hm | he
      · exact hm
      · rw [he]
        exact List.mem_cons_self x xs
    · rw [← hr]
      rfl

theorem choicesWeighted_spec (pop : List String) (w : List ℚ) (r : RNG)
    (q : String) (r' : RNG)
    (h : RNG.choicesWeighted pop w r = some (q, r')) :
    pop.length = w.length ∧ 0 < w.sum ∧
    q = pop.getD (weightedPick w (r.stream r.pos * w.sum)) "" ∧
    r'.stream = r.stream := by
  unfold RNG.choicesWeighted RNG.next at h
  simp only [] at h
  by_cases h1 : pop.length ≠ w.length
  · rw [if_pos h1] at h
    simp at h
  · rw [if_neg h1] at h
    by_cases h2 : w.sum ≤ 0
    · rw [if_pos h2] at h
      simp at h
    · rw [if_neg h2] at h
      simp only [Option.some.injEq, Prod.mk.injEq] at h
      obtain ⟨hq, hr⟩ := h
      exact ⟨Decidable.not_not.mp h1, lt_of_not_le h2, hq.symm,
        by rw [← hr]⟩

theorem weightedPick_lt_length (w : List ℚ) (x : ℚ) (h0 : 0 ≤ x)
    (hs : x < w.sum) : weightedPick w x < w.length := by
  induction w generalizing x with
  | nil =>
    simp at hs
    exact absurd (lt_of_le_of_lt h0 hs) (lt_irrefl 0)
  | cons a as ih =>
    unfold weightedPick
    by_cases hx : x < a
    · rw [if_pos hx]
      simp
    · rw [if_neg hx]
      have ha : a ≤ x := le_of_not_lt hx
      have h0' : 0 ≤ x - a := by linarith
      have hs' : x - a < as.sum := by
        rw [List.sum_cons] at hs
        linarith
      simpa using Nat.succ_lt_succ (ih (x - a) h0' hs')

theorem weightedPick_pos (w : List ℚ) (x : ℚ) (h0 : 0 ≤ x)
    (hs : x < w.sum) : 0 < w.getD (weightedPick w x) 0 := by
  induction w generalizing x with
  | nil =>
    simp at hs
    exact absurd (lt_of_le_of_lt h0 hs) (lt_irrefl 0)
  | cons a as ih =>
    unfold weightedPick
    by_cases hx : x < a
    · rw [if_pos hx]
      simpa [List.getD] using lt_of_le_of_lt h0 hx
    · rw [if_neg hx]
      have ha : a ≤ x := le_of_not_lt hx
      have h0' : 0 ≤ x - a := by linarith
      have hs' : x - a < as.sum := by
        rw [List.sum_cons] at hs
        linarith
      simpa [List.getD] using ih (x - a) h0' hs'

/-! ### Characterization of `get_next_skill` -/

/-- The drawn name came out of the weighted sampler over `skill_order` with
the branch's weight vector. -/
def drawnFromWeights (st : SkillPool) (bi : Nat) (q : String) : Prop :=
  ∃ br, st.new_branches.get? bi = some br ∧
    st.skill_order.length = br.skill_weights.length ∧
    0 < br.skill_weights.sum ∧
    ∃ u : ℚ, 0 ≤ u ∧ u < 1 ∧
      q = st.skill_order.getD
        (weightedPick br.skill_weights (u * br.skill_weights.sum)) ""

/-- The drawn name was substituted from the providers of a registered
dependency. -/
def drawnFromProviders (st : SkillPool) (q : String) : Prop :=
  ∃ p ∈ st.dependencies, q ∈ (p : String × Dependency).2.providers

theorem get_next_skill_spec (hid : String) (bi : Nat) :
    ∀ (fuel : Nat) (st : SkillPool) (rng : RNG) (sk : Skill)
      (st' : SkillPool) (rng' : RNG),
    streamOK rng →
    get_next_skill hid bi fuel st rng = some (sk, st', rng') →
    st' = (mark_used sk hid (bi : Int) st).2 ∧
    (∃ q, st.skills.lookup q = some sk ∧
      (drawnFromWeights st bi q ∨ drawnFromProviders st q)) ∧
    rng'.stream = rng.stream := by
  intro fuel
  induction fuel with
  | zero =>
    intro st rng sk st' rng' _ h
    simp [get_next_skill] at h
  | succ n ih =>
    intro st rng sk st' rng' hok h
    rw [get_next_skill] at h
    split at h
    · simp at h
    rename_i br hbr
    split at h
    · simp at h
    rename_i skill_name rng1 hcw
    obtain ⟨hlen, hsum, hq, hstm⟩ := choicesWeighted_spec _ _ _ _ _ hcw
    have hdw : drawnFromWeights st bi skill_name :=
      ⟨br, hbr, hlen, hsum, rng.stream rng.pos, (hok rng.pos).1,
        (hok rng.pos).2, hq⟩
    split at h
    · -- hidden_skills == "All"
      split at h
      · simp at h
      rename_i sk2 hlk
      simp only [Option.some.injEq, Prod.mk.injEq] at h
      obtain ⟨hsk, hst, hrng⟩ := h
      have hsk' : sk2 = sk := hsk
      subst hsk'
      exact ⟨hst.symm, ⟨skill_name, hlk, Or.inl hdw⟩, by rw [← hrng, hstm]⟩
    · split at h
      · -- no blocking dependency
        split at h
        · simp at h
        rename_i sk2 hlk
        simp only [Option.some.injEq, Prod.mk.injEq] at h
        obtain ⟨hsk, hst, hrng⟩ := h
        have hsk' : sk2 = sk := hsk
        subst hsk'
        exact ⟨hst.symm, ⟨skill_name, hlk, Or.inl hdw⟩, by rw [← hrng, hstm]⟩
      · rename_i dep hfb
        have hdepmem : ∃ p ∈ st.dependencies,
            (p : String × Dependency).2 = dep := by
          unfold findBlockingDep at hfb
          cases hfd : st.dependencies.find?
              (fun p => blocksSkill hid skill_name p.2) with
          | none => rw [hfd] at hfb; simp at hfb
          | some p0 =>
            rw [hfd] at hfb
            simp at hfb
            exact ⟨p0, List.mem_of_find?_eq_some hfd, hfb⟩
        split at h
        · simp at h
        rename_i provider rng2 hch
        obtain ⟨hpm, hstm2⟩ := RNG.choice_spec _ _ _ _ hch
        split at h
        · rename_i sk2 hlk
          simp only [Option.some.injEq, Prod.mk.injEq] at h
          obtain ⟨hsk, hst, hrng⟩ := h
          have hsk' : sk2 = sk := hsk
          subst hsk'
          refine ⟨hst.symm, ⟨provider, hlk, Or.inr ?_⟩,
            by rw [← hrng, hstm2, hstm]⟩
          obtain ⟨p0, hp0, hp0e⟩ := hdepmem
          exact ⟨p0, hp0, hp0e ▸ hpm⟩
        · have hok2 : streamOK rng2 := by
            intro k
            rw [hstm2, hstm]
            exact hok k
          obtain ⟨c1, c2, c3⟩ := ih st rng2 sk st' rng' hok2 h
          exact ⟨c1, c2, by rw [c3, hstm2, hstm]⟩

/-- Pool-level frame of one draw (composition of the frames of the branches
taken inside `get_next_skill`). -/
theorem draw_skills_frame (fuel : Nat) (hid : String) (bi : Nat) :
    ∀ (n : Nat) (st : SkillPool) (rng : RNG) (maxp totp : Int)
      (acc : List String) (st' : SkillPool) (rng' : RNG) (maxp' totp' : Int)
      (acc' : List String),
    streamOK rng →
    draw_skills fuel hid bi n st rng maxp totp acc =
      some (st', rng', maxp', totp', acc') →
    branchShapes st' = branchShapes st ∧
    st'.skill_order = st.skill_order ∧
    st'.skills = st.skills ∧
    rng'.stream = rng.stream := by
  intro n
  induction n with
  | zero =>
    intro st rng maxp totp acc st' rng' maxp' totp' acc' _ h
    unfold draw_skills at h
    simp only [Option.some.injEq, Prod.mk.injEq] at h
    obtain ⟨h1, h2, _, _, _⟩ := h
    rw [← h1, ← h2]
    exact ⟨rfl, rfl, rfl, rfl⟩
  | succ m ih =>
    intro st rng maxp totp acc st' rng' maxp' totp' acc' hok h
    unfold draw_skills at h
    split at h
    · simp at h
    rename_i sk st1 rng1 hgns
    obtain ⟨hst1, _, hstm⟩ := get_next_skill_spec hid bi _ _ _ _ _ _ hok hgns
    have hok1 : streamOK rng1 := by
      intro k
      rw [hstm]
      exact hok k
    obtain ⟨c1, c2, c3, c4⟩ := ih st1 rng1 _ _ _ st' rng' maxp' totp' acc'
      hok1 h
    subst hst1
    exact ⟨c1.trans (mark_used_shapes _ _ _ _),
      c2.trans (mark_used_skill_order _ _ _ _),
      c3.trans (mark_used_skills _ _ _ _), c4.trans hstm⟩

theorem cheat_fold_frame (bi tier : Nat) :
    ∀ (cheats : List (String × Int)) (st : SkillPool) (logs0 : List String),
    ((cheats.foldl (fun (acc : SkillPool × List String) c =>
      let r := cheat_step bi tier acc.1 c.1 c.2
      (r.1, acc.2 ++ r.2)) (st, logs0)).1).dependencies = st.dependencies ∧
    ((cheats.foldl (fun (acc : SkillPool × List String) c =>
      let r := cheat_step bi tier acc.1 c.1 c.2
      (r.1, acc.2 ++ r.2)) (st, logs0)).1).skills = st.skills ∧
    ((cheats.foldl (fun (acc : SkillPool × List String) c =>
      let r := cheat_step bi tier acc.1 c.1 c.2
      (r.1, acc.2 ++ r.2)) (st, logs0)).1).skill_order = st.skill_order ∧
    ((cheats.foldl (fun (acc : SkillPool × List String) c =>
      let r := cheat_step bi tier acc.1 c.1 c.2
      (r.1, acc.2 ++ r.2)) (st, logs0)).1).extra_skills = st.extra_skills ∧
    ((cheats.foldl (fun (acc : SkillPool × List String) c =>
      let r := cheat_step bi tier acc.1 c.1 c.2
      (r.1, acc.2 ++ r.2)) (st, logs0)).1).class_mod_skills =
        st.class_mod_skills ∧
    branchShapes ((cheats.foldl (fun (acc : SkillPool × List String) c =>
      let r := cheat_step bi tier acc.1 c.1 c.2
      (r.1, acc.2 ++ r.2)) (st, logs0)).1) = branchShapes st := by
  intro cheats
  induction cheats with
  | nil => exact fun st logs0 => ⟨rfl, rfl, rfl, rfl, rfl, rfl⟩
  | cons c cheats ih =>
    intro st logs0
    rw [List.foldl_cons]
    obtain ⟨g1, g2, g3, g4, g5, g6⟩ :=
      ih (cheat_step bi tier st c.1 c.2).1
        (logs0 ++ (cheat_step bi tier st c.1 c.2).2)
    obtain ⟨h1, h2, h3, h4, h5, h6⟩ := cheat_step_frame bi tier st c.1 c.2
    exact ⟨g1.trans h1, g2.trans h2, g3.trans h3, g4.trans h4, g5.trans h5,
      g6.trans h6⟩

theorem cheat_pass_frame (bi tier : Nat) (cheats : List (String × Int))
    (st : SkillPool) :
    (cheat_pass bi tier cheats st).1.dependencies = st.dependencies ∧
    (cheat_pass bi tier cheats st).1.skills = st.skills ∧
    (cheat_pass bi tier cheats st).1.skill_order = st.skill_order ∧
    (cheat_pass bi tier cheats st).1.extra_skills = st.extra_skills ∧
    (cheat_pass bi tier cheats st).1.class_mod_skills = st.class_mod_skills ∧
    branchShapes (cheat_pass bi tier cheats st).1 = branchShapes st :=
  cheat_fold_frame bi tier cheats st []

theorem branchShapes_len {st1 st2 : SkillPool}
    (h : branchShapes st1 = branchShapes st2) :
    st1.new_branches.length = st2.new_branches.length := by
  have := congrArg List.length h
  simpa [branchShapes] using this

theorem branchShapes_branchAt {st1 st2 : SkillPool}
    (h : branchShapes st1 = branchShapes st2) (b : Nat) :
    Branch.shape (branchAt st1 b) = Branch.shape (branchAt st2 b) := by
  by_cases hb : b < st2.new_branches.length
  · have hb1 : b < st1.new_branches.length := by
      rw [branchShapes_len h]
      exact hb
    have hmap := congrArg (fun l => l[b]?) h
    simp only [branchShapes, List.getElem?_map] at hmap
    rw [List.getElem?_eq_getElem hb, List.getElem?_eq_getElem hb1] at hmap
    simp at hmap
    rw [branchAt, branchAt, List.getD_eq_getElem?_getD,
      List.getD_eq_getElem?_getD, List.getElem?_eq_getElem hb,
      List.getElem?_eq_getElem hb1]
    simpa using hmap
  · have hb1 : ¬ b < st1.new_branches.length := by
      rw [branchShapes_len h]
      exact hb
    rw [branchAt, branchAt, getD_eq_default _ _ _ (Nat.le_of_not_lt hb1),
      getD_eq_default _ _ _ (Nat.le_of_not_lt hb)]

theorem shape_eq_fields {a b : Branch} (h : Branch.shape a = Branch.shape b) :
    a.full_name = b.full_name ∧ a.layout_name = b.layout_name ∧
    a.skills = b.skills ∧ a.points_to_unlock = b.points_to_unlock ∧
    a.layout = b.layout ∧ a.idx = b.idx ∧ a.slots_left = b.slots_left ∧
    a.expected_skills = b.expected_skills ∧ a.skill_count = b.skill_count ∧
    a.skill_weights.length = b.skill_weights.length := by
  simp only [Branch.shape, Prod.mk.injEq] at h
  exact h

theorem branchAt_set_self (st : SkillPool) (bi : Nat) (br : Branch)
    (hb : bi < st.new_branches.length) :
    branchAt { st with new_branches := st.new_branches.set bi br } bi = br := by
  rw [branchAt]
  exact getD_set_self _ _ _ _ hb

/-- The layout row `finish_tier` writes for the processed tier. -/
theorem finish_tier_layout (bi tier : Nat) (rt : Bool) (skill_count : Nat)
    (maxp totp : Int) (tier_skills : List String) (st2 : SkillPool)
    (rng2 : RNG) (hb : bi < st2.new_branches.length) :
    (branchAt
        (finish_tier bi tier rt skill_count maxp totp tier_skills st2 rng2).1
        bi).layout =
      (branchAt st2 bi).layout.set tier (tier_layout_of skill_count) := by
  unfold finish_tier get_extra_skills
  dsimp only
  split
  · rw [branchAt]
    dsimp only
    rw [List.set_set, getD_set_self _ _ _ _ hb]
  · rw [branchAt]
    dsimp only
    rw [getD_set_self _ _ _ _ hb]

/-! ### Claim C4 -/

theorem adjStep_delta (order : List String) (bidx : Int) (b : Nat)
    (br : Branch) (t : String) :
    (adjStep order bidx b br t).total_weight -
        (adjStep order bidx b br t).skill_weights.sum =
      br.total_weight - br.skill_weights.sum := by
  unfold adjStep
  cases hpi : pyIndex t order with
  | none => rfl
  | some i =>
    simp only []
    rw [sum_set]
    by_cases hlen : i < br.skill_weights.length
    · rw [if_pos hlen]
      ring
    · rw [if_neg hlen, getD_eq_default _ _ _ (Nat.le_of_not_lt hlen),
        adjustWeight_zero]
      ring

theorem adjustBranchForDep_delta (themed order : List String) (bidx : Int)
    (b : Nat) (br : Branch) :
    (adjustBranchForDep themed order bidx b br).total_weight -
        (adjustBranchForDep themed order bidx b br).skill_weights.sum =
      br.total_weight - br.skill_weights.sum := by
  induction themed generalizing br with
  | nil => rfl
  | cons t ts ih => rw [adjustBranchForDep_cons, ih, adjStep_delta]

/-- C4, amended: the theme-boost/exclusion adjustments of the dependency
block maintain `total_weight = Σ weights` incrementally, but the
draw-without-replacement zeroing leaves `total_weight` untouched, so after a
draw of a pooled skill the stored total exceeds the weight sum by the drawn
skill's prior weight. -/
theorem C4_amended_incremental (skill : Skill) (hid : String) (bidx : Int)
    (st : SkillPool) (b : Nat) (hb : b < st.new_branches.length)
    (hinv : (branchAt st b).total_weight = (branchAt st b).skill_weights.sum) :
    ((branchAt (depPhase skill hid bidx st) b).total_weight =
      (branchAt (depPhase skill hid bidx st) b).skill_weights.sum) ∧
    (∀ i, pyIndex skill.full_name st.skill_order = some i →
      (branchAt (mark_used skill hid bidx st).2 b).total_weight =
        (branchAt (mark_used skill hid bidx st).2 b).skill_weights.sum +
          (branchAt (depPhase skill hid bidx st) b).skill_weights.getD i 0) := by
  have hinv1 : (branchAt (depPhase skill hid bidx st) b).total_weight =
      (branchAt (depPhase skill hid bidx st) b).skill_weights.sum := by
    cases hdep : st.dependencies.lookup skill.full_name with
    | none => rw [depPhase_none _ _ _ _ hdep]; exact hinv
    | some dep =>
      have hbr : branchAt (depPhase skill hid bidx st) b =
          adjustBranchForDep (themedSkills dep hid) st.skill_order bidx b
            (branchAt st b) := by
        rw [depPhase_some skill hid bidx st dep hdep]
        exact branchAt_mapWithIdx _ _ _ hb
      have hd := adjustBranchForDep_delta (themedSkills dep hid)
        st.skill_order bidx b (branchAt st b)
      rw [hbr]
      have : (branchAt st b).total_weight - (branchAt st b).skill_weights.sum
          = 0 := by rw [hinv]; ring
      rw [this] at hd
      linarith [hd]
  refine ⟨hinv1, ?_⟩
  intro i hpi
  have hpi1 : pyIndex skill.full_name
      (depPhase skill hid bidx st).skill_order = some i := by
    rw [depPhase_skill_order]; exact hpi
  have hb1 : b < (depPhase skill hid bidx st).new_branches.length := by
    rw [depPhase_length]; exact hb
  have hbz : branchAt (mark_used skill hid bidx st).2 b =
      { branchAt (depPhase skill hid bidx st) b with
        skill_weights :=
          (branchAt (depPhase skill hid bidx st) b).skill_weights.set i 0 } := by
    show branchAt (zeroSkillPhase skill (depPhase skill hid bidx st)) b = _
    rw [zeroSkillPhase_some _ _ i hpi1]
    exact branchAt_map _ _ _ hb1
  rw [hbz]
  simp only []
  rw [sum_set]
  by_cases hlen : i < (branchAt (depPhase skill hid bidx st) b).skill_weights.length
  · rw [if_pos hlen, hinv1]
    ring
  · rw [if_neg hlen, hinv1,
      getD_eq_default _ _ _ (Nat.le_of_not_lt hlen)]
    ring

def c4_branch : Branch :=
  { full_name := "B0", layout_name := "L0", skills := [],
    points_to_unlock := [], layout := [], idx := 0, slots_left := 18,
    expected_skills := 1, skill_count := 0, skill_weights := [1],
    total_weight := 1 }

def c4_st : SkillPool :=
  { dependencies := [], skills := [("A.B", ⟨"A.B", 2⟩)],
    skill_order := ["A.B"], extra_skills := [], class_mod_skills := [],
    current_char_class := none, original_branches := none,
    new_branches := [c4_branch] }

/-- C4 counterexample: starting from a state where the stored total equals
the weight sum, drawing a pooled skill (whose weight `mark_used` zeroes in
the draw-without-replacement block without touching `total_weight`) leaves
`total_weight ≠ Σ weights`. -/
theorem C4_counterexample :
    (branchAt c4_st 0).total_weight = (branchAt c4_st 0).skill_weights.sum ∧
    ¬ ((branchAt (mark_used ⟨"A.B", 2⟩ "None" 0 c4_st).2 0).total_weight =
       (branchAt (mark_used ⟨"A.B", 2⟩ "None" 0 c4_st).2 0).skill_weights.sum) := by
  constructor
  · with_unfolding_all decide
  · with_unfolding_all decide

theorem C4_amended_witness :
    (branchAt (depPhase ⟨"A.B", 2⟩ "None" 0 c4_st) 0).total_weight =
      (branchAt (depPhase ⟨"A.B", 2⟩ "None" 0 c4_st) 0).skill_weights.sum ∧
    (branchAt (mark_used ⟨"A.B", 2⟩ "None" 0 c4_st).2 0).total_weight =
      (branchAt (mark_used ⟨"A.B", 2⟩ "None" 0 c4_st).2 0).skill_weights.sum +
        (branchAt (depPhase ⟨"A.B", 2⟩ "None" 0 c4_st) 0).skill_weights.getD 0 0 :=
  ⟨(C4_amended_incremental ⟨"A.B", 2⟩ "None" 0 c4_st 0 (by decide)
      (by with_unfolding_all decide)).1,
   (C4_amended_incremental ⟨"A.B", 2⟩ "None" 0 c4_st 0 (by decide)
      (by with_unfolding_all decide)).2 0 (by decide)⟩

theorem C1_witness :
    (branchAt (depPhase ⟨"P.P", 2⟩ "None" 0 c1_st) 0).skill_weights.getD 1 0 =
      (branchAt c1_st 0).skill_weights.getD 1 0 * (THEME_WEIGHT : ℚ) ∧
    (branchAt (depPhase ⟨"P.P", 2⟩ "None" 0 c1_st) 1).skill_weights.getD 1 0 = 0 ∧
    (mark_used ⟨"P.P", 2⟩ "None" 0 c1_st).2.dependencies.lookup "P.P" = none ∧
    (mark_used ⟨"P.P", 2⟩ "None" 0 c1_st).2.extra_skills = ["G.G"] := by
  have h0 := C1_dependency_consumption ⟨"P.P", 2⟩ "None" 0 c1_st c1_dep "R.R"
    1 0 (by decide) (by decide) (by decide) (by decide) (by decide)
  have h1 := C1_dependency_consumption ⟨"P.P", 2⟩ "None" 0 c1_st c1_dep "R.R"
    1 1 (by decide) (by decide) (by decide) (by decide) (by decide)
  exact ⟨h0.2.1 (by decide) (by decide), h1.2.2.1 (by decide) (by decide),
    h0.2.2.2.1 "P.P" (by decide), h0.2.2.2.2⟩

/-! ### Claim C6 -/

theorem choose_skill_count_stream (d : ℚ) (r : RNG) :
    (choose_skill_count d r).2.stream = r.stream := by
  unfold choose_skill_count RNG.next
  dsimp only
  repeat' split
  all_goals rfl

/-- On a successful tier pass, the written occupancy row for the processed
tier is the mirrored layout of the chosen skill count, which is computed by
`choose_skill_count` from the branch's pre-pass expected density. -/
theorem randomize_branch_tier_layout (fuel bi tier : Nat) (rt : Bool)
    (hs : String) (cheats : List (String × Int)) (st : SkillPool) (rng : RNG)
    (hok : streamOK rng) (hb : bi < st.new_branches.length)
    (p : SkillPool × RNG)
    (h : (randomize_branch_tier fuel bi tier rt hs cheats st rng).1 = some p) :
    (branchAt p.1 bi).layout =
      (branchAt st bi).layout.set tier
        (tier_layout_of
          (choose_skill_count (expected_density st bi) rng).1) := by
  unfold randomize_branch_tier at h
  dsimp only at h
  unfold expected_density
  obtain ⟨_, _, _, _, _, hcp⟩ := cheat_pass_frame bi tier cheats st
  have hshcp := branchShapes_branchAt hcp bi
  obtain ⟨_, _, _, _, hlaycp, _, hslots, hexp, hcount, _⟩ :=
    shape_eq_fields hshcp
  split at h
  · simp at h
  rename_i st2 rng2 maxp totp tsk hdraw
  simp only [Option.some.injEq] at h
  have hok2 : streamOK (choose_skill_count
      ((((branchAt (cheat_pass bi tier cheats st).1 bi).expected_skills -
          (branchAt (cheat_pass bi tier cheats st).1 bi).skill_count :
          Int) : ℚ) /
        (((branchAt (cheat_pass bi tier cheats st).1 bi).slots_left :
          Int) : ℚ)) rng).2 := by
    intro k
    rw [choose_skill_count_stream]
    exact hok k
  obtain ⟨hshd, _, _, _⟩ := draw_skills_frame fuel hs bi _ _ _ _ _ _
    st2 rng2 maxp totp tsk hok2 hdraw
  have hb1 : bi < (cheat_pass bi tier cheats st).1.new_branches.length := by
    rw [branchShapes_len hcp]
    exact hb
  have hb2 : bi < st2.new_branches.length := by
    rw [branchShapes_len hshd]
    exact hb1
  obtain ⟨_, _, _, _, hlayd, _, _, _, _, _⟩ :=
    shape_eq_fields (branchShapes_branchAt hshd bi)
  rw [← h]
  rw [finish_tier_layout bi tier rt _ maxp totp tsk st2 rng2 hb2]
  rw [hlayd, hlaycp, hexp, hcount, hslots]

/-- C6: the per-tier skill count follows the fixed thresholds on
`expected_density = (expected_skills - skill_count) / slots_left`
(> 0.99 gives 3; > 0.66 gives 3 exactly when the uniform draw is below
3 x (density - 0.66), otherwise 2; > 0.33 gives 2 exactly when the draw is
below 3 x (density - 0.33), otherwise 1; > 0 gives 1; else 0), and the
occupancy row written for the tier is mirrored: the two outer slots are equal
and occupied exactly when the count exceeds 1, and the center slot is occupied
exactly when the count is odd. -/
theorem C6_density_curve_and_mirror (fuel bi tier : Nat) (rt : Bool)
    (hs : String) (cheats : List (String × Int)) (st : SkillPool) (rng : RNG)
    (hok : streamOK rng) (hb : bi < st.new_branches.length) :
    ((expected_density st bi > 0.99 →
        (choose_skill_count (expected_density st bi) rng).1 = 3) ∧
     (expected_density st bi ≤ 0.99 → expected_density st bi > 0.66 →
        (choose_skill_count (expected_density st bi) rng).1 =
          if 3 * (expected_density st bi - 0.66) > rng.stream rng.pos then 3
          else 2) ∧
     (expected_density st bi ≤ 0.66 → expected_density st bi > 0.33 →
        (choose_skill_count (expected_density st bi) rng).1 =
          if 3 * (expected_density st bi - 0.33) > rng.stream rng.pos then 2
          else 1) ∧
     (expected_density st bi ≤ 0.33 → expected_density st bi > 0 →
        (choose_skill_count (expected_density st bi) rng).1 = 1) ∧
     (expected_density st bi ≤ 0 →
        (choose_skill_count (expected_density st bi) rng).1 = 0)) ∧
    ((tier_layout_of
        (choose_skill_count (expected_density st bi) rng).1).getD 0 false =
      (tier_layout_of
        (choose_skill_count (expected_density st bi) rng).1).getD 2 false ∧
     (tier_layout_of
        (choose_skill_count (expected_density st bi) rng).1).getD 0 false =
      decide ((choose_skill_count (expected_density st bi) rng).1 > 1) ∧
     (tier_layout_of
        (choose_skill_count (expected_density st bi) rng).1).getD 1 false =
      decide ((choose_skill_count (expected_density st bi) rng).1 % 2 = 1)) ∧
    (match (randomize_branch_tier fuel bi tier rt hs cheats st rng).1 with
     | some p => (branchAt p.1 bi).layout =
         (branchAt st bi).layout.set tier
           (tier_layout_of
             (choose_skill_count (expected_density st bi) rng).1)
     | none => True) := by
  refine ⟨⟨?_, ?_, ?_, ?_, ?_⟩, ⟨?_, ?_, ?_⟩, ?_⟩
  · intro h99
    unfold choose_skill_count
    rw [if_pos h99]
  · intro h99 h66
    unfold choose_skill_count RNG.next
    rw [if_neg (not_lt.mpr h99), if_pos h66]
  · intro h66 h33
    unfold choose_skill_count RNG.next
    rw [if_neg (not_lt.mpr (h66.trans (by norm_num))),
      if_neg (not_lt.mpr h66), if_pos h33]
  · intro h33 h0
    unfold choose_skill_count
    rw [if_neg (not_lt.mpr (h33.trans (by norm_num : (0.33 : ℚ) ≤ 0.99))),
      if_neg (not_lt.mpr (h33.trans (by norm_num : (0.33 : ℚ) ≤ 0.66))),
      if_neg (not_lt.mpr h33), if_pos h0]
  · intro h0
    unfold choose_skill_count
    rw [if_neg (not_lt.mpr (h0.trans (by norm_num))),
      if_neg (not_lt.mpr (h0.trans (by norm_num))),
      if_neg (not_lt.mpr (h0.trans (by norm_num))), if_neg (not_lt.mpr h0)]
  · rfl
  · rfl
  · simp only [tier_layout_of, List.getD_cons_succ, List.getD_cons_zero,
      Nat.and_one_is_mod]
    exact decide_eq_decide.mpr (by omega)
  · cases hres : (randomize_branch_tier fuel bi tier rt hs cheats st rng).1
      with
    | none => trivial
    | some p =>
      exact randomize_branch_tier_layout fuel bi tier rt hs cheats st rng
        hok hb p hres

def c6_branch : Branch :=
  { full_name := "GD_Soldier_Skills.Branch.C6", layout_name := "L",
    skills := [[], [], [], [], [], []],
    points_to_unlock := [0, 0, 0, 0, 0, 0],
    layout := [[], [], [], [], [], []],
    idx := 0, slots_left := 18, expected_skills := 0, skill_count := 0,
    skill_weights := [], total_weight := 0 }

def c6_st : SkillPool :=
  { dependencies := [], skills := [], skill_order := [], extra_skills := [],
    class_mod_skills := [], current_char_class := none,
    original_branches := none, new_branches := [c6_branch] }

def c6_rng : RNG := ⟨fun _ => 0, 0⟩

/-- Witness for C6 at a concrete one-branch pool. -/
theorem C6_witness :
    streamOK c6_rng ∧ 0 < c6_st.new_branches.length ∧
    (((expected_density c6_st 0 > 0.99 →
        (choose_skill_count (expected_density c6_st 0) c6_rng).1 = 3) ∧
     (expected_density c6_st 0 ≤ 0.99 → expected_density c6_st 0 > 0.66 →
        (choose_skill_count (expected_density c6_st 0) c6_rng).1 =
          if 3 * (expected_density c6_st 0 - 0.66) >
              c6_rng.stream c6_rng.pos then 3
          else 2) ∧
     (expected_density c6_st 0 ≤ 0.66 → expected_density c6_st 0 > 0.33 →
        (choose_skill_count (expected_density c6_st 0) c6_rng).1 =
          if 3 * (expected_density c6_st 0 - 0.33) >
              c6_rng.stream c6_rng.pos then 2
          else 1) ∧
     (expected_density c6_st 0 ≤ 0.33 → expected_density c6_st 0 > 0 →
        (choose_skill_count (expected_density c6_st 0) c6_rng).1 = 1) ∧
     (expected_density c6_st 0 ≤ 0 →
        (choose_skill_count (expected_density c6_st 0) c6_rng).1 = 0)) ∧
    ((tier_layout_of
        (choose_skill_count (expected_density c6_st 0) c6_rng).1).getD 0
          false =
      (tier_layout_of
        (choose_skill_count (expected_density c6_st 0) c6_rng).1).getD 2
          false ∧
     (tier_layout_of
        (choose_skill_count (expected_density c6_st 0) c6_rng).1).getD 0
          false =
      decide ((choose_skill_count (expected_density c6_st 0) c6_rng).1 > 1) ∧
     (tier_layout_of
        (choose_skill_count (expected_density c6_st 0) c6_rng).1).getD 1
          false =
      decide
        ((choose_skill_count (expected_density c6_st 0) c6_rng).1 % 2 = 1)) ∧
    (match (randomize_branch_tier 1 0 0 false "None" [] c6_st c6_rng).1 with
     | some p => (branchAt p.1 0).layout =
         (branchAt c6_st 0).layout.set 0
           (tier_layout_of
             (choose_skill_count (expected_density c6_st 0) c6_rng).1)
     | none => True)) :=
  ⟨fun _ => ⟨le_refl 0, show (0 : ℚ) < 1 by norm_num⟩, by decide,
    C6_density_curve_and_mirror 1 0 0 false "None" [] c6_st c6_rng
      (fun _ => ⟨le_refl 0, show (0 : ℚ) < 1 by norm_num⟩) (by decide)⟩

/-! ### Claim C9 -/

/-- C9: with fewer than 5 upgradable skills, `randomize_coms` returns at once
with the skip diagnostic; no special mod is selected (the rng is untouched)
and the engine's class-mod slots are unchanged. -/
theorem C9_insufficient_pool_skip (fuel : Nat) (skills : List Skill)
    (rng : RNG) (char_class : Option String) (cheat_skills : List Skill)
    (cmp : ClassModPatcher) (e : Engine) (h : skills.length < 5) :
    randomize_coms fuel skills rng char_class cheat_skills cmp e =
      (some (e, rng),
       ["Skipping class mod randomization as there are only " ++
        toString skills.length ++ " upgradable skills available."]) := by
  unfold randomize_coms
  rw [if_pos h]

def c9_engine : Engine :=
  { branch_defs := [], layout_defs := [], action_slots := [],
    com_defs := [("ComZ", ⟨some "Soldier", [("SkillA", some "Attr.X")]⟩)] }

def c9_rng : RNG := ⟨fun _ => 0, 0⟩

/-- Witness for C9 with four upgradable skills. -/
theorem C9_witness :
    ([⟨"S1", 5⟩, ⟨"S2", 5⟩, ⟨"S3", 5⟩, ⟨"S4", 5⟩] : List Skill).length < 5 ∧
    randomize_coms 3 [⟨"S1", 5⟩, ⟨"S2", 5⟩, ⟨"S3", 5⟩, ⟨"S4", 5⟩] c9_rng
        (some "Soldier") [] ClassModPatcher.init c9_engine =
      (some (c9_engine, c9_rng),
       ["Skipping class mod randomization as there are only " ++
        toString ([⟨"S1", 5⟩, ⟨"S2", 5⟩, ⟨"S3", 5⟩, ⟨"S4", 5⟩] :
          List Skill).length ++ " upgradable skills available."]) :=
  ⟨by decide,
    C9_insufficient_pool_skip 3 [⟨"S1", 5⟩, ⟨"S2", 5⟩, ⟨"S3", 5⟩, ⟨"S4", 5⟩]
      c9_rng (some "Soldier") [] ClassModPatcher.init c9_engine (by decide)⟩

/-! ### Claim C3 -/

/-- The choices offered by the `hidden_skills` spinner
(`PlayerRandomizer/__init__.py` lines 24-29). -/
def hidden_skills_choices : List String := ["None", "Misdocumented", "All"]

def c3_char : Character :=
  { name := "Soldier", character_name := "Axton",
    action_skill := ⟨"GD_Soldier_Skills.Action.Scorpio", 1⟩,
    pure_skills := [⟨"Pure.P", 5⟩],
    misdocumented_skills := [⟨"Mis.M", 5⟩],
    suppressed_skills := [⟨"Sup.S", 5⟩],
    dependencies := [] }

/-- C3: the pool-building loop of `randomize_tree` compares the visibility
policy against lowercase `"none"`/`"all"`, but the `hidden_skills` option only
ever supplies the capitalized values `"None"`, `"Misdocumented"`, `"All"`.
Hence under policy `"None"` a misdocumented skill is still added to the pool,
and under policy `"All"` a suppressed skill is never added — both contrary to
the stated policy semantics. -/
theorem C3_policy_case_bug :
    "None" ∈ hidden_skills_choices ∧ "All" ∈ hidden_skills_choices ∧
    ((build_pool [c3_char] ["Axton"] "None" SkillPool.init).1.skills.lookup
      "Mis.M").isSome = true ∧
    ((build_pool [c3_char] ["Axton"] "All" SkillPool.init).1.skills.lookup
      "Sup.S").isSome = false := by
  decide

/-! ### Claim C5 -/

def c5_branch : Branch :=
  { full_name := "GD_Soldier_Skills.B", layout_name := "L",
    skills := [[], [], [], [], [], []],
    points_to_unlock := [0, 0, 0, 0, 0, 0],
    layout := [[], [], [], [], [], []],
    idx := 0, slots_left := 18, expected_skills := 1, skill_count := 0,
    skill_weights := [1], total_weight := 1 }

def c5_st : SkillPool :=
  { dependencies := [], skills := [("A.A", ⟨"A.A", 5⟩)],
    skill_order := ["A.A"], extra_skills := [], class_mod_skills := [],
    current_char_class := none, original_branches := none,
    new_branches := [c5_branch] }

def c5_rng : RNG := ⟨fun _ => 0, 0⟩

/-- C5 counterexample: a cheat entry absent from the pool (`Zed.Z`) does not
abort the tier pass.  The pass still succeeds, the unlisted-skill error is
merely logged, and the tier is written (skill `A.A` is placed) — the claimed
fatal failure does not occur. -/
theorem C5_counterexample :
    pyIndex "Zed.Z" c5_st.skill_order = none ∧
    (randomize_branch_tier 3 0 0 false "None" [("Zed.Z", 0)] c5_st
      c5_rng).1.isSome = true ∧
    "Desired skill Zed.Z is not in the pool." ∈
      (randomize_branch_tier 3 0 0 false "None" [("Zed.Z", 0)] c5_st
        c5_rng).2 ∧
    Option.map (fun p => (branchAt p.1 0).skills.getD 0 [])
        (randomize_branch_tier 3 0 0 false "None" [("Zed.Z", 0)] c5_st
          c5_rng).1 =
      some ["A.A"] := by
  with_unfolding_all decide

/-- C5 (amended): a cheat name absent from `skill_order` raises `ValueError`
inside the loop, which is caught immediately: the error is logged and the
entry is skipped, leaving the pool state completely unchanged — generation
continues rather than failing. -/
theorem C5_amended_unlisted_cheat_logged (bi tier : Nat) (st : SkillPool)
    (name : String) (ct : Int)
    (h : pyIndex name st.skill_order = none) :
    cheat_step bi tier st name ct =
      (st, ["Desired skill " ++ name ++ " is not in the pool."]) := by
  unfold cheat_step
  rw [h]

/-- Witness for the amended C5 on the empty pool. -/
theorem C5_amended_witness :
    pyIndex "Zed.Z" SkillPool.init.skill_order = none ∧
    cheat_step 0 0 SkillPool.init "Zed.Z" 0 =
      (SkillPool.init,
       ["Desired skill " ++ "Zed.Z" ++ " is not in the pool."]) :=
  ⟨by decide,
    C5_amended_unlisted_cheat_logged 0 0 SkillPool.init "Zed.Z" 0
      (by decide)⟩

/-! ### Claim C7 -/

theorem patch_fold_frame (e : Engine) (l : List Branch) :
    (l.foldl (fun e b => Branch.patch b e) e).action_slots = e.action_slots ∧
    (l.foldl (fun e b => Branch.patch b e) e).com_defs = e.com_defs := by
  induction l generalizing e with
  | nil => exact ⟨rfl, rfl⟩
  | cons b bs ih =>
    rw [List.foldl_cons]
    exact ih (Branch.patch b e)

theorem listModify_length {α : Type} (l : List α) (i : Nat) (f : α → α) :
    (listModify l i f).length = l.length := by
  unfold listModify
  cases h : l.get? i
  · rfl
  · exact List.length_set l i _

theorem getD_listModify_ne {α : Type} (l : List α) (i j : Nat) (f : α → α)
    (d : α) (h : j ≠ i) : (listModify l j f).getD i d = l.getD i d := by
  unfold listModify
  cases hg : l.get? j
  · rfl
  · exact getD_set_ne l j i _ d h

theorem getD_listModify_self {α : Type} (l : List α) (i : Nat) (f : α → α)
    (d : α) (h : i < l.length) :
    (listModify l i f).getD i d = f (l.getD i d) := by
  unfold listModify
  cases hg : l.get? i with
  | none =>
    rw [List.get?_eq_getElem?, List.getElem?_eq_none_iff] at hg
    exact absurd h (Nat.not_lt.mpr hg)
  | some a =>
    rw [getD_set_self l i (f a) d h]
    rw [List.get?_eq_getElem?] at hg
    rw [List.getD_eq_getElem?_getD, hg]
    rfl

/-- Restoring one mod leaves the slots of indices it never touches alone. -/
theorem slots_fold_frame (sm : List (Nat × String)) :
    ∀ (s : List (String × Option String)) (i : Nat),
    (∀ p ∈ sm, p.1 ≠ i) →
    (sm.foldl (fun s q =>
      listModify s q.1 (fun r => (r.1, some q.2))) s).getD i ("", none) =
      s.getD i ("", none) := by
  induction sm with
  | nil =>
    intro s i _
    rfl
  | cons q sm ih =>
    intro s i hni
    rw [List.foldl_cons]
    rw [ih _ i (fun p hp => hni p (List.mem_cons_of_mem q hp))]
    exact getD_listModify_ne s i q.1 _ _ (hni q (List.mem_cons_self q sm))

theorem slots_fold_length (sm : List (Nat × String)) :
    ∀ (s : List (String × Option String)),
    (sm.foldl (fun s q =>
      listModify s q.1 (fun r => (r.1, some q.2))) s).length = s.length := by
  induction sm with
  | nil =>
    intro s
    rfl
  | cons q sm ih =>
    intro s
    rw [List.foldl_cons, ih, listModify_length]

/-- Restoring one mod writes every recorded slot back to its recorded
attribute (the recorded slot indices are distinct). -/
theorem slots_fold_restores (sm : List (Nat × String)) :
    ∀ (s : List (String × Option String)),
    ((sm.map (fun q : Nat × String => q.1)).Nodup) →
    ∀ i a, (i, a) ∈ sm → i < s.length →
    ((sm.foldl (fun s q =>
        listModify s q.1 (fun r => (r.1, some q.2))) s).getD i
      ("", none)).2 = some a := by
  induction sm with
  | nil =>
    intro s _ i a hm _
    exact absurd hm (List.not_mem_nil _)
  | cons q sm ih =>
    intro s hnd i a hm hi
    rw [List.foldl_cons]
    rw [List.map_cons, List.nodup_cons] at hnd
    rcases List.mem_cons.mp hm with hq | hmem
    · have hq1 : q.1 = i := by rw [← hq]
      have hq2 : q.2 = a := by rw [← hq]
      have hni : ∀ p ∈ sm, p.1 ≠ i := by
        intro p hp he
        exact hnd.1 (hq1 ▸ he ▸ List.mem_map.mpr ⟨p, hp, rfl⟩)
      rw [slots_fold_frame sm _ i hni]
      rw [hq1]
      rw [getD_listModify_self s i _ _ hi]
      rw [hq2]
    · exact ih _ hnd.2 i a hmem (by rw [listModify_length]; exact hi)

theorem lookup_map_modify {α : Type} (f : α → α) (k : String) :
    ∀ (d : Dict α) (q : String),
    (d.map (fun p => if p.1 == k then (p.1, f p.2) else p)).lookup q =
      if q = k then (d.lookup q).map f else d.lookup q := by
  intro d
  induction d with
  | nil =>
    intro q
    by_cases hq : q = k <;> simp [List.lookup, hq]
  | cons p l ih =>
    intro q
    obtain ⟨pk, pv⟩ := p
    rw [List.map_cons]
    dsimp only
    by_cases hpk : (pk == k) = true
    · have hpk2 : pk = k := by simpa using hpk
      rw [if_pos hpk, lookup_cons, lookup_cons]
      by_cases hq : q = pk
      · rw [if_pos hq, if_pos hq, if_pos (hq.trans hpk2)]
        rfl
      · rw [if_neg hq, if_neg hq]
        exact ih q
    · have hpk2 : ¬ pk = k := by simpa using hpk
      rw [if_neg hpk, lookup_cons, lookup_cons]
      by_cases hq : q = pk
      · rw [if_pos hq, if_pos hq, if_neg (fun hc => hpk2 (hq ▸ hc))]
      · rw [if_neg hq, if_neg hq]
        exact ih q

theorem setComSlot_lookup (cn : String) (i : Nat) (a : String) (e : Engine)
    (q : String) :
    (setComSlot cn i a e).com_defs.lookup q =
      if q = cn then
        (e.com_defs.lookup q).map (fun c =>
          { c with slots := listModify c.slots i (fun r => (r.1, some a)) })
      else e.com_defs.lookup q := by
  unfold setComSlot
  exact lookup_map_modify (fun c =>
    { c with slots := listModify c.slots i (fun r => (r.1, some a)) })
    cn e.com_defs q

/-- Restoring one mod's recorded slots rewrites that mod's entry and leaves
every other mod alone. -/
theorem com_restore_lookup (cn : String) (sm : List (Nat × String)) :
    ∀ (e : Engine) (q : String),
    ((sm.foldl (fun e2 q2 => setComSlot cn q2.1 q2.2 e2) e).com_defs.lookup
        q) =
      if q = cn then
        (e.com_defs.lookup q).map (fun c =>
          { c with slots := (sm.foldl
              (fun s q2 => listModify s q2.1 (fun r => (r.1, some q2.2)))
              c.slots) })
      else e.com_defs.lookup q := by
  induction sm with
  | nil =>
    intro e q
    rw [List.foldl_nil]
    by_cases hq : q = cn
    · rw [if_pos hq]
      cases hc : e.com_defs.lookup q with
      | none => rfl
      | some c => rfl
    · rw [if_neg hq]
  | cons q2 sm ih =>
    intro e q
    rw [List.foldl_cons, ih, setComSlot_lookup]
    by_cases hq : q = cn
    · simp only [if_pos hq]
      cases e.com_defs.lookup q <;> rfl
    · simp only [if_neg hq]

theorem lookup_eq_of_mem_nodup {α : Type} :
    ∀ {d : Dict α} {k : String} {v : α},
    (d.map (fun p : String × α => p.1)).Nodup → (k, v) ∈ d →
    d.lookup k = some v := by
  intro d
  induction d with
  | nil =>
    intro k v _ hm
    exact absurd hm (List.not_mem_nil _)
  | cons p l ih =>
    intro k v hnd hm
    obtain ⟨pk, pv⟩ := p
    rw [List.map_cons, List.nodup_cons] at hnd
    rw [lookup_cons]
    rcases List.mem_cons.mp hm with h1 | h2
    · have h1a : k = pk := congrArg Prod.fst h1
      have h1b : v = pv := congrArg Prod.snd h1
      rw [if_pos h1a, h1b]
    · by_cases hk : k = pk
      · subst hk
        exact absurd (List.mem_map.mpr ⟨(k, v), h2, rfl⟩) hnd.1
      · rw [if_neg hk]
        exact ih hnd.2 h2

theorem iterate_coms_keys_nodup (cc : Option String) (e : Engine)
    (h : (e.com_defs.map (fun q : String × EngineCom => q.1)).Nodup) :
    ((iterate_coms cc e).map (fun q : String × EngineCom => q.1)).Nodup := by
  unfold iterate_coms
  exact ((List.filter_sublist _).map _).nodup h

/-- Mods whose names the revert loop never visits keep their engine entry. -/
theorem unrc_fold_frame (coms : Dict (List (Nat × String))) :
    ∀ (l : List (String × EngineCom)) (e0 e2 : Engine),
    l.foldlM (fun e3 p =>
      match coms.lookup p.1 with
      | none => none
      | some slot_map =>
        some (slot_map.foldl (fun e4 q => setComSlot p.1 q.1 q.2 e4) e3))
      e0 = some e2 →
    ∀ cn, (∀ p ∈ l, p.1 ≠ cn) →
    e2.com_defs.lookup cn = e0.com_defs.lookup cn := by
  intro l
  induction l with
  | nil =>
    intro e0 e2 h cn _
    have h2 : e0 = e2 := by simpa using h
    rw [← h2]
  | cons p l ih =>
    intro e0 e2 h cn hni
    rw [List.foldlM_cons] at h
    cases hlk : coms.lookup p.1 with
    | none =>
      rw [hlk] at h
      simp at h
    | some sm =>
      rw [hlk] at h
      simp only [Option.some_bind] at h
      rw [ih _ _ h cn (fun p2 hp2 => hni p2 (List.mem_cons_of_mem p hp2))]
      rw [com_restore_lookup, if_neg (fun hc : cn = p.1 =>
        hni p (List.mem_cons_self p l) hc.symm)]

/-- A successful revert pass rewrites every visited mod's entry to its
recorded restoration. -/
theorem unrc_fold_restores (coms : Dict (List (Nat × String))) :
    ∀ (l : List (String × EngineCom)) (e0 e2 : Engine),
    l.foldlM (fun e3 p =>
      match coms.lookup p.1 with
      | none => none
      | some slot_map =>
        some (slot_map.foldl (fun e4 q => setComSlot p.1 q.1 q.2 e4) e3))
      e0 = some e2 →
    (l.map (fun p : String × EngineCom => p.1)).Nodup →
    ∀ cn com, (cn, com) ∈ l →
    ∃ sm, coms.lookup cn = some sm ∧
      e2.com_defs.lookup cn = (e0.com_defs.lookup cn).map (fun c =>
        { c with slots := (sm.foldl
            (fun s q => listModify s q.1 (fun r => (r.1, some q.2)))
            c.slots) }) := by
  intro l
  induction l with
  | nil =>
    intro e0 e2 _ _ cn com hm
    exact absurd hm (List.not_mem_nil _)
  | cons p l ih =>
    intro e0 e2 h hnd cn com hm
    rw [List.map_cons, List.nodup_cons] at hnd
    rw [List.foldlM_cons] at h
    cases hlk : coms.lookup p.1 with
    | none =>
      rw [hlk] at h
      simp at h
    | some sm0 =>
      rw [hlk] at h
      simp only [Option.some_bind] at h
      rcases List.mem_cons.mp hm with h1 | h2
      · have h1a : cn = p.1 := congrArg Prod.fst h1
        refine ⟨sm0, by rw [h1a]; exact hlk, ?_⟩
        have hni : ∀ p2 ∈ l, p2.1 ≠ cn := by
          intro p2 hp2 he
          exact hnd.1 (h1a ▸ he ▸ List.mem_map.mpr ⟨p2, hp2, rfl⟩)
        rw [unrc_fold_frame coms l _ _ h cn hni]
        rw [com_restore_lookup, if_pos h1a]
      · have hcn : cn ≠ p.1 := by
          intro he
          exact hnd.1 (he ▸ List.mem_map.mpr ⟨(cn, com), h2, rfl⟩)
        obtain ⟨sm, hsm, hlook⟩ := ih _ _ h hnd.2 cn com h2
        refine ⟨sm, hsm, ?_⟩
        rw [hlook, com_restore_lookup, if_neg hcn]


theorem record_slots_aux (l : List (String × Option String)) :
    ∀ (n : Nat) (acc : List (Nat × String)),
    (∀ q ∈ acc, q.1 < n) →
    ((acc.map (fun q : Nat × String => q.1)).Nodup) →
    (∀ q ∈ (l.enumFrom n).foldl (fun acc p =>
        if p.2.1.startsWith "Skill" then
          match p.2.2 with
          | none => acc
          | some a => acc ++ [(p.1, a)]
        else acc) acc, q.1 < n + l.length) ∧
    (((l.enumFrom n).foldl (fun acc p =>
        if p.2.1.startsWith "Skill" then
          match p.2.2 with
          | none => acc
          | some a => acc ++ [(p.1, a)]
        else acc) acc).map (fun q : Nat × String => q.1)).Nodup := by
  induction l with
  | nil =>
    intro n acc hlt hnd
    exact ⟨fun q hq => by simpa using hlt q hq, hnd⟩
  | cons hd tl ih =>
    intro n acc hlt hnd
    have henum : (hd :: tl).enumFrom n = (n, hd) :: tl.enumFrom (n + 1) :=
      rfl
    rw [henum, List.foldl_cons]
    have hlen : n + (hd :: tl).length = (n + 1) + tl.length := by
      simp [Nat.add_assoc, Nat.add_comm 1 tl.length]
    rw [hlen]
    dsimp only
    split
    · split
      · exact ih (n + 1) acc (fun q hq => Nat.lt_succ_of_lt (hlt q hq)) hnd
      · rename_i a heq
        refine ih (n + 1) (acc ++ [(n, a)]) ?_ ?_
        · intro q hq
          rcases List.mem_append.mp hq with h1 | h2
          · exact Nat.lt_succ_of_lt (hlt q h1)
          · rw [List.mem_singleton] at h2
            rw [h2]
            exact Nat.lt_succ_self n
        · rw [List.map_append, List.nodup_append]
          refine ⟨hnd, by simp, ?_⟩
          intro x hx
          simp only [List.map_cons, List.map_nil, List.mem_singleton]
          intro hxn
          subst hxn
          obtain ⟨q, hq, hq2⟩ := List.mem_map.mp hx
          exact absurd (hq2 ▸ hlt q hq) (lt_irrefl x)
    · exact ih (n + 1) acc (fun q hq => Nat.lt_succ_of_lt (hlt q hq)) hnd

/-- The slot records produced by `record_coms` carry distinct slot indices
(they are positions of a single enumeration pass). -/
theorem record_slots_indices_nodup (slots : List (String × Option String)) :
    ((record_slots slots).map (fun q : Nat × String => q.1)).Nodup := by
  unfold record_slots
  exact (record_slots_aux slots 0 []
    (fun q hq => absurd hq (List.not_mem_nil q)) List.nodup_nil).2

/-- `unrandomize_coms` keeps the records and, on success, writes every
recorded slot of every matching mod back to its recorded attribute. -/
theorem unrandomize_coms_spec (cc : Option String) (cmp : ClassModPatcher)
    (e : Engine) {p : ClassModPatcher × Engine}
    (h : unrandomize_coms cc cmp e = some p) :
    p.1 = cmp ∧
    ((e.com_defs.map (fun q : String × EngineCom => q.1)).Nodup →
      ∀ cn com, (cn, com) ∈ iterate_coms cc e →
      ∀ coms sm, cmp.coms = some coms → coms.lookup cn = some sm →
      (sm.map (fun q : Nat × String => q.1)).Nodup →
      ∀ i a, (i, a) ∈ sm → i < com.slots.length →
      ∃ com2, p.2.com_defs.lookup cn = some com2 ∧
        (com2.slots.getD i ("", none)).2 = some a) := by
  unfold unrandomize_coms at h
  cases hrec : cmp.coms with
  | none =>
    rw [hrec] at h
    simp only [Option.some.injEq] at h
    refine ⟨by rw [← h], ?_⟩
    intro _ cn com _ coms sm hcoms
    exact absurd hcoms (fun hc => Option.noConfusion hc)
  | some coms0 =>
    rw [hrec] at h
    dsimp only at h
    split at h
    · exact absurd h (by simp)
    rename_i e2 hfold
    simp only [Option.some.injEq] at h
    refine ⟨by rw [← h], ?_⟩
    intro hnd cn com hmem coms sm hcoms hsm hsmnd i a hia hilen
    simp only [Option.some.injEq] at hcoms
    rw [← hcoms] at hsm
    obtain ⟨sm2, hsm2, hlook⟩ := unrc_fold_restores coms0 _ _ _ hfold
      (iterate_coms_keys_nodup cc e hnd) cn com hmem
    rw [hsm2] at hsm
    simp only [Option.some.injEq] at hsm
    have hcome : e.com_defs.lookup cn = some com :=
      lookup_eq_of_mem_nodup hnd
        (List.mem_of_mem_filter hmem)
    rw [← h]
    dsimp only
    rw [hlook, hcome]
    refine ⟨_, rfl, ?_⟩
    dsimp only
    rw [hsm]
    exact slots_fold_restores sm _ hsmnd i a hia hilen

def c7_catalog : List Character :=
  [{ name := "Soldier", character_name := "Axton",
     action_skill := ⟨"GD_Soldier_Skills.Action.New", 1⟩,
     pure_skills := [⟨"A.A", 5⟩], misdocumented_skills := [],
     suppressed_skills := [], dependencies := [] }]

def c7_tree : TreeDef :=
  { root_name := "GD_Soldier_Skills.Tree",
    children := ["GD_Soldier_Skills.B1"] }

def c7_engine : Engine :=
  { branch_defs := [("GD_Soldier_Skills.B1",
      ⟨"GD_Soldier_Skills.L1",
       [(["Orig.S1"], 1), ([], 0), ([], 0), ([], 0), ([], 0), ([], 0)]⟩)],
    layout_defs := [("GD_Soldier_Skills.L1",
      [[true, false, false], [], [], [], [], []])],
    action_slots := [("GD_Soldier_Skills.Tree", ["Old.Action"])],
    com_defs := [("ComA", ⟨some "Soldier", [("SkillA", some "Attr.Old")]⟩)] }

def c7_rng : RNG := ⟨fun _ => 0, 0⟩

def c7_skills : List Skill :=
  [⟨"S1.S1", 5⟩, ⟨"S2.S2", 5⟩, ⟨"S3.S3", 5⟩, ⟨"S4.S4", 5⟩, ⟨"S5.S5", 5⟩]

def c7_cmp : ClassModPatcher :=
  record_coms (some "Soldier") c7_engine ClassModPatcher.init

/-- C7 counterexample: after a successful generation, the revert does not
restore the action-skill slot — it keeps the value written during synthesis
(`GD_Soldier_Skills.Action.New`) instead of the captured original
(`Old.Action`) — and the class-mod revert does not drop the records: after
`record_coms`, `randomize_coms` (which rewrites ComA's recorded slot to the
drawn skill's attribute) and `unrandomize_coms`, the patcher still holds the
recorded slot map while the engine slot is written back to its recorded
attribute. -/
theorem C7_counterexample :
    c7_engine.action_slots.lookup "GD_Soldier_Skills.Tree" =
      some ["Old.Action"] ∧
    Option.map
        (fun r => (unrandomize_tree r.1 r.2.1).2.action_slots.lookup
          "GD_Soldier_Skills.Tree")
        (randomize_tree 2 c7_catalog c7_tree ["Axton"] "None" "Axton" 0 false
          [] SkillPool.init c7_engine c7_rng).1 =
      some (some ["GD_Soldier_Skills.Action.New"]) ∧
    c7_cmp.coms = some [("ComA", [(0, "Attr.Old")])] ∧
    Option.map (fun q => q.1.com_defs.lookup "ComA")
      (randomize_coms 5 c7_skills c7_rng (some "Soldier") [] c7_cmp
        c7_engine).1 =
      some (some ⟨some "Soldier", [("SkillA", some "Attr.S1.S1")]⟩) ∧
    Option.map (fun q =>
        Option.map (fun p => p.1)
          (unrandomize_coms (some "Soldier") c7_cmp q.1))
      (randomize_coms 5 c7_skills c7_rng (some "Soldier") [] c7_cmp
        c7_engine).1 =
      some (some c7_cmp) ∧
    Option.map (fun q =>
        Option.map (fun p => p.2.com_defs.lookup "ComA")
          (unrandomize_coms (some "Soldier") c7_cmp q.1))
      (randomize_coms 5 c7_skills c7_rng (some "Soldier") [] c7_cmp
        c7_engine).1 =
      some (some (some ⟨some "Soldier", [("SkillA", some "Attr.Old")]⟩)) := by
  with_unfolding_all decide

/-- C7 (amended): the revert restores the branch definitions and layout
definitions from the captured snapshots and clears `original_branches`, and
`unrandomize_coms` writes every recorded class-mod slot of every matching mod
back to its recorded attribute; but the tree revert never touches the
action-skill slot or the class-mod definitions (so the slot overwritten
during synthesis keeps its new value), and the class-mod records are retained
rather than dropped (`self.coms` is never cleared, so the patcher comes back
with its records intact). -/
theorem C7_amended_revert (st : SkillPool) (e : Engine) (cc : Option String)
    (cmp : ClassModPatcher) :
    (unrandomize_tree st e).1.original_branches = none ∧
    (unrandomize_tree st e).2.action_slots = e.action_slots ∧
    (unrandomize_tree st e).2.com_defs = e.com_defs ∧
    (∀ p, unrandomize_coms cc cmp e = some p → p.1 = cmp) ∧
    (∀ p, unrandomize_coms cc cmp e = some p →
      (e.com_defs.map (fun q : String × EngineCom => q.1)).Nodup →
      ∀ cn com, (cn, com) ∈ iterate_coms cc e →
      ∀ coms sm, cmp.coms = some coms → coms.lookup cn = some sm →
      (sm.map (fun q : Nat × String => q.1)).Nodup →
      ∀ i a, (i, a) ∈ sm → i < com.slots.length →
      ∃ com2, p.2.com_defs.lookup cn = some com2 ∧
        (com2.slots.getD i ("", none)).2 = some a) ∧
    Option.map (fun r =>
        ((unrandomize_tree r.1 r.2.1).2.branch_defs,
         (unrandomize_tree r.1 r.2.1).2.layout_defs))
      (randomize_tree 2 c7_catalog c7_tree ["Axton"] "None" "Axton" 0 false
        [] SkillPool.init c7_engine c7_rng).1 =
      some (c7_engine.branch_defs, c7_engine.layout_defs) := by
  refine ⟨rfl, ?_, ?_,
    fun p hp => (unrandomize_coms_spec cc cmp e hp).1,
    fun p hp => (unrandomize_coms_spec cc cmp e hp).2,
    by with_unfolding_all decide⟩
  · unfold unrandomize_tree
    cases st.original_branches with
    | none => rfl
    | some obs => exact (patch_fold_frame e obs).1
  · unfold unrandomize_tree
    cases st.original_branches with
    | none => rfl
    | some obs => exact (patch_fold_frame e obs).2

/-- Witness for the amended C7 at a concrete pool state, engine and recorded
patcher. -/
theorem C7_amended_witness :
    (unrandomize_tree SkillPool.init c7_engine).1.original_branches = none ∧
    (unrandomize_tree SkillPool.init c7_engine).2.action_slots =
      c7_engine.action_slots ∧
    (unrandomize_tree SkillPool.init c7_engine).2.com_defs =
      c7_engine.com_defs ∧
    (∀ p, unrandomize_coms (some "Soldier") c7_cmp c7_engine = some p →
      p.1 = c7_cmp) ∧
    (∀ p, unrandomize_coms (some "Soldier") c7_cmp c7_engine = some p →
      (c7_engine.com_defs.map (fun q : String × EngineCom => q.1)).Nodup →
      ∀ cn com, (cn, com) ∈ iterate_coms (some "Soldier") c7_engine →
      ∀ coms sm, c7_cmp.coms = some coms → coms.lookup cn = some sm →
      (sm.map (fun q : Nat × String => q.1)).Nodup →
      ∀ i a, (i, a) ∈ sm → i < com.slots.length →
      ∃ com2, p.2.com_defs.lookup cn = some com2 ∧
        (com2.slots.getD i ("", none)).2 = some a) ∧
    Option.map (fun r =>
        ((unrandomize_tree r.1 r.2.1).2.branch_defs,
         (unrandomize_tree r.1 r.2.1).2.layout_defs))
      (randomize_tree 2 c7_catalog c7_tree ["Axton"] "None" "Axton" 0 false
        [] SkillPool.init c7_engine c7_rng).1 =
      some (c7_engine.branch_defs, c7_engine.layout_defs) :=
  C7_amended_revert SkillPool.init c7_engine (some "Soldier") c7_cmp


/-! ### Claim C8 -/

def c8_catalog : List Character :=
  [{ name := "Soldier", character_name := "Axton",
     action_skill := ⟨"GD_Soldier_Skills.Action.New", 1⟩,
     pure_skills := [⟨"A.A", 5⟩, ⟨"B.B", 5⟩, ⟨"C.C", 5⟩, ⟨"D.D", 5⟩,
       ⟨"E.E", 5⟩, ⟨"F.F", 5⟩],
     misdocumented_skills := [], suppressed_skills := [],
     dependencies := [] }]

def c8_tree : TreeDef :=
  { root_name := "GD_Soldier_Skills.Tree",
    children := ["GD_Soldier_Skills.B1", "GD_Soldier_Skills.B2",
      "GD_Soldier_Skills.B3"] }

def c8_tiers : List (List String × Int) :=
  [([], 0), ([], 0), ([], 0), ([], 0), ([], 0), ([], 0)]

def c8_engine : Engine :=
  { branch_defs := [("GD_Soldier_Skills.B1",
      ⟨"GD_Soldier_Skills.L1", c8_tiers⟩),
      ("GD_Soldier_Skills.B2", ⟨"GD_Soldier_Skills.L2", c8_tiers⟩),
      ("GD_Soldier_Skills.B3", ⟨"GD_Soldier_Skills.L3", c8_tiers⟩)],
    layout_defs := [("GD_Soldier_Skills.L1", [[], [], [], [], [], []]),
      ("GD_Soldier_Skills.L2", [[], [], [], [], [], []]),
      ("GD_Soldier_Skills.L3", [[], [], [], [], [], []])],
    action_slots := [("GD_Soldier_Skills.Tree", ["Old.Action"])],
    com_defs := [("ComA", ⟨some "Soldier",
        [("Skill1", some "Attr.OldA1"), ("Skill2", some "Attr.OldA2")]⟩),
      ("ComB", ⟨some "Soldier",
        [("Skill1", some "Attr.OldB1"), ("Skill2", some "Attr.OldB2")]⟩)] }

def c8_stream : Nat → ℚ := fun n => mkRat (n * 7 % 13) 13

def c8_cfgA : InjectConfig :=
  { enabled_sources := ["Axton"], hidden_skills := "None",
    action_skill := "Axton", skill_density := 100,
    randomize_tiers := false, randomize_coms_flag := true,
    cheats := [], com_skills := [] }

def c8_cfgB : InjectConfig :=
  { c8_cfgA with randomize_tiers := true }

/-- C8 counterexample: two configurations identical except for the tree-side
`randomize_tiers` flag, run with the same seed stream, hand the class-mod
pass different generator states (positions 6 vs 24), pick different special
mods (ComA vs ComB) and write different skills into the same mod — the
sub-systems do not consume independent sub-streams. -/
theorem C8_counterexample :
    c8_cfgB = { c8_cfgA with randomize_tiers := true } ∧
    Option.map (fun r => r.tree_rng.pos)
        (inject_skills 30 c8_catalog c8_tree c8_cfgA c8_engine c8_stream).1 =
      some 6 ∧
    Option.map (fun r => r.tree_rng.pos)
        (inject_skills 30 c8_catalog c8_tree c8_cfgB c8_engine c8_stream).1 =
      some 24 ∧
    "Special COM is ComA" ∈
      (inject_skills 30 c8_catalog c8_tree c8_cfgA c8_engine c8_stream).2 ∧
    "Special COM is ComB" ∈
      (inject_skills 30 c8_catalog c8_tree c8_cfgB c8_engine c8_stream).2 ∧
    Option.map (fun r => r.engine.com_defs.lookup "ComA")
        (inject_skills 30 c8_catalog c8_tree c8_cfgA c8_engine c8_stream).1 ≠
      Option.map (fun r => r.engine.com_defs.lookup "ComA")
        (inject_skills 30 c8_catalog c8_tree c8_cfgB c8_engine c8_stream).1 :=
  ⟨rfl, by with_unfolding_all decide⟩

/-- C8 (amended): `inject_skills` seeds a single generator and threads it
sequentially through both sub-systems: the class-mod pass starts from exactly
the generator state where tree synthesis ended, and the published result is
that of `randomize_coms` run on that shared state — there are no independent
sub-streams. -/
theorem C8_amended_shared_generator (fuel : Nat) (catalog : List Character)
    (tree : TreeDef) (cfg : InjectConfig) (e : Engine) (stream : Nat → ℚ)
    (hflag : cfg.randomize_coms_flag = true) :
    Option.map (fun r => (r.tree_rng, r.engine, r.final_rng))
        (inject_skills fuel catalog tree cfg e stream).1 =
      (match (randomize_tree fuel catalog tree cfg.enabled_sources
          cfg.hidden_skills cfg.action_skill cfg.skill_density
          cfg.randomize_tiers cfg.cheats SkillPool.init e ⟨stream, 0⟩).1 with
       | none => none
       | some p =>
         match (randomize_coms fuel p.1.class_mod_skills p.2.2
            p.1.current_char_class cfg.com_skills
            (record_coms p.1.current_char_class p.2.1 ClassModPatcher.init)
            p.2.1).1 with
         | none => none
         | some q => some (p.2.2, q.1, q.2)) := by
  unfold inject_skills
  dsimp only
  cases hrt : randomize_tree fuel catalog tree cfg.enabled_sources
      cfg.hidden_skills cfg.action_skill cfg.skill_density
      cfg.randomize_tiers cfg.cheats SkillPool.init e ⟨stream, 0⟩ with
  | mk o logs =>
    cases o with
    | none => rfl
    | some p =>
      obtain ⟨pool, e1, rng1⟩ := p
      rw [hflag]
      dsimp only
      cases hrc : randomize_coms fuel pool.class_mod_skills rng1
          pool.current_char_class cfg.com_skills
          (record_coms pool.current_char_class e1 ClassModPatcher.init)
          e1 with
      | mk o2 logs2 =>
        cases o2 with
        | none => rfl
        | some q => rfl

/-- Witness for the amended C8 at the concrete demo configuration. -/
theorem C8_amended_witness :
    c8_cfgA.randomize_coms_flag = true ∧
    Option.map (fun r => (r.tree_rng, r.engine, r.final_rng))
        (inject_skills 30 c8_catalog c8_tree c8_cfgA c8_engine c8_stream).1 =
      (match (randomize_tree 30 c8_catalog c8_tree c8_cfgA.enabled_sources
          c8_cfgA.hidden_skills c8_cfgA.action_skill c8_cfgA.skill_density
          c8_cfgA.randomize_tiers c8_cfgA.cheats SkillPool.init c8_engine
          ⟨c8_stream, 0⟩).1 with
       | none => none
       | some p =>
         match (randomize_coms 30 p.1.class_mod_skills p.2.2
            p.1.current_char_class c8_cfgA.com_skills
            (record_coms p.1.current_char_class p.2.1 ClassModPatcher.init)
            p.2.1).1 with
         | none => none
         | some q => some (p.2.2, q.1, q.2)) :=
  ⟨rfl, C8_amended_shared_generator 30 c8_catalog c8_tree c8_cfgA c8_engine
    c8_stream rfl⟩

/-! ### Claim C2: machinery for the no-duplicate invariant -/

/-- The names committed to already-processed `(tier, branch)` slots. -/
def rowsOf (st : SkillPool) (done : List (Nat × Nat)) : List String :=
  (done.map (fun p => (branchAt st p.2).skills.getD p.1 [])).join

/-- All names the run has committed: processed rows plus the pending
extra-skills queue. -/
def doneNames (st : SkillPool) (done : List (Nat × Nat)) : List String :=
  rowsOf st done ++ st.extra_skills

/-- The name's weight cell is zero in every branch (so the weighted sampler
can never return it again). -/
def zeroedEverywhere (st : SkillPool) (n : String) : Prop :=
  ∃ i, pyIndex n st.skill_order = some i ∧
    ∀ j, (branchAt st j).skill_weights.getD i 0 = 0

/-- Every branch row list has the six tiers of a game skill tree. -/
def rowsLen6 (st : SkillPool) : Prop :=
  ∀ j, j < st.new_branches.length → (branchAt st j).skills.length = 6

/-- The facts about the dependency data of a character catalog under which
the generator's bookkeeping is sound (they hold of the repository's
`HINT_MAP`). -/
structure CatOK (catalog : List Character) : Prop where
  grants_nodup : ∀ d ∈ allCatalogDeps catalog, d.extra_skills.Nodup
  disj : ∀ d1 ∈ allCatalogDeps catalog, ∀ d2 ∈ allCatalogDeps catalog,
    d1 = d2 ∨ ((∀ q ∈ d1.providers, q ∉ d2.providers) ∧
      (∀ g ∈ d1.extra_skills, g ∉ d2.extra_skills))
  grants_not_pool : ∀ d ∈ allCatalogDeps catalog, ∀ g ∈ d.extra_skills,
    g ∉ allCatalogSkillNames catalog
  grants_not_prov : ∀ d1 ∈ allCatalogDeps catalog,
    ∀ d2 ∈ allCatalogDeps catalog, ∀ g ∈ d1.extra_skills, g ∉ d2.providers

/-- The running invariant of tree generation: dictionary coherence, committed
names are never samplable again, and the live dependency registry only offers
fresh providers and grants. -/
structure C2Inv (catalog : List Character) (st : SkillPool)
    (done : List (Nat × Nat)) : Prop where
  skills_named : ∀ k sk, (k, sk) ∈ st.skills → sk.full_name = k
  order_nodup : st.skill_order.Nodup
  order_mem : ∀ q, q ∈ st.skill_order ↔ (st.skills.lookup q).isSome = true
  reg_key : ∀ k d, (k, d) ∈ st.dependencies → k ∈ d.providers
  reg_lookup : ∀ k d, (k, d) ∈ st.dependencies → ∀ q ∈ d.providers,
    st.dependencies.lookup q = some d
  reg_cat : ∀ k d, (k, d) ∈ st.dependencies → d ∈ allCatalogDeps catalog
  done_nodup : (doneNames st done).Nodup
  done_zero : ∀ n ∈ doneNames st done, n ∈ st.skill_order →
    zeroedEverywhere st n
  prov_fresh : ∀ k d, (k, d) ∈ st.dependencies → ∀ q ∈ d.providers,
    q ∉ doneNames st done
  grant_fresh : ∀ k d, (k, d) ∈ st.dependencies → ∀ g ∈ d.extra_skills,
    g ∉ doneNames st done ∧ g ∉ st.skill_order

/-- The facts carried about names drawn in the current tier but not yet
written to their row. -/
def inflight (st : SkillPool) (done : List (Nat × Nat)) (ns : List String) :
    Prop :=
  ns.Nodup ∧ ∀ a ∈ ns, a ∈ st.skill_order ∧ zeroedEverywhere st a ∧
    a ∉ doneNames st done ∧
    ∀ k d, (k, d) ∈ st.dependencies → a ∉ d.providers

theorem getD_mem {α : Type} (l : List α) (i : Nat) (d : α)
    (h : i < l.length) : l.getD i d ∈ l := by
  rw [List.getD_eq_getElem?_getD, List.getElem?_eq_getElem h]
  exact List.getElem_mem h

theorem getD_set_zero {w : List ℚ} {i : Nat} (j : Nat)
    (h : w.getD i 0 = 0) : (w.set j 0).getD i 0 = 0 := by
  by_cases hji : j = i
  · subst hji
    by_cases hl : j < w.length
    · rw [getD_set_self _ _ _ _ hl]
    · rw [getD_set_of_ge _ _ _ _ (Nat.le_of_not_lt hl)]
  · rw [getD_set_ne _ _ _ _ _ hji]
    exact h

theorem rowsOf_append (st : SkillPool) (d1 d2 : List (Nat × Nat)) :
    rowsOf st (d1 ++ d2) = rowsOf st d1 ++ rowsOf st d2 := by
  unfold rowsOf
  rw [List.map_append]
  exact List.join_append _ _

theorem rowsOf_congr {st st' : SkillPool} (done : List (Nat × Nat))
    (h : ∀ p ∈ done, (branchAt st' p.2).skills = (branchAt st p.2).skills) :
    rowsOf st' done = rowsOf st done := by
  unfold rowsOf
  congr 1
  exact List.map_congr_left (fun p hp => by rw [h p hp])

theorem shapes_skills {st st' : SkillPool}
    (h : branchShapes st' = branchShapes st) (b : Nat) :
    (branchAt st' b).skills = (branchAt st b).skills :=
  (shape_eq_fields (branchShapes_branchAt h b)).2.2.1

theorem doneNames_congr {st st' : SkillPool} (done : List (Nat × Nat))
    (hsh : branchShapes st' = branchShapes st)
    (hex : st'.extra_skills = st.extra_skills) :
    doneNames st' done = doneNames st done := by
  unfold doneNames
  rw [hex, rowsOf_congr done (fun p _ => shapes_skills hsh p.2)]

theorem rowsLen6_of_shapes {st st' : SkillPool}
    (h : branchShapes st' = branchShapes st) (hr : rowsLen6 st) :
    rowsLen6 st' := by
  intro j hj
  rw [shapes_skills h j]
  exact hr j (by rw [← branchShapes_len h]; exact hj)

theorem mem_dictInsert {α : Type} {d : Dict α} {k : String} {v : α}
    {p : String × α} (h : p ∈ dictInsert k v d) : p ∈ d ∨ p = (k, v) := by
  unfold dictInsert at h
  by_cases hany : d.any (fun q => q.1 == k)
  · rw [if_pos hany] at h
    obtain ⟨q, hq, hfq⟩ := List.mem_map.mp h
    by_cases hqk : q.1 = k
    · right
      rw [← hfq]
      simp [hqk]
    · left
      rw [← hfq]
      simpa [hqk] using hq
  · rw [if_neg hany] at h
    rcases List.mem_append.mp h with h1 | h2
    · exact Or.inl h1
    · exact Or.inr (by simpa using h2)

theorem keys_dictInsert_nodup {α : Type} {d : Dict α} (k : String) (v : α)
    (h : (d.map Prod.fst).Nodup) :
    ((dictInsert k v d).map Prod.fst).Nodup := by
  unfold dictInsert
  by_cases hany : d.any (fun q => q.1 == k)
  · rw [if_pos hany]
    have heq : (d.map (fun p => if p.1 == k then (k, v) else p)).map
        Prod.fst = d.map Prod.fst := by
      rw [List.map_map]
      exact List.map_congr_left (fun p _ => by
        by_cases hp : p.1 = k
        · simp [hp]
        · simp [hp])
    rwa [heq]
  · rw [if_neg hany, List.map_append]
    rw [List.nodup_append]
    refine ⟨h, by simp, ?_⟩
    intro a ha
    simp only [List.map_cons, List.map_nil, List.mem_singleton]
    intro hak
    subst hak
    rw [any_key_iff_lookup_isSome] at hany
    rw [← lookup_isSome_iff] at ha
    exact hany ha

theorem lookup_foldl_insert {α : Type} (ps : List String) (v : α)
    (d : Dict α) (q : String) :
    (ps.foldl (fun d p => dictInsert p v d) d).lookup q =
      if q ∈ ps then some v else d.lookup q := by
  induction ps generalizing d with
  | nil => simp
  | cons p ps ih =>
    rw [List.foldl_cons, ih]
    by_cases h1 : q ∈ ps
    · simp [h1]
    · by_cases h2 : q = p
      · subst h2
        simp [h1, lookup_dictInsert_self]
      · simp only [List.mem_cons, h1, h2, or_self, if_false]
        exact lookup_dictInsert_ne d p q v h2

theorem mem_foldl_insert {α : Type} {ps : List String} {v : α} {d : Dict α}
    {p : String × α}
    (h : p ∈ ps.foldl (fun d p => dictInsert p v d) d) :
    p ∈ d ∨ (p.1 ∈ ps ∧ p.2 = v) := by
  induction ps generalizing d with
  | nil => exact Or.inl (by simpa using h)
  | cons a ps ih =>
    rw [List.foldl_cons] at h
    rcases ih h with h1 | h2
    · rcases mem_dictInsert h1 with h3 | h4
      · exact Or.inl h3
      · right
        rw [h4]
        exact ⟨List.mem_cons_self a ps, rfl⟩
    · exact Or.inr ⟨List.mem_cons_of_mem a h2.1, h2.2⟩

theorem mem_foldl_erase_key {α : Type} {ps : List String} {d : Dict α}
    {k : String} {v : α}
    (h : (k, v) ∈ ps.foldl (fun d p => dictErase p d) d) : k ∉ ps := by
  induction ps generalizing d with
  | nil => simp
  | cons p ps ih =>
    rw [List.foldl_cons] at h
    intro hmem
    rcases List.mem_cons.mp hmem with h1 | h2
    · have hin : (k, v) ∈ dictErase p d := mem_foldl_erase h
      unfold dictErase at hin
      have hf := List.of_mem_filter hin
      simp at hf
      exact hf h1
    · exact ih h h2

theorem getD_nil_zero (i : Nat) : ([] : List ℚ).getD i 0 = 0 := by
  simp [List.getD]

theorem set_getD_self_zero (w : List ℚ) (i : Nat) :
    (w.set i 0).getD i 0 = 0 := by
  by_cases hl : i < w.length
  · rw [getD_set_self _ _ _ _ hl]
  · rw [getD_set_of_ge _ _ _ _ (Nat.le_of_not_lt hl)]

theorem depPhase_branches (skill : Skill) (hid : String) (bidx : Int)
    (st : SkillPool) :
    (depPhase skill hid bidx st).new_branches =
      match st.dependencies.lookup skill.full_name with
      | none => st.new_branches
      | some dep => mapWithIdx
          (fun i br =>
            adjustBranchForDep (themedSkills dep hid) st.skill_order bidx i br)
          0 st.new_branches := by
  unfold depPhase
  cases st.dependencies.lookup skill.full_name <;> rfl

theorem depPhase_zero_preserved (skill : Skill) (hid : String) (bidx : Int)
    (st : SkillPool) (i : Nat)
    (h : ∀ j, (branchAt st j).skill_weights.getD i 0 = 0) :
    ∀ j, (branchAt (depPhase skill hid bidx st) j).skill_weights.getD i 0
      = 0 := by
  intro j
  cases hlk : st.dependencies.lookup skill.full_name with
  | none =>
    rw [depPhase_none _ _ _ _ hlk]
    exact h j
  | some dep =>
    rw [depPhase_some _ _ _ _ _ hlk]
    show ((mapWithIdx
      (fun i2 br =>
        adjustBranchForDep (themedSkills dep hid) st.skill_order bidx i2 br)
      0 st.new_branches).getD j default).skill_weights.getD i 0 = 0
    by_cases hj : j < st.new_branches.length
    · rw [branchAt_mapWithIdx _ _ _ hj]
      exact adjustBranchForDep_zero_preserved _ _ _ _ _ _ (h j)
    · have hd : (mapWithIdx
          (fun i2 br =>
            adjustBranchForDep (themedSkills dep hid) st.skill_order bidx
              i2 br) 0 st.new_branches).getD j default = default :=
        getD_eq_default _ _ _
          (by rw [mapWithIdx_length]; exact Nat.le_of_not_lt hj)
      rw [hd]
      exact getD_nil_zero i

theorem zeroSkillPhase_branches (skill : Skill) (st : SkillPool) :
    (zeroSkillPhase skill st).new_branches =
      match pyIndex skill.full_name st.skill_order with
      | none => st.new_branches
      | some i => st.new_branches.map
          (fun br => { br with skill_weights := br.skill_weights.set i 0 }) := by
  unfold zeroSkillPhase
  cases pyIndex skill.full_name st.skill_order <;> rfl

theorem zeroSkillPhase_zero_preserved (skill : Skill) (st : SkillPool)
    (i : Nat) (h : ∀ j, (branchAt st j).skill_weights.getD i 0 = 0) :
    ∀ j, (branchAt (zeroSkillPhase skill st) j).skill_weights.getD i 0
      = 0 := by
  intro j
  cases hpi : pyIndex skill.full_name st.skill_order with
  | none =>
    rw [zeroSkillPhase_none _ _ hpi]
    exact h j
  | some i0 =>
    rw [zeroSkillPhase_some _ _ _ hpi]
    show ((st.new_branches.map
      (fun br : Branch =>
        { br with skill_weights := br.skill_weights.set i0 0 })).getD
          j default).skill_weights.getD i 0 = (0 : ℚ)
    by_cases hj : j < st.new_branches.length
    · rw [branchAt_map _ _ _ hj]
      exact getD_set_zero i0 (h j)
    · have hd : (st.new_branches.map
          (fun br : Branch =>
            { br with skill_weights := br.skill_weights.set i0 0 })).getD
            j default = default :=
        getD_eq_default _ _ _
          (by rw [List.length_map]; exact Nat.le_of_not_lt hj)
      rw [hd]
      exact getD_nil_zero i

theorem zeroSkillPhase_zeroes (skill : Skill) (st : SkillPool) (i0 : Nat)
    (hpi : pyIndex skill.full_name st.skill_order = some i0) :
    ∀ j, (branchAt (zeroSkillPhase skill st) j).skill_weights.getD i0 0
      = 0 := by
  intro j
  rw [zeroSkillPhase_some _ _ _ hpi]
  show ((st.new_branches.map
    (fun br : Branch =>
      { br with skill_weights := br.skill_weights.set i0 0 })).getD
        j default).skill_weights.getD i0 0 = (0 : ℚ)
  by_cases hj : j < st.new_branches.length
  · rw [branchAt_map _ _ _ hj]
    exact set_getD_self_zero _ i0
  · have hd : (st.new_branches.map
        (fun br : Branch =>
          { br with skill_weights := br.skill_weights.set i0 0 })).getD
          j default = default :=
      getD_eq_default _ _ _
        (by rw [List.length_map]; exact Nat.le_of_not_lt hj)
    rw [hd]
    exact getD_nil_zero i0

theorem mark_used_zero_preserved (sk : Skill) (hid : String) (bidx : Int)
    (st : SkillPool) (i : Nat)
    (h : ∀ j, (branchAt st j).skill_weights.getD i 0 = 0) :
    ∀ j,
      (branchAt (mark_used sk hid bidx st).2 j).skill_weights.getD i 0
        = 0 :=
  zeroSkillPhase_zero_preserved _ _ _
    (depPhase_zero_preserved sk hid bidx st i h)

theorem setBranchWeight_zero_preserved (st : SkillPool) (bi ci : Nat)
    (v : ℚ) (i : Nat) (hne : ci ≠ i)
    (h : ∀ j, (branchAt st j).skill_weights.getD i 0 = 0) :
    ∀ j,
      (branchAt (setBranchWeight st bi ci v) j).skill_weights.getD i 0
        = 0 := by
  intro j
  have hb : branchAt (setBranchWeight st bi ci v) j =
      (setBranchWeight st bi ci v).new_branches.getD j default := rfl
  rw [hb]
  unfold setBranchWeight
  cases hget : st.new_branches.get? bi with
  | none => exact h j
  | some br =>
    by_cases hji : j = bi
    · subst hji
      have hjl : j < st.new_branches.length := by
        by_contra hc
        rw [List.get?_eq_none.mpr (Nat.le_of_not_lt hc)] at hget
        exact Option.noConfusion hget
      rw [getD_set_self _ _ _ _ hjl]
      show (br.skill_weights.set ci v).getD i 0 = 0
      rw [getD_set_ne _ _ _ _ _ hne]
      have hbr : branchAt st j = br := by
        show st.new_branches.getD j default = br
        rw [List.getD_eq_getElem?_getD, ← List.get?_eq_getElem?, hget]
        rfl
      rw [← hbr]
      exact h j
    · rw [getD_set_ne _ _ _ _ _ (fun hc => hji hc.symm)]
      exact h j

theorem cheat_for_body_zero_preserved (bi ci tier : Nat) (ct : Int)
    (s : SkillPool) (j0 : Nat) (i : Nat) (hne : ci ≠ i)
    (h : ∀ j, (branchAt s j).skill_weights.getD i 0 = 0) :
    ∀ j,
      (branchAt (cheat_for_body bi ci tier ct s j0) j).skill_weights.getD i 0
        = 0 := by
  unfold cheat_for_body
  by_cases h0 : (branchAt s j0).skill_weights.getD ci 0 = 0
  · rw [if_pos h0]
    by_cases he : ct = (tier : Int)
    · rw [if_pos he]
      exact setBranchWeight_zero_preserved s bi ci _ i hne h
    · rw [if_neg he]
      exact setBranchWeight_zero_preserved s bi ci _ i hne h
  · rw [if_neg h0]
    exact h

theorem cheat_for_fold_zero_preserved (bi ci tier : Nat) (ct : Int)
    (js : List Nat) (i : Nat) (hne : ci ≠ i) :
    ∀ (s : SkillPool),
    (∀ j, (branchAt s j).skill_weights.getD i 0 = 0) →
    ∀ j, (branchAt (js.foldl (cheat_for_body bi ci tier ct) s)
      j).skill_weights.getD i 0 = 0 := by
  induction js with
  | nil => exact fun s h => h
  | cons j0 js ih =>
    intro s h
    rw [List.foldl_cons]
    exact ih _ (cheat_for_body_zero_preserved bi ci tier ct s j0 i hne h)

theorem cheat_step_zero_preserved (bi tier : Nat) (st : SkillPool)
    (cn : String) (ct : Int) (i : Nat)
    (h : ∀ j, (branchAt st j).skill_weights.getD i 0 = 0) :
    ∀ j,
      (branchAt (cheat_step bi tier st cn ct).1 j).skill_weights.getD i 0
        = 0 := by
  unfold cheat_step
  cases hpi : pyIndex cn st.skill_order with
  | none => exact h
  | some ci =>
    simp only []
    by_cases h0 : (branchAt st bi).skill_weights.getD ci 0 = 0
    · rw [if_pos h0]
      exact h
    · rw [if_neg h0]
      have hne : ci ≠ i := fun hc => h0 (hc ▸ h bi)
      by_cases hover : ct < (tier : Int)
      · rw [if_pos hover]
        exact setBranchWeight_zero_preserved st bi ci _ i hne h
      · rw [if_neg hover]
        have hfold := cheat_for_fold_zero_preserved bi ci tier ct
          (List.range st.new_branches.length) i hne st h
        split
        · exact setBranchWeight_zero_preserved _ bi ci _ i hne hfold
        · exact setBranchWeight_zero_preserved _ bi ci _ i hne hfold

theorem cheat_fold_zero_preserved (bi tier : Nat)
    (cheats : List (String × Int)) (i : Nat) :
    ∀ (st : SkillPool) (logs0 : List String),
    (∀ j, (branchAt st j).skill_weights.getD i 0 = 0) →
    ∀ j,
      (branchAt ((cheats.foldl (fun (acc : SkillPool × List String) c =>
        let r := cheat_step bi tier acc.1 c.1 c.2
        (r.1, acc.2 ++ r.2)) (st, logs0)).1) j).skill_weights.getD i 0
        = 0 := by
  induction cheats with
  | nil => exact fun st logs0 h => h
  | cons c cheats ih =>
    intro st logs0 h
    rw [List.foldl_cons]
    exact ih _ _ (cheat_step_zero_preserved bi tier st c.1 c.2 i h)

theorem cheat_pass_zero_preserved (bi tier : Nat)
    (cheats : List (String × Int)) (st : SkillPool) (i : Nat)
    (h : ∀ j, (branchAt st j).skill_weights.getD i 0 = 0) :
    ∀ j,
      (branchAt (cheat_pass bi tier cheats st).1 j).skill_weights.getD i 0
        = 0 :=
  cheat_fold_zero_preserved bi tier cheats i st [] h

theorem depPhase_dependencies (skill : Skill) (hid : String) (bidx : Int)
    (st : SkillPool) :
    (depPhase skill hid bidx st).dependencies =
      match st.dependencies.lookup skill.full_name with
      | none => st.dependencies
      | some dep =>
        dep.providers.foldl (fun d p => dictErase p d) st.dependencies := by
  unfold depPhase
  cases st.dependencies.lookup skill.full_name <;> rfl

theorem depPhase_extra (skill : Skill) (hid : String) (bidx : Int)
    (st : SkillPool) :
    (depPhase skill hid bidx st).extra_skills =
      match st.dependencies.lookup skill.full_name with
      | none => st.extra_skills
      | some dep => st.extra_skills ++ dep.extra_skills := by
  unfold depPhase
  cases st.dependencies.lookup skill.full_name <;> rfl

theorem mark_used_zeroed (sk : Skill) (hid : String) (bidx : Int)
    (st : SkillPool) (n : String) (h : zeroedEverywhere st n) :
    zeroedEverywhere (mark_used sk hid bidx st).2 n := by
  obtain ⟨i, hpi, hz⟩ := h
  exact ⟨i, by rw [mark_used_skill_order]; exact hpi,
    mark_used_zero_preserved sk hid bidx st i hz⟩

/-- `mark_used` preserves the generation invariant: the weight zeroing and
theming never resurrect a committed name, the consumed dependency's grants
enter the committed set fresh, and the shrunken registry stays coherent. -/
theorem mark_used_inv {catalog : List Character} (CAT : CatOK catalog)
    {st : SkillPool} {done : List (Nat × Nat)} (inv : C2Inv catalog st done)
    (sk : Skill) (hid : String) (bidx : Int) :
    C2Inv catalog (mark_used sk hid bidx st).2 done ∧
    (∃ gs, (mark_used sk hid bidx st).2.extra_skills =
        st.extra_skills ++ gs ∧
      doneNames (mark_used sk hid bidx st).2 done =
        doneNames st done ++ gs ∧
      ∀ g ∈ gs, g ∉ st.skill_order) ∧
    (∀ k d, (k, d) ∈ (mark_used sk hid bidx st).2.dependencies →
      (k, d) ∈ st.dependencies) := by
  have horder := mark_used_skill_order sk hid bidx st
  have hskills := mark_used_skills sk hid bidx st
  have hshapes := mark_used_shapes sk hid bidx st
  have hrows : rowsOf (mark_used sk hid bidx st).2 done = rowsOf st done :=
    rowsOf_congr done (fun p _ => shapes_skills hshapes p.2)
  have hdeps : (mark_used sk hid bidx st).2.dependencies =
      match st.dependencies.lookup sk.full_name with
      | none => st.dependencies
      | some dep =>
        dep.providers.foldl (fun d p => dictErase p d) st.dependencies := by
    show (zeroSkillPhase sk (depPhase sk hid bidx st)).dependencies = _
    rw [zeroSkillPhase_dependencies, depPhase_dependencies]
  have hextra : (mark_used sk hid bidx st).2.extra_skills =
      match st.dependencies.lookup sk.full_name with
      | none => st.extra_skills
      | some dep => st.extra_skills ++ dep.extra_skills := by
    show (zeroSkillPhase sk (depPhase sk hid bidx st)).extra_skills = _
    rw [zeroSkillPhase_extra, depPhase_extra]
  cases hlk : st.dependencies.lookup sk.full_name with
  | none =>
    rw [hlk] at hdeps hextra
    have hdone : doneNames (mark_used sk hid bidx st).2 done =
        doneNames st done := by
      unfold doneNames
      rw [hrows, hextra]
    refine ⟨⟨?_, ?_, ?_, ?_, ?_, ?_, ?_, ?_, ?_, ?_⟩,
      ⟨[], by rw [hextra, List.append_nil], by rw [hdone, List.append_nil],
        by simp⟩, ?_⟩
    · rw [hskills]; exact inv.skills_named
    · rw [horder]; exact inv.order_nodup
    · rw [horder, hskills]; exact inv.order_mem
    · rw [hdeps]; exact inv.reg_key
    · rw [hdeps]; exact inv.reg_lookup
    · rw [hdeps]; exact inv.reg_cat
    · rw [hdone]; exact inv.done_nodup
    · rw [hdone, horder]
      intro n hn ho
      exact mark_used_zeroed sk hid bidx st n (inv.done_zero n hn ho)
    · rw [hdeps, hdone]; exact inv.prov_fresh
    · rw [hdeps, hdone, horder]; exact inv.grant_fresh
    · rw [hdeps]; exact fun k d h => h
  | some dep0 =>
    rw [hlk] at hdeps hextra
    have hdone : doneNames (mark_used sk hid bidx st).2 done =
        doneNames st done ++ dep0.extra_skills := by
      unfold doneNames
      rw [hrows, hextra, List.append_assoc]
    have hdep0mem : (sk.full_name, dep0) ∈ st.dependencies :=
      mem_of_lookup hlk
    have hdep0cat : dep0 ∈ allCatalogDeps catalog :=
      inv.reg_cat _ _ hdep0mem
    have hgfresh := inv.grant_fresh _ _ hdep0mem
    have hmem' : ∀ k d, (k, d) ∈ (mark_used sk hid bidx st).2.dependencies →
        (k, d) ∈ st.dependencies := by
      intro k d h
      rw [hdeps] at h
      exact mem_foldl_erase h
    have hkey' : ∀ k d, (k, d) ∈ (mark_used sk hid bidx st).2.dependencies →
        k ∉ dep0.providers := by
      intro k d h
      rw [hdeps] at h
      exact mem_foldl_erase_key h
    have hnotdep0 : ∀ k d,
        (k, d) ∈ (mark_used sk hid bidx st).2.dependencies → d ≠ dep0 := by
      intro k d h he
      exact hkey' k d h (he ▸ inv.reg_key k d (hmem' k d h))
    have hprovdisj : ∀ k d,
        (k, d) ∈ (mark_used sk hid bidx st).2.dependencies →
        ∀ q ∈ d.providers, q ∉ dep0.providers := by
      intro k d h q hq hq0
      have h1 := inv.reg_lookup k d (hmem' k d h) q hq
      have h2 := inv.reg_lookup _ _ hdep0mem q hq0
      rw [h1] at h2
      exact hnotdep0 k d h (by simpa using h2)
    refine ⟨⟨?_, ?_, ?_, ?_, ?_, ?_, ?_, ?_, ?_, ?_⟩,
      ⟨dep0.extra_skills, hextra, hdone,
        fun g hg => (hgfresh g hg).2⟩, hmem'⟩
    · rw [hskills]; exact inv.skills_named
    · rw [horder]; exact inv.order_nodup
    · rw [horder, hskills]; exact inv.order_mem
    · exact fun k d h => inv.reg_key k d (hmem' k d h)
    · intro k d h q hq
      rw [hdeps, lookup_foldl_erase,
        if_neg (hprovdisj k d h q hq)]
      exact inv.reg_lookup k d (hmem' k d h) q hq
    · exact fun k d h => inv.reg_cat k d (hmem' k d h)
    · rw [hdone, List.nodup_append]
      exact ⟨inv.done_nodup, CAT.grants_nodup dep0 hdep0cat,
        fun a ha hag => (hgfresh a hag).1 ha⟩
    · rw [hdone, horder]
      intro n hn ho
      rcases List.mem_append.mp hn with h1 | h2
      · exact mark_used_zeroed sk hid bidx st n (inv.done_zero n h1 ho)
      · exact absurd ho (hgfresh n h2).2
    · intro k d h q hq
      rw [hdone]
      intro hmem
      rcases List.mem_append.mp hmem with h1 | h2
      · exact inv.prov_fresh k d (hmem' k d h) q hq h1
      · exact CAT.grants_not_prov dep0 hdep0cat d
          (inv.reg_cat k d (hmem' k d h)) q h2 hq
    · intro k d h g hg
      rw [hdone, horder]
      have hdcat := inv.reg_cat k d (hmem' k d h)
      have hgd := inv.grant_fresh k d (hmem' k d h) g hg
      refine ⟨?_, hgd.2⟩
      intro hmem
      rcases List.mem_append.mp hmem with h1 | h2
      · exact hgd.1 h1
      · rcases CAT.disj dep0 hdep0cat d hdcat with he | hdis
        · exact hnotdep0 k d h he.symm
        · exact hdis.2 g h2 hg

/-- One draw under the invariant: the returned name is listed, fresh with
respect to everything committed, immediately zeroed everywhere, and no longer
offered by the registry; the invariant survives with only off-pool grants
added to the committed set. -/
theorem get_next_skill_inv {catalog : List Character} (CAT : CatOK catalog)
    {st : SkillPool} {done : List (Nat × Nat)} (inv : C2Inv catalog st done)
    (hid : String) (bi fuel : Nat) (rng : RNG) (sk : Skill)
    (st2 : SkillPool) (rng2 : RNG) (hok : streamOK rng)
    (h : get_next_skill hid bi fuel st rng = some (sk, st2, rng2)) :
    C2Inv catalog st2 done ∧
    (∃ gs, doneNames st2 done = doneNames st done ++ gs ∧
      ∀ g ∈ gs, g ∉ st.skill_order) ∧
    st2.skill_order = st.skill_order ∧
    st2.skills = st.skills ∧
    branchShapes st2 = branchShapes st ∧
    (∀ k d, (k, d) ∈ st2.dependencies → (k, d) ∈ st.dependencies) ∧
    (∀ n, zeroedEverywhere st n → zeroedEverywhere st2 n) ∧
    sk.full_name ∈ st.skill_order ∧
    zeroedEverywhere st2 sk.full_name ∧
    sk.full_name ∉ doneNames st2 done ∧
    (∀ k d, (k, d) ∈ st2.dependencies → sk.full_name ∉ d.providers) ∧
    (∀ a, a ∈ st.skill_order → zeroedEverywhere st a →
      (∀ k d, (k, d) ∈ st.dependencies → a ∉ d.providers) →
      a ≠ sk.full_name) ∧
    rng2.stream = rng.stream := by
  obtain ⟨hst2, ⟨q, hlkq, hpath⟩, hstream⟩ :=
    get_next_skill_spec hid bi fuel st rng sk st2 rng2 hok h
  have hname : sk.full_name = q := inv.skills_named q sk (mem_of_lookup hlkq)
  have hqorder : q ∈ st.skill_order :=
    (inv.order_mem q).mpr (by rw [hlkq]; rfl)
  have hfresh_vs : ∀ a, a ∈ st.skill_order → zeroedEverywhere st a →
      (∀ k d, (k, d) ∈ st.dependencies → a ∉ d.providers) → a ≠ q := by
    intro a _ hazero hanoprov hae
    subst hae
    rcases hpath with hdw | hdp
    · obtain ⟨br, hbr, hlen, hsum, u, hu0, hu1, hq⟩ := hdw
      have hk : weightedPick br.skill_weights (u * br.skill_weights.sum) <
          br.skill_weights.length :=
        weightedPick_lt_length _ _ (mul_nonneg hu0 (le_of_lt hsum))
          (mul_lt_of_lt_one_left hsum hu1)
      have hkpos : 0 < br.skill_weights.getD
          (weightedPick br.skill_weights (u * br.skill_weights.sum)) 0 :=
        weightedPick_pos _ _ (mul_nonneg hu0 (le_of_lt hsum))
          (mul_lt_of_lt_one_left hsum hu1)
      have hqk : pyIndex a st.skill_order =
          some (weightedPick br.skill_weights (u * br.skill_weights.sum)) :=
        pyIndex_of_nodup_getD inv.order_nodup (by rw [hlen]; exact hk)
          hq.symm
      obtain ⟨i, hpi, hz⟩ := hazero
      have hik : i = weightedPick br.skill_weights
          (u * br.skill_weights.sum) := by
        rw [hpi] at hqk
        exact Option.some.inj hqk
      have hbrAt : branchAt st bi = br := by
        show st.new_branches.getD bi default = br
        rw [List.getD_eq_getElem?_getD, ← List.get?_eq_getElem?, hbr]
        rfl
      have hzb := hz bi
      rw [hbrAt, hik] at hzb
      rw [hzb] at hkpos
      exact lt_irrefl 0 hkpos
    · obtain ⟨p, hpmem, hqp⟩ := hdp
      exact hanoprov p.1 p.2 (by simpa using hpmem) hqp
  have hqfresh : q ∉ doneNames st done := by
    intro hqdone
    rcases hpath with hdw | hdp
    · obtain ⟨br, hbr, hlen, hsum, u, hu0, hu1, hq⟩ := hdw
      have hkpos : 0 < br.skill_weights.getD
          (weightedPick br.skill_weights (u * br.skill_weights.sum)) 0 :=
        weightedPick_pos _ _ (mul_nonneg hu0 (le_of_lt hsum))
          (mul_lt_of_lt_one_left hsum hu1)
      have hk : weightedPick br.skill_weights (u * br.skill_weights.sum) <
          br.skill_weights.length :=
        weightedPick_lt_length _ _ (mul_nonneg hu0 (le_of_lt hsum))
          (mul_lt_of_lt_one_left hsum hu1)
      have hqk : pyIndex q st.skill_order =
          some (weightedPick br.skill_weights (u * br.skill_weights.sum)) :=
        pyIndex_of_nodup_getD inv.order_nodup (by rw [hlen]; exact hk)
          hq.symm
      obtain ⟨i, hpi, hz⟩ := inv.done_zero q hqdone hqorder
      have hik : i = weightedPick br.skill_weights
          (u * br.skill_weights.sum) := by
        rw [hpi] at hqk
        exact Option.some.inj hqk
      have hbrAt : branchAt st bi = br := by
        show st.new_branches.getD bi default = br
        rw [List.getD_eq_getElem?_getD, ← List.get?_eq_getElem?, hbr]
        rfl
      have hzb := hz bi
      rw [hbrAt, hik] at hzb
      rw [hzb] at hkpos
      exact lt_irrefl 0 hkpos
    · obtain ⟨p, hpmem, hqp⟩ := hdp
      exact inv.prov_fresh p.1 p.2 (by simpa using hpmem) q hqp hqdone
  obtain ⟨hinv2, ⟨gs, hext2, hdone2, hgs⟩, hshrink⟩ :=
    mark_used_inv CAT inv sk hid (bi : Int)
  subst hst2
  have horder := mark_used_skill_order sk hid (bi : Int) st
  have hlkst : st.dependencies.lookup sk.full_name =
      st.dependencies.lookup q := by rw [hname]
  have hqcons : ∀ k d,
      (k, d) ∈ (mark_used sk hid (bi : Int) st).2.dependencies →
      q ∉ d.providers := by
    intro k d hmem2 hqprov
    have hmemst := hshrink k d hmem2
    have hlkd : st.dependencies.lookup q = some d :=
      inv.reg_lookup k d hmemst q hqprov
    have hdeps2 : (mark_used sk hid (bi : Int) st).2.dependencies =
        d.providers.foldl (fun d p => dictErase p d) st.dependencies := by
      show (zeroSkillPhase sk (depPhase sk hid (bi : Int) st)).dependencies
        = _
      rw [zeroSkillPhase_dependencies, depPhase_dependencies, hlkst, hlkd]
    rw [hdeps2] at hmem2
    exact mem_foldl_erase_key hmem2 (inv.reg_key k d hmemst)
  have hqzero : zeroedEverywhere (mark_used sk hid (bi : Int) st).2 q := by
    obtain ⟨iq, hiq⟩ :=
      Option.isSome_iff_exists.mp (pyIndex_isSome_of_mem hqorder)
    have hiq2 : pyIndex sk.full_name
        (depPhase sk hid (bi : Int) st).skill_order = some iq := by
      rw [depPhase_skill_order, hname]
      exact hiq
    refine ⟨iq, ?_, zeroSkillPhase_zeroes sk _ iq hiq2⟩
    rw [horder]
    exact hiq
  refine ⟨hinv2, ⟨gs, hdone2, hgs⟩, horder,
    mark_used_skills sk hid (bi : Int) st,
    mark_used_shapes sk hid (bi : Int) st, hshrink,
    mark_used_zeroed sk hid (bi : Int) st,
    hname ▸ hqorder, hname ▸ hqzero, ?_, ?_,
    fun a h1 h2 h3 => hname ▸ hfresh_vs a h1 h2 h3, hstream⟩
  · rw [hname, hdone2]
    intro hmem
    rcases List.mem_append.mp hmem with h1 | h2
    · exact hqfresh h1
    · exact hgs q h2 hqorder
  · intro k d hmem2
    rw [hname]
    exact hqcons k d hmem2

/-- The tier's draw loop under the invariant: the appended names are
pairwise distinct, mutually fresh with the committed set, zeroed everywhere
and never offered again by the registry. -/
theorem draw_skills_inv {catalog : List Character} (CAT : CatOK catalog)
    (hid : String) (bi : Nat) (done : List (Nat × Nat)) :
    ∀ (n fuel : Nat) (st : SkillPool) (rng : RNG) (maxp totp : Int)
      (acc : List String) (st2 : SkillPool) (rng2 : RNG) (maxp2 totp2 : Int)
      (acc2 : List String) (ns0 : List String),
    C2Inv catalog st done → streamOK rng → inflight st done ns0 →
    draw_skills fuel hid bi n st rng maxp totp acc =
      some (st2, rng2, maxp2, totp2, acc2) →
    ∃ ns, acc2 = acc ++ ns ∧
      C2Inv catalog st2 done ∧
      inflight st2 done (ns0 ++ ns) ∧
      st2.skill_order = st.skill_order ∧
      branchShapes st2 = branchShapes st ∧
      (∃ gs, doneNames st2 done = doneNames st done ++ gs ∧
        ∀ g ∈ gs, g ∉ st.skill_order) ∧
      rng2.stream = rng.stream := by
  intro n
  induction n with
  | zero =>
    intro fuel st rng maxp totp acc st2 rng2 maxp2 totp2 acc2 ns0
      hinv hok hfl h
    unfold draw_skills at h
    simp only [Option.some.injEq, Prod.mk.injEq] at h
    obtain ⟨h1, h2, _, _, h5⟩ := h
    subst h1 h2 h5
    exact ⟨[], by rw [List.append_nil], hinv,
      by rw [List.append_nil]; exact hfl, rfl, rfl,
      ⟨[], by rw [List.append_nil], by simp⟩, rfl⟩
  | succ m ih =>
    intro fuel st rng maxp totp acc st2 rng2 maxp2 totp2 acc2 ns0
      hinv hok hfl h
    unfold draw_skills at h
    split at h
    · simp at h
    rename_i sk st1 rng1 hgns
    obtain ⟨hinv1, ⟨gs1, hdone1, hgs1⟩, horder1, hskills1, hshapes1,
      hshrink1, hzpres1, hqorder, hqzero, hqfresh, hqcons, hvs,
      hstream1⟩ := get_next_skill_inv CAT hinv hid bi fuel rng sk st1 rng1
        hok hgns
    have hok1 : streamOK rng1 := by
      intro k
      rw [hstream1]
      exact hok k
    obtain ⟨hnd0, hfacts0⟩ := hfl
    have hfl1 : inflight st1 done (ns0 ++ [sk.full_name]) := by
      constructor
      · rw [List.nodup_append]
        refine ⟨hnd0, List.nodup_singleton _, ?_⟩
        intro a ha
        simp only [List.mem_singleton]
        intro hae
        obtain ⟨ha1, ha2, _, ha4⟩ := hfacts0 a ha
        exact hvs a ha1 ha2 ha4 hae
      · intro a ha
        rcases List.mem_append.mp ha with ha0 | haq
        · obtain ⟨ha1, ha2, ha3, ha4⟩ := hfacts0 a ha0
          refine ⟨by rw [horder1]; exact ha1, hzpres1 a ha2, ?_, ?_⟩
          · rw [hdone1]
            intro hmem
            rcases List.mem_append.mp hmem with hm1 | hm2
            · exact ha3 hm1
            · exact hgs1 a hm2 ha1
          · exact fun k d hkd => ha4 k d (hshrink1 k d hkd)
        · rw [List.mem_singleton] at haq
          subst haq
          exact ⟨by rw [horder1]; exact hqorder, hqzero, hqfresh, hqcons⟩
    obtain ⟨ns, hacc, hinv2, hfl2, horder2, hshapes2,
      ⟨gs2, hdone2, hgs2⟩, hstream2⟩ :=
      ih fuel st1 rng1 (max maxp sk.max_grade) (totp + sk.max_grade)
        (acc ++ [sk.full_name]) st2 rng2 maxp2 totp2 acc2
        (ns0 ++ [sk.full_name]) hinv1 hok1 hfl1 h
    refine ⟨sk.full_name :: ns, ?_, hinv2, ?_, horder2.trans horder1,
      hshapes2.trans hshapes1, ?_, hstream2.trans hstream1⟩
    · rw [hacc, List.append_assoc]
      rfl
    · rw [show ns0 ++ sk.full_name :: ns = (ns0 ++ [sk.full_name]) ++ ns
        by simp]
      exact hfl2
    · refine ⟨gs1 ++ gs2, ?_, ?_⟩
      · rw [hdone2, hdone1, List.append_assoc]
      · intro g hg
        rcases List.mem_append.mp hg with h1 | h2
        · exact hgs1 g h1
        · rw [← horder1]
          exact hgs2 g h2

theorem cheat_pass_zeroed (bi tier : Nat) (cheats : List (String × Int))
    (st : SkillPool) (n : String) (h : zeroedEverywhere st n) :
    zeroedEverywhere (cheat_pass bi tier cheats st).1 n := by
  obtain ⟨i, hpi, hz⟩ := h
  obtain ⟨_, _, ho, _, _, _⟩ := cheat_pass_frame bi tier cheats st
  exact ⟨i, by rw [ho]; exact hpi,
    cheat_pass_zero_preserved bi tier cheats st i hz⟩

theorem cheat_pass_inv {catalog : List Character} {st : SkillPool}
    {done : List (Nat × Nat)} (inv : C2Inv catalog st done)
    (bi tier : Nat) (cheats : List (String × Int)) :
    C2Inv catalog (cheat_pass bi tier cheats st).1 done := by
  obtain ⟨hdeps, hskills, horder, hextra, _, hshapes⟩ :=
    cheat_pass_frame bi tier cheats st
  have hdone := doneNames_congr done hshapes hextra
  refine ⟨?_, ?_, ?_, ?_, ?_, ?_, ?_, ?_, ?_, ?_⟩
  · rw [hskills]; exact inv.skills_named
  · rw [horder]; exact inv.order_nodup
  · rw [horder, hskills]; exact inv.order_mem
  · rw [hdeps]; exact inv.reg_key
  · rw [hdeps]; exact inv.reg_lookup
  · rw [hdeps]; exact inv.reg_cat
  · rw [hdone]; exact inv.done_nodup
  · rw [hdone, horder]
    exact fun n hn ho =>
      cheat_pass_zeroed bi tier cheats st n (inv.done_zero n hn ho)
  · rw [hdeps, hdone]; exact inv.prov_fresh
  · rw [hdeps, hdone, horder]; exact inv.grant_fresh

theorem finish_tier_frame (bi tier : Nat) (rt : Bool) (c : Nat)
    (maxp totp : Int) (ns : List String) (st2 : SkillPool) (rng2 : RNG) :
    (finish_tier bi tier rt c maxp totp ns st2 rng2).1.dependencies =
      st2.dependencies ∧
    (finish_tier bi tier rt c maxp totp ns st2 rng2).1.skills =
      st2.skills ∧
    (finish_tier bi tier rt c maxp totp ns st2 rng2).1.skill_order =
      st2.skill_order ∧
    (finish_tier bi tier rt c maxp totp ns st2 rng2).1.extra_skills =
      (if tier = 5 then [] else st2.extra_skills) ∧
    (finish_tier bi tier rt c maxp totp ns st2 rng2).1.new_branches.length =
      st2.new_branches.length := by
  unfold finish_tier get_extra_skills
  dsimp only
  split
  · refine ⟨rfl, rfl, rfl, rfl, ?_⟩
    simp
  · refine ⟨rfl, rfl, rfl, rfl, ?_⟩
    simp

theorem finish_tier_stream (bi tier : Nat) (rt : Bool) (c : Nat)
    (maxp totp : Int) (ns : List String) (st2 : SkillPool) (rng2 : RNG) :
    (finish_tier bi tier rt c maxp totp ns st2 rng2).2.stream =
      rng2.stream := by
  unfold finish_tier get_extra_skills RNG.randint RNG.next
  dsimp only
  by_cases hrt : rt
  · rw [if_pos hrt]
    split <;> rfl
  · rw [if_neg hrt]
    split <;> rfl

theorem finish_tier_weights (bi tier : Nat) (rt : Bool) (c : Nat)
    (maxp totp : Int) (ns : List String) (st2 : SkillPool) (rng2 : RNG) :
    ∀ j, (branchAt (finish_tier bi tier rt c maxp totp ns st2 rng2).1
        j).skill_weights =
      (branchAt st2 j).skill_weights := by
  intro j
  unfold finish_tier get_extra_skills branchAt
  dsimp only
  split
  · rw [List.set_set]
    by_cases hj : j = bi
    · subst hj
      by_cases hl : j < st2.new_branches.length
      · rw [getD_set_self _ _ _ _ hl]
      · rw [getD_set_of_ge _ _ _ _ (Nat.le_of_not_lt hl),
          getD_eq_default _ _ _ (Nat.le_of_not_lt hl)]
    · rw [getD_set_ne _ _ _ _ _ (fun hc => hj hc.symm)]
  · by_cases hj : j = bi
    · subst hj
      by_cases hl : j < st2.new_branches.length
      · rw [getD_set_self _ _ _ _ hl]
      · rw [getD_set_of_ge _ _ _ _ (Nat.le_of_not_lt hl),
          getD_eq_default _ _ _ (Nat.le_of_not_lt hl)]
    · rw [getD_set_ne _ _ _ _ _ (fun hc => hj hc.symm)]

theorem finish_tier_zeroed (bi tier : Nat) (rt : Bool) (c : Nat)
    (maxp totp : Int) (ns : List String) (st2 : SkillPool) (rng2 : RNG)
    (n : String) (h : zeroedEverywhere st2 n) :
    zeroedEverywhere (finish_tier bi tier rt c maxp totp ns st2 rng2).1
      n := by
  obtain ⟨i, hpi, hz⟩ := h
  obtain ⟨_, _, ho, _, _⟩ := finish_tier_frame bi tier rt c maxp totp ns
    st2 rng2
  refine ⟨i, by rw [ho]; exact hpi, ?_⟩
  intro j
  rw [finish_tier_weights]
  exact hz j

theorem finish_tier_rows_other (bi tier : Nat) (rt : Bool) (c : Nat)
    (maxp totp : Int) (ns : List String) (st2 : SkillPool) (rng2 : RNG)
    (p : Nat × Nat) (hp : p ≠ (tier, bi)) :
    (branchAt (finish_tier bi tier rt c maxp totp ns st2 rng2).1
        p.2).skills.getD p.1 [] =
      (branchAt st2 p.2).skills.getD p.1 [] := by
  unfold finish_tier get_extra_skills branchAt
  dsimp only
  split
  · rename_i h5
    subst h5
    rw [List.set_set]
    by_cases hj : p.2 = bi
    · have ht : p.1 ≠ 5 := by
        intro hc
        exact hp (Prod.ext hc hj)
      rw [hj]
      by_cases hl : bi < st2.new_branches.length
      · rw [getD_set_self _ _ _ _ hl]
        dsimp only
        rw [List.set_set, getD_set_ne _ _ _ _ _ (fun hc => ht hc.symm)]
      · rw [getD_set_of_ge _ _ _ _ (Nat.le_of_not_lt hl),
          getD_eq_default _ _ _ (Nat.le_of_not_lt hl)]
    · rw [getD_set_ne _ _ _ _ _ (fun hc => hj hc.symm)]
  · by_cases hj : p.2 = bi
    · have ht : p.1 ≠ tier := by
        intro hc
        exact hp (Prod.ext hc hj)
      rw [hj]
      by_cases hl : bi < st2.new_branches.length
      · rw [getD_set_self _ _ _ _ hl]
        dsimp only
        rw [getD_set_ne _ _ _ _ _ (fun hc => ht hc.symm)]
      · rw [getD_set_of_ge _ _ _ _ (Nat.le_of_not_lt hl),
          getD_eq_default _ _ _ (Nat.le_of_not_lt hl)]
    · rw [getD_set_ne _ _ _ _ _ (fun hc => hj hc.symm)]

theorem finish_tier_row_new (bi tier : Nat) (rt : Bool) (c : Nat)
    (maxp totp : Int) (ns : List String) (st2 : SkillPool) (rng2 : RNG)
    (hbi : bi < st2.new_branches.length) (htier : tier < 6)
    (hlen : (branchAt st2 bi).skills.length = 6) :
    (branchAt (finish_tier bi tier rt c maxp totp ns st2 rng2).1
        bi).skills.getD tier [] =
      ns ++ (if tier = 5 then st2.extra_skills else []) := by
  have h5l : (5 : Nat) < (branchAt st2 bi).skills.length := by
    rw [hlen]
    omega
  have htl : tier < (branchAt st2 bi).skills.length := by
    rw [hlen]
    exact htier
  unfold finish_tier get_extra_skills branchAt
  dsimp only
  unfold branchAt at h5l htl
  split
  · rename_i h5
    subst h5
    rw [List.set_set, getD_set_self _ _ _ _ hbi]
    dsimp only
    rw [List.set_set, getD_set_self _ _ _ _ (by simpa using h5l),
      getD_set_self _ _ _ _ h5l]
  · rename_i h5
    rw [List.append_nil, getD_set_self _ _ _ _ hbi]
    dsimp only
    rw [getD_set_self _ _ _ _ htl]

theorem finish_tier_rows_len (bi tier : Nat) (rt : Bool) (c : Nat)
    (maxp totp : Int) (ns : List String) (st2 : SkillPool) (rng2 : RNG)
    (hr : rowsLen6 st2) :
    rowsLen6 (finish_tier bi tier rt c maxp totp ns st2 rng2).1 := by
  intro j hj
  obtain ⟨_, _, _, _, hlen⟩ := finish_tier_frame bi tier rt c maxp totp ns
    st2 rng2
  rw [hlen] at hj
  have hr6 := hr j hj
  unfold finish_tier get_extra_skills branchAt
  dsimp only
  unfold branchAt at hr6
  split
  · rw [List.set_set]
    by_cases hjb : j = bi
    · subst hjb
      rw [getD_set_self _ _ _ _ hj]
      dsimp only
      rw [List.length_set, List.length_set]
      exact hr6
    · rw [getD_set_ne _ _ _ _ _ (fun hc => hjb hc.symm)]
      exact hr6
  · by_cases hjb : j = bi
    · subst hjb
      rw [getD_set_self _ _ _ _ hj]
      dsimp only
      rw [List.length_set]
      exact hr6
    · rw [getD_set_ne _ _ _ _ _ (fun hc => hjb hc.symm)]
      exact hr6

theorem rowsOf_congr_getD {st st' : SkillPool} (done : List (Nat × Nat))
    (h : ∀ p ∈ done, (branchAt st' p.2).skills.getD p.1 [] =
      (branchAt st p.2).skills.getD p.1 []) :
    rowsOf st' done = rowsOf st done := by
  unfold rowsOf
  congr 1
  exact List.map_congr_left (fun p hp => h p hp)

theorem rowsOf_single (st : SkillPool) (p : Nat × Nat) :
    rowsOf st [p] = (branchAt st p.2).skills.getD p.1 [] := by
  simp [rowsOf]

/-- Committing the drawn tier row (and the drained extras at tier five)
extends the processed-slot invariant by exactly the in-flight names. -/
theorem finish_tier_commit {catalog : List Character} {st2 : SkillPool}
    {done : List (Nat × Nat)} (inv : C2Inv catalog st2 done)
    (bi tier : Nat) (rt : Bool) (c : Nat) (maxp totp : Int)
    (ns : List String) (rng2 : RNG)
    (hfl : inflight st2 done ns)
    (hnd : (tier, bi) ∉ done)
    (hbi : bi < st2.new_branches.length) (htier : tier < 6)
    (hlen6 : rowsLen6 st2) :
    C2Inv catalog (finish_tier bi tier rt c maxp totp ns st2 rng2).1
      (done ++ [(tier, bi)]) ∧
    rowsLen6 (finish_tier bi tier rt c maxp totp ns st2 rng2).1 := by
  obtain ⟨hdeps3, hskills3, horder3, hextras3, _⟩ :=
    finish_tier_frame bi tier rt c maxp totp ns st2 rng2
  have hrowsdone : rowsOf (finish_tier bi tier rt c maxp totp ns st2
      rng2).1 done = rowsOf st2 done :=
    rowsOf_congr_getD done (fun p hp =>
      finish_tier_rows_other bi tier rt c maxp totp ns st2 rng2 p
        (fun hc => hnd (hc ▸ hp)))
  have heq : doneNames (finish_tier bi tier rt c maxp totp ns st2 rng2).1
      (done ++ [(tier, bi)]) =
      rowsOf st2 done ++ (ns ++ st2.extra_skills) := by
    unfold doneNames
    rw [rowsOf_append, hrowsdone, rowsOf_single,
      finish_tier_row_new bi tier rt c maxp totp ns st2 rng2 hbi htier
        (hlen6 bi hbi), hextras3]
    by_cases h5 : tier = 5
    · rw [if_pos h5, if_pos h5, List.append_nil]
    · rw [if_neg h5, if_neg h5, List.append_nil, List.append_assoc]
  have hperm : List.Perm
      (doneNames (finish_tier bi tier rt c maxp totp ns st2 rng2).1
        (done ++ [(tier, bi)]))
      (doneNames st2 done ++ ns) := by
    rw [heq]
    have h1 : List.Perm (ns ++ st2.extra_skills)
        (st2.extra_skills ++ ns) := List.perm_append_comm
    have h2 := List.Perm.append_left (rowsOf st2 done) h1
    have h3 : rowsOf st2 done ++ (st2.extra_skills ++ ns) =
        doneNames st2 done ++ ns := (List.append_assoc _ _ _).symm
    rw [h3] at h2
    exact h2
  obtain ⟨hflnd, hflf⟩ := hfl
  have hdisj : ∀ a ∈ doneNames st2 done, a ∉ ns :=
    fun a ha hans => (hflf a hans).2.2.1 ha
  refine ⟨⟨?_, ?_, ?_, ?_, ?_, ?_, ?_, ?_, ?_, ?_⟩,
    finish_tier_rows_len bi tier rt c maxp totp ns st2 rng2 hlen6⟩
  · rw [hskills3]; exact inv.skills_named
  · rw [horder3]; exact inv.order_nodup
  · rw [horder3, hskills3]; exact inv.order_mem
  · rw [hdeps3]; exact inv.reg_key
  · rw [hdeps3]; exact inv.reg_lookup
  · rw [hdeps3]; exact inv.reg_cat
  · rw [hperm.nodup_iff]
    rw [List.nodup_append]
    exact ⟨inv.done_nodup, hflnd, hdisj⟩
  · intro n hn ho
    rw [horder3] at ho
    rcases List.mem_append.mp (hperm.mem_iff.mp hn) with h1 | h2
    · exact finish_tier_zeroed bi tier rt c maxp totp ns st2 rng2 n
        (inv.done_zero n h1 ho)
    · exact finish_tier_zeroed bi tier rt c maxp totp ns st2 rng2 n
        (hflf n h2).2.1
  · intro k d hkd q hq hmem
    rw [hdeps3] at hkd
    rcases List.mem_append.mp (hperm.mem_iff.mp hmem) with h1 | h2
    · exact inv.prov_fresh k d hkd q hq h1
    · exact (hflf q h2).2.2.2 k d hkd hq
  · intro k d hkd g hg
    rw [hdeps3] at hkd
    have hbase := inv.grant_fresh k d hkd g hg
    refine ⟨?_, by rw [horder3]; exact hbase.2⟩
    intro hmem
    rcases List.mem_append.mp (hperm.mem_iff.mp hmem) with h1 | h2
    · exact hbase.1 h1
    · exact hbase.2 (hflf g h2).1

/-- One `(tier, branch)` pass preserves the invariant, committing the slot. -/
theorem randomize_branch_tier_inv {catalog : List Character}
    (CAT : CatOK catalog) (fuel bi tier : Nat) (rt : Bool) (hs : String)
    (cheats : List (String × Int)) {st : SkillPool}
    {done : List (Nat × Nat)} (rng : RNG) (st' : SkillPool) (rng' : RNG)
    (logs : List String) (inv : C2Inv catalog st done) (hok : streamOK rng)
    (hlen6 : rowsLen6 st) (hbi : bi < st.new_branches.length)
    (htier : tier < 6) (hnd : (tier, bi) ∉ done)
    (h : randomize_branch_tier fuel bi tier rt hs cheats st rng =
      (some (st', rng'), logs)) :
    C2Inv catalog st' (done ++ [(tier, bi)]) ∧ rowsLen6 st' ∧
    st'.new_branches.length = st.new_branches.length ∧
    st'.skill_order = st.skill_order ∧
    rng'.stream = rng.stream := by
  unfold randomize_branch_tier at h
  dsimp only at h
  set D : ℚ :=
    (((branchAt (cheat_pass bi tier cheats st).1 bi).expected_skills -
        (branchAt (cheat_pass bi tier cheats st).1 bi).skill_count :
        Int) : ℚ) /
      (((branchAt (cheat_pass bi tier cheats st).1 bi).slots_left :
        Int) : ℚ) with hD
  set scr : Nat × RNG := choose_skill_count D rng with hscr
  split at h
  · simp at h
  rename_i st2 rng2 maxp totp tsk hdraw
  simp only [Prod.mk.injEq, Option.some.injEq] at h
  obtain ⟨hpair, _⟩ := h
  obtain ⟨hdepsc, hskillsc, horderc, hextrasc, _, hshapesc⟩ :=
    cheat_pass_frame bi tier cheats st
  have hinvc := cheat_pass_inv inv bi tier cheats
  have hlenc : (cheat_pass bi tier cheats st).1.new_branches.length =
      st.new_branches.length := branchShapes_len hshapesc
  have hokc : streamOK scr.2 := by
    intro k
    rw [hscr, choose_skill_count_stream]
    exact hok k
  have hfl0 : inflight (cheat_pass bi tier cheats st).1 done [] :=
    ⟨List.nodup_nil, by simp⟩
  obtain ⟨ns, hacc, hinv2, hfl2, horder2, hshapes2, _, hstream2⟩ :=
    draw_skills_inv CAT hs bi done scr.1 fuel _ scr.2 0 0 [] st2 rng2 maxp
      totp tsk [] hinvc hokc hfl0 hdraw
  rw [List.nil_append] at hacc hfl2
  rw [← hacc] at hfl2
  have hbi2 : bi < st2.new_branches.length := by
    rw [branchShapes_len hshapes2, hlenc]
    exact hbi
  have hlen62 : rowsLen6 st2 :=
    rowsLen6_of_shapes hshapes2
      (rowsLen6_of_shapes hshapesc hlen6)
  obtain ⟨hinv3, hrows3⟩ := finish_tier_commit hinv2 bi tier rt scr.1 maxp
    totp tsk rng2 hfl2 hnd hbi2 htier hlen62
  obtain ⟨_, _, horder3, _, hlen3⟩ :=
    finish_tier_frame bi tier rt scr.1 maxp totp tsk st2 rng2
  have hst' : (finish_tier bi tier rt scr.1 maxp totp tsk st2 rng2).1 =
      st' := congrArg Prod.fst hpair
  have hrng' : (finish_tier bi tier rt scr.1 maxp totp tsk st2 rng2).2 =
      rng' := congrArg Prod.snd hpair
  refine ⟨?_, ?_, ?_, ?_, ?_⟩
  · rw [← hst']
    exact hinv3
  · rw [← hst']
    exact hrows3
  · rw [← hst', hlen3, branchShapes_len hshapes2, hlenc]
  · rw [← hst', horder3, horder2, horderc]
  · rw [← hrng', finish_tier_stream, hstream2, hscr,
      choose_skill_count_stream]

/-- Running the whole `(tier, branch)` schedule preserves the invariant,
committing every processed slot. -/
theorem run_steps_inv {catalog : List Character} (CAT : CatOK catalog)
    (fuel : Nat) (rt : Bool) (hs : String)
    (cheats : List (String × Int)) :
    ∀ (steps : List (Nat × Nat)) (st : SkillPool) (rng : RNG)
      (done : List (Nat × Nat)) (st2 : SkillPool) (rng2 : RNG)
      (logs : List String),
    C2Inv catalog st done → streamOK rng → rowsLen6 st →
    (∀ s ∈ steps, s.1 < 6 ∧ s.2 < st.new_branches.length ∧ s ∉ done) →
    steps.Nodup →
    run_steps fuel rt hs cheats steps st rng = (some (st2, rng2), logs) →
    C2Inv catalog st2 (done ++ steps) ∧ rowsLen6 st2 ∧
    st2.new_branches.length = st.new_branches.length := by
  intro steps
  induction steps with
  | nil =>
    intro st rng done st2 rng2 logs hinv hok hr6 hsteps hnd h
    unfold run_steps at h
    simp only [Prod.mk.injEq, Option.some.injEq] at h
    obtain ⟨⟨h1, _⟩, _⟩ := h
    rw [List.append_nil, ← h1]
    exact ⟨hinv, hr6, rfl⟩
  | cons s rest ih =>
    intro st rng done st2 rng2 logs hinv hok hr6 hsteps hnd h
    obtain ⟨t, bi⟩ := s
    unfold run_steps at h
    split at h
    · simp at h
    rename_i st1 rng1 logs1 hrbt
    dsimp only at h
    simp only [Prod.mk.injEq] at h
    obtain ⟨h1, _⟩ := h
    have hrun : run_steps fuel rt hs cheats rest st1 rng1 =
        (some (st2, rng2),
         (run_steps fuel rt hs cheats rest st1 rng1).2) :=
      Prod.ext h1 rfl
    have hhead := hsteps (t, bi) (List.mem_cons_self _ _)
    obtain ⟨hinv1, hr61, hlen1, _, hstream1⟩ :=
      randomize_branch_tier_inv CAT fuel bi t rt hs cheats rng st1 rng1
        logs1 hinv hok hr6 hhead.2.1 hhead.1 hhead.2.2 hrbt
    have hok1 : streamOK rng1 := by
      intro k
      rw [hstream1]
      exact hok k
    have hndrest := (List.nodup_cons.mp hnd)
    have hsteps1 : ∀ s ∈ rest, s.1 < 6 ∧
        s.2 < st1.new_branches.length ∧ s ∉ done ++ [(t, bi)] := by
      intro s hs2
      obtain ⟨hs1, hs3, hs4⟩ := hsteps s (List.mem_cons_of_mem _ hs2)
      refine ⟨hs1, by rw [hlen1]; exact hs3, ?_⟩
      intro hmem
      rcases List.mem_append.mp hmem with hm1 | hm2
      · exact hs4 hm1
      · rw [List.mem_singleton] at hm2
        exact hndrest.1 (hm2 ▸ hs2)
    obtain ⟨hinv2, hr62, hlen2⟩ := ih st1 rng1 (done ++ [(t, bi)]) st2
      rng2 _ hinv1 hok1 hr61 hsteps1 hndrest.2 hrun
    refine ⟨?_, hr62, hlen2.trans hlen1⟩
    rw [show done ++ (t, bi) :: rest = (done ++ [(t, bi)]) ++ rest by simp]
    exact hinv2

theorem foldr_append_eq_join {α β : Type} (l : List α) (f : α → List β) :
    l.foldr (fun t acc => f t ++ acc) [] = (l.map f).join := by
  induction l with
  | nil => rfl
  | cons a as ih => simp [ih]

theorem tier_steps_eq (n : Nat) :
    tier_steps n = ((List.range 6).map
      (fun t => (List.range n).map (fun b => (t, b)))).join := by
  unfold tier_steps
  exact foldr_append_eq_join _ _

theorem tier_steps_mem (n : Nat) (p : Nat × Nat) :
    p ∈ tier_steps n ↔ p.1 < 6 ∧ p.2 < n := by
  rw [tier_steps_eq]
  constructor
  · intro h
    obtain ⟨row, hrow, hp⟩ := List.mem_join.mp h
    obtain ⟨t, ht, rfl⟩ := List.mem_map.mp hrow
    obtain ⟨b, hb, rfl⟩ := List.mem_map.mp hp
    exact ⟨List.mem_range.mp ht, List.mem_range.mp hb⟩
  · intro h
    refine List.mem_join.mpr
      ⟨(List.range n).map (fun b => (p.1, b)), ?_, ?_⟩
    · exact List.mem_map.mpr ⟨p.1, List.mem_range.mpr h.1, rfl⟩
    · exact List.mem_map.mpr ⟨p.2, List.mem_range.mpr h.2, by simp⟩

theorem pair_slots_nodup (g : Nat → Nat → Nat × Nat)
    (hinj1 : ∀ a b a' b', g a b = g a' b' → a = a')
    (hinj2 : ∀ a b b', g a b = g a b' → b = b') (m n : Nat) :
    (((List.range m).map
      (fun a => (List.range n).map (fun b => g a b))).join).Nodup := by
  apply List.nodup_join.mpr
  constructor
  · intro s hs
    obtain ⟨a, _, rfl⟩ := List.mem_map.mp hs
    exact List.Nodup.map (fun b b' hbb => hinj2 a b b' hbb)
      (List.nodup_range n)
  · rw [List.pairwise_map]
    refine List.Pairwise.imp ?_ (List.pairwise_lt_range m)
    intro a1 a2 hlt x hx1 hx2
    obtain ⟨b1, _, he1⟩ := List.mem_map.mp hx1
    obtain ⟨b2, _, he2⟩ := List.mem_map.mp hx2
    have hte : a1 = a2 := hinj1 a1 b1 a2 b2 (he1.trans he2.symm)
    exact absurd (hte ▸ hlt) (lt_irrefl a2)

theorem range_map_getD {α : Type} (l : List α) (d : α) :
    (List.range l.length).map (fun i => l.getD i d) = l := by
  induction l with
  | nil => rfl
  | cons a as ih =>
    rw [List.length_cons, List.range_succ_eq_map, List.map_cons,
      List.map_map]
    have hcomp : ((fun i => (a :: as).getD i d) ∘ Nat.succ) =
        fun i => as.getD i d := by
      funext i
      rfl
    rw [hcomp, ih]
    rfl

theorem join_of_len6 (l : List (List String)) (h : l.length = 6) :
    l.join = ((List.range 6).map (fun t => l.getD t [])).join := by
  conv_lhs => rw [← range_map_getD l []]
  rw [h]

theorem treeSkillNames_eq (st : SkillPool) (hr : rowsLen6 st) :
    treeSkillNames st =
      ((List.range st.new_branches.length).map (fun b =>
        ((List.range 6).map
          (fun t => (branchAt st b).skills.getD t [])).join)).join := by
  unfold treeSkillNames
  have h1 : st.new_branches.map (fun b => b.skills.join) =
      (List.range st.new_branches.length).map
        (fun b => (branchAt st b).skills.join) := by
    conv_lhs => rw [← range_map_getD st.new_branches default]
    rw [List.map_map]
    rfl
  rw [h1]
  congr 1
  apply List.map_congr_left
  intro b hb
  exact join_of_len6 _ (hr b (List.mem_range.mp hb))

theorem rowsOf_branch_major (st : SkillPool) (n : Nat) :
    rowsOf st (((List.range n).map (fun b =>
      (List.range 6).map (fun t => (t, b)))).join) =
      ((List.range n).map (fun b =>
        ((List.range 6).map
          (fun t => (branchAt st b).skills.getD t [])).join)).join := by
  unfold rowsOf
  simp only [List.join]
  rw [List.map_flatten, List.flatten_flatten, List.map_map, List.map_map]
  congr 1

theorem tier_steps_perm_branch_major (n : Nat) :
    List.Perm (tier_steps n)
      (((List.range n).map (fun b =>
        (List.range 6).map (fun t => (t, b)))).join) := by
  have h1 : (tier_steps n).Nodup := by
    rw [tier_steps_eq]
    exact pair_slots_nodup (fun t b => (t, b))
      (fun a b a' b' h => congrArg Prod.fst h)
      (fun a b b' h => congrArg Prod.snd h) 6 n
  have h2 : ((((List.range n).map (fun b =>
      (List.range 6).map (fun t => (t, b)))).join)).Nodup :=
    pair_slots_nodup (fun b t => (t, b))
      (fun a b a' b' h => congrArg Prod.snd h)
      (fun a b b' h => congrArg Prod.fst h) n 6
  rw [List.perm_ext_iff_of_nodup h1 h2]
  intro p
  rw [tier_steps_mem]
  constructor
  · intro h
    refine List.mem_join.mpr
      ⟨(List.range 6).map (fun t => (t, p.2)), ?_, ?_⟩
    · exact List.mem_map.mpr ⟨p.2, List.mem_range.mpr h.2, rfl⟩
    · exact List.mem_map.mpr ⟨p.1, List.mem_range.mpr h.1, by simp⟩
  · intro h
    obtain ⟨row, hrow, hp⟩ := List.mem_join.mp h
    obtain ⟨b, hb, rfl⟩ := List.mem_map.mp hrow
    obtain ⟨t, ht, rfl⟩ := List.mem_map.mp hp
    exact ⟨List.mem_range.mp ht, List.mem_range.mp hb⟩

theorem rowsOf_perm (st : SkillPool) {d1 d2 : List (Nat × Nat)}
    (h : List.Perm d1 d2) :
    List.Perm (rowsOf st d1) (rowsOf st d2) :=
  (h.map _).join

/-- Nodup of all committed rows transfers to the generated tree list. -/
theorem treeSkillNames_nodup_of_inv {catalog : List Character}
    {st : SkillPool}
    (inv : C2Inv catalog st (tier_steps st.new_branches.length))
    (hr : rowsLen6 st) :
    (treeSkillNames st).Nodup := by
  have hdn := inv.done_nodup
  unfold doneNames at hdn
  have hrows : (rowsOf st (tier_steps st.new_branches.length)).Nodup :=
    (List.sublist_append_left _ _).nodup hdn
  have hperm := rowsOf_perm st
    (tier_steps_perm_branch_major st.new_branches.length)
  rw [rowsOf_branch_major] at hperm
  rw [treeSkillNames_eq st hr]
  exact hperm.nodup hrows

/-! ### C2: the state produced by the setup stages of `randomize_tree` -/

/-- Soundness of the built skill dictionary: entries are keyed by the skill
they hold, keys are unique, and every key is a catalog skill name. -/
def SkOK (catalog : List Character) (S : Dict Skill) : Prop :=
  (∀ k sk, (k, sk) ∈ S → sk.full_name = k) ∧
  (S.map (fun p : String × Skill => p.1)).Nodup ∧
  (∀ k sk, (k, sk) ∈ S → k ∈ allCatalogSkillNames catalog)

/-- Soundness of the built dependency registry: entries are keyed by a
provider, every provider of a registered dependency resolves to it, and every
value is a catalog dependency. -/
def RegOK (catalog : List Character) (D : Dict Dependency) : Prop :=
  (∀ k d, (k, d) ∈ D → k ∈ d.providers) ∧
  (∀ k d, (k, d) ∈ D → ∀ q ∈ d.providers, D.lookup q = some d) ∧
  (∀ k d, (k, d) ∈ D → d ∈ allCatalogDeps catalog)

/-- The fields of the pool that the skill-source loop leaves alone. -/
def poolFrame (st st' : SkillPool) : Prop :=
  st'.skill_order = st.skill_order ∧ st'.extra_skills = st.extra_skills ∧
  st'.class_mod_skills = st.class_mod_skills ∧
  st'.current_char_class = st.current_char_class ∧
  st'.original_branches = st.original_branches ∧
  st'.new_branches = st.new_branches

theorem poolFrame_refl (st : SkillPool) : poolFrame st st :=
  ⟨rfl, rfl, rfl, rfl, rfl, rfl⟩

theorem poolFrame_trans {s1 s2 s3 : SkillPool} (h1 : poolFrame s1 s2)
    (h2 : poolFrame s2 s3) : poolFrame s1 s3 :=
  ⟨h2.1.trans h1.1, h2.2.1.trans h1.2.1, h2.2.2.1.trans h1.2.2.1,
   h2.2.2.2.1.trans h1.2.2.2.1, h2.2.2.2.2.1.trans h1.2.2.2.2.1,
   h2.2.2.2.2.2.trans h1.2.2.2.2.2⟩

theorem mem_add_skills {sl : List Skill} {S : Dict Skill}
    {p : String × Skill}
    (h : p ∈ sl.foldl (fun d sk => dictInsert sk.full_name sk d) S) :
    p ∈ S ∨ (p.2 ∈ sl ∧ p.1 = p.2.full_name) := by
  induction sl generalizing S with
  | nil => exact Or.inl (by simpa using h)
  | cons a asl ih =>
    rw [List.foldl_cons] at h
    rcases ih h with h1 | h2
    · rcases mem_dictInsert h1 with h3 | h4
      · exact Or.inl h3
      · right
        rw [h4]
        exact ⟨List.mem_cons_self a asl, rfl⟩
    · exact Or.inr ⟨List.mem_cons_of_mem a h2.1, h2.2⟩

theorem add_skills_keys_nodup (sl : List Skill) (S : Dict Skill)
    (h : (S.map (fun p : String × Skill => p.1)).Nodup) :
    ((sl.foldl (fun d sk => dictInsert sk.full_name sk d) S).map
      (fun p : String × Skill => p.1)).Nodup := by
  induction sl generalizing S with
  | nil => simpa using h
  | cons a asl ih =>
    rw [List.foldl_cons]
    exact ih _ (keys_dictInsert_nodup a.full_name a h)

theorem catalog_skill_names {catalog : List Character} {c : Character}
    (hc : c ∈ catalog) {sk : Skill}
    (hsk : sk ∈ c.pure_skills ++ c.misdocumented_skills ++
      c.suppressed_skills) :
    sk.full_name ∈ allCatalogSkillNames catalog := by
  unfold allCatalogSkillNames
  refine List.mem_flatten.mpr ⟨_, List.mem_map.mpr ⟨c, hc, rfl⟩, ?_⟩
  exact List.mem_map.mpr ⟨sk, hsk, rfl⟩

theorem catalog_dep_mem {catalog : List Character} {c : Character}
    (hc : c ∈ catalog) {d : Dependency} (hd : d ∈ c.dependencies) :
    d ∈ allCatalogDeps catalog := by
  unfold allCatalogDeps
  exact List.mem_flatten.mpr ⟨_, List.mem_map.mpr ⟨c, hc, rfl⟩, hd⟩

theorem skOK_add_skills {catalog : List Character} (sl : List Skill)
    {S : Dict Skill}
    (hsl : ∀ sk ∈ sl, sk.full_name ∈ allCatalogSkillNames catalog)
    (h : SkOK catalog S) :
    SkOK catalog (sl.foldl (fun d sk => dictInsert sk.full_name sk d) S) := by
  obtain ⟨h1, h2, h3⟩ := h
  refine ⟨?_, add_skills_keys_nodup sl S h2, ?_⟩
  · intro k sk hk
    rcases mem_add_skills hk with hm | ⟨hm1, hm2⟩
    · exact h1 k sk hm
    · exact hm2.symm
  · intro k sk hk
    rcases mem_add_skills hk with hm | ⟨hm1, hm2⟩
    · exact h3 k sk hm
    · have hk2 : k = sk.full_name := hm2
      rw [hk2]
      exact hsl sk hm1

theorem regOK_add_dependency {catalog : List Character} (CAT : CatOK catalog)
    {dep : Dependency} (hdep : dep ∈ allCatalogDeps catalog)
    {D : Dict Dependency} (h : RegOK catalog D) :
    RegOK catalog
      (dep.providers.foldl (fun d p => dictInsert p dep d) D) := by
  obtain ⟨h1, h2, h3⟩ := h
  refine ⟨?_, ?_, ?_⟩
  · intro k d hk
    rcases mem_foldl_insert hk with hm | ⟨hm1, hm2⟩
    · exact h1 k d hm
    · rw [show d = dep from hm2]
      exact hm1
  · intro k d hk q hq
    rw [lookup_foldl_insert]
    rcases mem_foldl_insert hk with hm | ⟨hm1, hm2⟩
    · by_cases hqp : q ∈ dep.providers
      · rw [if_pos hqp]
        rcases CAT.disj d (h3 k d hm) dep hdep with he | ⟨hd, _⟩
        · rw [he]
        · exact absurd hqp (hd q hq)
      · rw [if_neg hqp]
        exact h2 k d hm q hq
    · have hd : d = dep := hm2
      subst hd
      rw [if_pos hq]
  · intro k d hk
    rcases mem_foldl_insert hk with hm | ⟨hm1, hm2⟩
    · exact h3 k d hm
    · rw [show d = dep from hm2]
      exact hdep

theorem mem_keys_iff_lookup {α : Type} (d : Dict α) (q : String) :
    q ∈ d.map (fun p : String × α => p.1) ↔ (d.lookup q).isSome = true := by
  rw [← any_key_iff_lookup_isSome]
  simp only [List.any_eq_true, List.mem_map, beq_iff_eq]

/-- Soundness of both dictionaries of the pool. -/
def PoolCore (catalog : List Character) (st : SkillPool) : Prop :=
  SkOK catalog st.skills ∧ RegOK catalog st.dependencies

theorem poolCore_add_skills {catalog : List Character} {sl : List Skill}
    (hsl : ∀ sk ∈ sl, sk.full_name ∈ allCatalogSkillNames catalog)
    {st : SkillPool} (h : PoolCore catalog st) :
    PoolCore catalog (add_skills sl st) ∧ poolFrame st (add_skills sl st) :=
  ⟨⟨skOK_add_skills sl hsl h.1, h.2⟩, ⟨rfl, rfl, rfl, rfl, rfl, rfl⟩⟩

theorem poolCore_fold_deps {catalog : List Character} (CAT : CatOK catalog) :
    ∀ (deps : List Dependency),
    (∀ d ∈ deps, d ∈ allCatalogDeps catalog) →
    ∀ (st : SkillPool), PoolCore catalog st →
    PoolCore catalog (deps.foldl (fun s d => add_dependency d s) st) ∧
    poolFrame st (deps.foldl (fun s d => add_dependency d s) st) := by
  intro deps
  induction deps with
  | nil =>
    intro _ st h
    exact ⟨h, poolFrame_refl st⟩
  | cons d ds ih =>
    intro hdeps st h
    rw [List.foldl_cons]
    have hstep : PoolCore catalog (add_dependency d st) :=
      ⟨h.1, regOK_add_dependency CAT (hdeps d (List.mem_cons_self d ds)) h.2⟩
    obtain ⟨hc, hfr⟩ := ih
      (fun x hx => hdeps x (List.mem_cons_of_mem d hx))
      (add_dependency d st) hstep
    exact ⟨hc, poolFrame_trans ⟨rfl, rfl, rfl, rfl, rfl, rfl⟩ hfr⟩

/-- The fold step of `build_pool` (`skill_pool.py` lines 288-302), exposed
for induction over the enabled sources. -/
def bpStep (catalog : List Character) (hidden_skills : String) :
    (SkillPool × Option Character × List String) → String →
    SkillPool × Option Character × List String := fun acc char =>
  let (st, cur, logs) := acc
  match Character.from_name catalog char with
  | none => (st, cur, logs ++ ["Ignoring unknown skill source " ++ char])
  | some source_char =>
    let st := add_skills source_char.pure_skills st
    let st :=
      if hidden_skills == "none" then st
      else
        let st := add_skills source_char.misdocumented_skills st
        if hidden_skills == "all" then
          add_skills source_char.suppressed_skills st
        else st
    let st := source_char.dependencies.foldl
      (fun s d => add_dependency d s) st
    let cur := if st.current_char_class = some source_char.name
               then some source_char else cur
    (st, cur, logs)

theorem build_pool_eq_fold (catalog : List Character)
    (enabled_sources : List String) (hid : String) (st : SkillPool) :
    build_pool catalog enabled_sources hid st =
      enabled_sources.foldl (bpStep catalog hid) (st, none, []) := rfl

theorem bpStep_spec {catalog : List Character} (CAT : CatOK catalog)
    (hid : String) (acc : SkillPool × Option Character × List String)
    (char : String) (h : PoolCore catalog acc.1) :
    PoolCore catalog (bpStep catalog hid acc char).1 ∧
    poolFrame acc.1 (bpStep catalog hid acc char).1 := by
  obtain ⟨st, cur, logs⟩ := acc
  unfold bpStep
  cases hfn : Character.from_name catalog char with
  | none =>
    dsimp only
    exact ⟨h, poolFrame_refl st⟩
  | some c =>
    dsimp only
    have hc : c ∈ catalog := List.mem_of_find?_eq_some hfn
    have hsl1 : ∀ sk ∈ c.pure_skills,
        sk.full_name ∈ allCatalogSkillNames catalog := fun sk hsk =>
      catalog_skill_names hc
        (List.mem_append.mpr (Or.inl (List.mem_append.mpr (Or.inl hsk))))
    have hsl2 : ∀ sk ∈ c.misdocumented_skills,
        sk.full_name ∈ allCatalogSkillNames catalog := fun sk hsk =>
      catalog_skill_names hc
        (List.mem_append.mpr (Or.inl (List.mem_append.mpr (Or.inr hsk))))
    have hsl3 : ∀ sk ∈ c.suppressed_skills,
        sk.full_name ∈ allCatalogSkillNames catalog := fun sk hsk =>
      catalog_skill_names hc (List.mem_append.mpr (Or.inr hsk))
    have hdeps : ∀ d ∈ c.dependencies, d ∈ allCatalogDeps catalog :=
      fun d hd => catalog_dep_mem hc hd
    obtain ⟨h1, hf1⟩ := poolCore_add_skills hsl1 h
    by_cases h0 : (hid == "none") = true
    · rw [if_pos h0]
      obtain ⟨h4, hf4⟩ := poolCore_fold_deps CAT c.dependencies hdeps _ h1
      exact ⟨h4, poolFrame_trans hf1 hf4⟩
    · rw [if_neg h0]
      obtain ⟨h2, hf2⟩ := poolCore_add_skills hsl2 h1
      by_cases ha : (hid == "all") = true
      · rw [if_pos ha]
        obtain ⟨h3, hf3⟩ := poolCore_add_skills hsl3 h2
        obtain ⟨h4, hf4⟩ := poolCore_fold_deps CAT c.dependencies hdeps _ h3
        exact ⟨h4, poolFrame_trans (poolFrame_trans (poolFrame_trans
          hf1 hf2) hf3) hf4⟩
      · rw [if_neg ha]
        obtain ⟨h4, hf4⟩ := poolCore_fold_deps CAT c.dependencies hdeps _ h2
        exact ⟨h4, poolFrame_trans (poolFrame_trans hf1 hf2) hf4⟩

theorem build_pool_core {catalog : List Character} (CAT : CatOK catalog)
    (hid : String) :
    ∀ (srcs : List String)
      (acc : SkillPool × Option Character × List String),
    PoolCore catalog acc.1 →
    PoolCore catalog (srcs.foldl (bpStep catalog hid) acc).1 ∧
    poolFrame acc.1 (srcs.foldl (bpStep catalog hid) acc).1 := by
  intro srcs
  induction srcs with
  | nil =>
    intro acc h
    exact ⟨h, poolFrame_refl acc.1⟩
  | cons a srcs ih =>
    intro acc h
    rw [List.foldl_cons]
    obtain ⟨hc, hfr⟩ := bpStep_spec CAT hid acc a h
    obtain ⟨hc2, hfr2⟩ := ih (bpStep catalog hid acc a) hc
    exact ⟨hc2, poolFrame_trans hfr hfr2⟩

theorem setup_branches_len6 (e : Engine) (norder : Nat) :
    ∀ (children : List String) (bidx : Nat) (exp : ℚ)
      (olds news : List Branch),
    (∀ name ∈ children, ∀ bd, e.branch_defs.lookup name = some bd →
      bd.tiers.length = 6) →
    setup_branches e norder children bidx exp = some (olds, news) →
    ∀ b ∈ news, b.skills.length = 6 := by
  intro children
  induction children with
  | nil =>
    intro bidx exp olds news _ h b hb
    unfold setup_branches at h
    simp only [Option.some.injEq, Prod.mk.injEq] at h
    rw [← h.2] at hb
    exact absurd hb (List.not_mem_nil b)
  | cons name rest ih =>
    intro bidx exp olds news h6 h b hb
    unfold setup_branches at h
    cases hfb : Branch.from_branch e name with
    | none =>
      rw [hfb] at h
      exact absurd h (by simp)
    | some ob =>
      rw [hfb] at h
      dsimp only at h
      split at h
      · exact absurd h (by simp)
      · rename_i olds2 news2 hrec
        simp only [Option.some.injEq, Prod.mk.injEq] at h
        rw [← h.2] at hb
        rcases List.mem_cons.mp hb with hb1 | hb2
        · have hob : ob.skills.length = 6 := by
            unfold Branch.from_branch at hfb
            cases hlk : e.branch_defs.lookup name with
            | none =>
              rw [hlk] at hfb
              exact absurd hfb (by simp)
            | some bd =>
              rw [hlk] at hfb
              dsimp only at hfb
              cases hlay : e.layout_defs.lookup bd.layout_name with
              | none =>
                rw [hlay] at hfb
                exact absurd hfb (by simp)
              | some lay =>
                rw [hlay] at hfb
                simp only [Option.some.injEq] at hfb
                rw [← hfb]
                simp only [List.length_map]
                exact h6 name (List.mem_cons_self _ _) bd hlk
          rw [hb1]
          exact hob
        · exact ih (bidx + 1) _ olds2 news2
            (fun nm hm => h6 nm (List.mem_cons_of_mem _ hm)) hrec b hb2

theorem RNG.choice_stream {α : Type} {l : List α} {r : RNG} {a : α}
    {r' : RNG} (h : RNG.choice l r = some (a, r')) : r'.stream = r.stream := by
  unfold RNG.choice at h
  cases l with
  | nil => exact absurd h (by simp)
  | cons x xs =>
    simp only [Option.some.injEq, Prod.mk.injEq] at h
    rw [← h.2]
    rfl

theorem resolve_action_char_stream (catalog : List Character)
    (srcs : List String) (act : String) (cur : Option Character)
    (rng : RNG) :
    (resolve_action_char catalog srcs act cur rng).2.1.stream =
      rng.stream := by
  unfold resolve_action_char
  repeat' split
  all_goals first
    | rfl
    | (rename_i heq; exact RNG.choice_stream heq)

/-- After `build_pool` and the `skill_order` sort, the pool enters tree
drawing in the generation invariant (with nothing committed yet). -/
theorem C2Inv_setup {catalog : List Character} (CAT : CatOK catalog)
    {st1 st2 : SkillPool} (hcore : PoolCore catalog st1)
    (hsk : st2.skills = st1.skills)
    (hdep : st2.dependencies = st1.dependencies)
    (hord : st2.skill_order =
      (st1.skills.map (fun p : String × Skill => p.1)).insertionSort
        (fun a b => a ≤ b))
    (hex : st2.extra_skills = []) :
    C2Inv catalog st2 [] := by
  have hdn : doneNames st2 [] = [] := by
    unfold doneNames rowsOf
    rw [hex]
    rfl
  have horder_cat : ∀ q ∈ st2.skill_order,
      q ∈ allCatalogSkillNames catalog := by
    intro q hq
    rw [hord] at hq
    have hq2 : q ∈ st1.skills.map (fun p : String × Skill => p.1) :=
      (List.perm_insertionSort _ _).mem_iff.mp hq
    obtain ⟨p, hp, hpq⟩ := List.mem_map.mp hq2
    obtain ⟨pk, pv⟩ := p
    rw [← hpq]
    exact hcore.1.2.2 pk pv hp
  refine ⟨?_, ?_, ?_, ?_, ?_, ?_, ?_, ?_, ?_, ?_⟩
  · rw [hsk]
    exact hcore.1.1
  · rw [hord]
    exact (List.perm_insertionSort _ _).symm.nodup hcore.1.2.1
  · intro q
    rw [hord, hsk, (List.perm_insertionSort _ _).mem_iff]
    exact mem_keys_iff_lookup st1.skills q
  · rw [hdep]
    exact hcore.2.1
  · rw [hdep]
    exact hcore.2.2.1
  · rw [hdep]
    exact hcore.2.2.2
  · rw [hdn]
    exact List.nodup_nil
  · rw [hdn]
    intro n hn
    exact absurd hn (List.not_mem_nil n)
  · rw [hdep, hdn]
    intro k d _ q _
    exact List.not_mem_nil q
  · rw [hdep, hdn]
    intro k d hkd g hg
    refine ⟨List.not_mem_nil g, ?_⟩
    intro hgo
    exact CAT.grants_not_pool d (hcore.2.2.2 k d hkd) g hg (horder_cat g hgo)

theorem rowsLen6_of_news {st : SkillPool}
    (h : ∀ b ∈ st.new_branches, b.skills.length = 6) : rowsLen6 st := by
  intro j hj
  unfold branchAt
  exact h _ (getD_mem _ j default hj)

/-- C2: for every master seed (any in-range stream) and configuration, a
successful tree generation from a fresh pool commits each skill name at most
once across the entire generated tree — all branches, all tiers, including
the extra skills appended to tier 5 — provided the catalog's dependency data
is coherent and each child branch definition has the six game tiers. -/
theorem C2_no_duplicate_draws (fuel : Nat) (catalog : List Character)
    (tree : TreeDef) (srcs : List String) (hid act : String) (dens : ℚ)
    (rt : Bool) (cheats : List (String × Int)) (e : Engine) (rng : RNG)
    (CAT : CatOK catalog) (hok : streamOK rng)
    (h6 : ∀ name ∈ tree.children, ∀ bd,
      e.branch_defs.lookup name = some bd → bd.tiers.length = 6) :
    match (randomize_tree fuel catalog tree srcs hid act dens rt cheats
        SkillPool.init e rng).1 with
    | some r => (treeSkillNames r.1).Nodup
    | none => True := by
  split
  · rename_i r heq
    unfold randomize_tree at heq
    dsimp only at heq
    rcases hbp : build_pool catalog srcs hid
        { SkillPool.init with
          current_char_class := class_from_obj_name tree.root_name } with
      ⟨st1, cur1, logs1⟩
    rw [hbp] at heq
    dsimp only at heq
    rcases hra : resolve_action_char catalog srcs act cur1 rng with
      ⟨dc1, rng1, logs2⟩
    rw [hra] at heq
    dsimp only at heq
    split at heq
    · simp at heq
    rename_i olds news hsb
    cases dc1 with
    | none => simp at heq
    | some dc =>
    dsimp only at heq
    split at heq
    · simp at heq
    rename_i st2 rng2 logs3 hrun
    dsimp only at heq
    rw [Option.some.injEq] at heq
    rw [← heq]
    dsimp only
    set stC : SkillPool :=
      { st1 with
        skill_order :=
          (st1.skills.map (fun p : String × Skill => p.1)).insertionSort
            (fun a b => a ≤ b),
        original_branches := some olds,
        new_branches := news } with hstC
    have hcore0 : PoolCore catalog
        { SkillPool.init with
          current_char_class := class_from_obj_name tree.root_name } :=
      ⟨⟨fun k sk hk => absurd hk (List.not_mem_nil _), List.nodup_nil,
        fun k sk hk => absurd hk (List.not_mem_nil _)⟩,
       fun k d hk => absurd hk (List.not_mem_nil _),
       fun k d hk => absurd hk (List.not_mem_nil _),
       fun k d hk => absurd hk (List.not_mem_nil _)⟩
    have hbc := build_pool_core CAT hid srcs
      ({ SkillPool.init with
         current_char_class := class_from_obj_name tree.root_name }, none, [])
      hcore0
    rw [← build_pool_eq_fold, hbp] at hbc
    obtain ⟨hcore1, hframe1⟩ := hbc
    have hinvC : C2Inv catalog stC [] :=
      C2Inv_setup CAT hcore1 rfl rfl rfl hframe1.2.1
    have hr6C : rowsLen6 stC := rowsLen6_of_news (fun b hb =>
      setup_branches_len6 e _ tree.children 0 _ olds news h6 hsb b hb)
    have hinvD : C2Inv catalog (mark_used dc.action_skill hid (-1) stC).2
        [] := (mark_used_inv CAT hinvC dc.action_skill hid (-1)).1
    have hr6D : rowsLen6 (mark_used dc.action_skill hid (-1) stC).2 :=
      rowsLen6_of_shapes (mark_used_shapes _ _ _ _) hr6C
    have hokr1 : streamOK rng1 := by
      intro k
      have hs := resolve_action_char_stream catalog srcs act cur1 rng
      rw [hra] at hs
      dsimp only at hs
      rw [hs]
      exact hok k
    have hnd : (tier_steps
        (mark_used dc.action_skill hid (-1) stC).2.new_branches.length).Nodup := by
      rw [tier_steps_eq]
      exact pair_slots_nodup (fun t b => (t, b))
        (fun a b a2 b2 hh => congrArg Prod.fst hh)
        (fun a b b2 hh => congrArg Prod.snd hh) 6 _
    have hsteps : ∀ s ∈ tier_steps
        (mark_used dc.action_skill hid (-1) stC).2.new_branches.length,
        s.1 < 6 ∧
        s.2 < (mark_used dc.action_skill hid (-1) stC).2.new_branches.length ∧
        s ∉ ([] : List (Nat × Nat)) := by
      intro s hs2
      obtain ⟨hh1, hh2⟩ := (tier_steps_mem _ s).mp hs2
      exact ⟨hh1, hh2, List.not_mem_nil s⟩
    obtain ⟨hinv2, hr62, hlen2⟩ := run_steps_inv CAT fuel rt hid cheats
      (tier_steps (mark_used dc.action_skill hid (-1) stC).2.new_branches.length)
      ((mark_used dc.action_skill hid (-1) stC).2) rng1 [] st2 rng2 logs3
      hinvD hokr1 hr6D hsteps hnd hrun
    rw [List.nil_append] at hinv2
    rw [← hlen2] at hinv2
    exact treeSkillNames_nodup_of_inv hinv2 hr62
  · trivial

def c2_catalog : List Character :=
  [{ name := "Soldier", character_name := "Axton",
     action_skill := ⟨"GD_Soldier_Skills.Action.New", 1⟩,
     pure_skills := [⟨"A.A", 5⟩, ⟨"B.B", 5⟩, ⟨"C.C", 5⟩, ⟨"D.D", 5⟩,
       ⟨"E.E", 5⟩, ⟨"F.F", 5⟩, ⟨"G.G", 5⟩],
     misdocumented_skills := [], suppressed_skills := [],
     dependencies := [⟨"DepA", ["A.A"], ["X.X9"], ["B.B"], ["C.C"]⟩] }]

def c2_tree : TreeDef :=
  { root_name := "GD_Soldier_Skills.Tree",
    children := ["GD_Soldier_Skills.B1", "GD_Soldier_Skills.B2",
      "GD_Soldier_Skills.B3"] }

def c2_tiers : List (List String × Int) :=
  [([], 0), ([], 0), ([], 0), ([], 0), ([], 0), ([], 0)]

def c2_engine : Engine :=
  { branch_defs := [("GD_Soldier_Skills.B1",
      ⟨"GD_Soldier_Skills.L1", c2_tiers⟩),
      ("GD_Soldier_Skills.B2", ⟨"GD_Soldier_Skills.L2", c2_tiers⟩),
      ("GD_Soldier_Skills.B3", ⟨"GD_Soldier_Skills.L3", c2_tiers⟩)],
    layout_defs := [("GD_Soldier_Skills.L1", [[], [], [], [], [], []]),
      ("GD_Soldier_Skills.L2", [[], [], [], [], [], []]),
      ("GD_Soldier_Skills.L3", [[], [], [], [], [], []])],
    action_slots := [("GD_Soldier_Skills.Tree", ["Old.Action"])],
    com_defs := [] }

def c2_rng : RNG := ⟨fun _ => 0, 0⟩

/-- Witness for C2: a one-character catalog with one dependency, a
three-branch six-tier tree and a concrete in-range stream. -/
theorem C2_witness :
    CatOK c2_catalog ∧ streamOK c2_rng ∧
    (∀ name ∈ c2_tree.children, ∀ bd,
      c2_engine.branch_defs.lookup name = some bd →
        bd.tiers.length = 6) ∧
    (match (randomize_tree 30 c2_catalog c2_tree ["Axton"] "None" "Axton"
        10 false [] SkillPool.init c2_engine c2_rng).1 with
     | some r => (treeSkillNames r.1).Nodup
     | none => True) :=
  ⟨⟨by decide, by decide, by decide, by decide⟩,
   fun _ => ⟨le_refl 0, show (0 : ℚ) < 1 by norm_num⟩,
   by decide,
   C2_no_duplicate_draws 30 c2_catalog c2_tree ["Axton"] "None" "Axton"
     10 false [] c2_engine c2_rng
     ⟨by decide, by decide, by decide, by decide⟩
     (fun _ => ⟨le_refl 0, show (0 : ℚ) < 1 by norm_num⟩)
     (by decide)⟩

end PlayerRandomizer
